import Mathlib

/-!
# Tegra host1x channel pool and virtualised register access

A shallow embedding of

* `drivers/video/tegra/host/nvhost_channel.c` (channel pool: map, get, put,
  remove identifier, teardown), and
* `drivers/video/tegra/host/vhost/vhost.c` (chunked register read/write over
  the virtualisation transport),

followed by theorems about the embedded functions.

Conventions.  Pointers are natural numbers with `0` for `NULL`.  A
`struct nvhost_channel *` that points into the pool is the index of the slot in
`chlist`.  C arrays that the code indexes through a moving pointer (`chlist`,
the allocation bitmap, `offs`, `vals`, `regs`) are maps from index to content;
the code under study never indexes them outside the bounds fixed by its loop
counters, and those bounds are part of the statements proved below.  Calls into
collaborators that only have an effect outside the modelled state are recorded
in an event list returned next to the new state.
-/

namespace Nvhost

/-! ## Data model of `nvhost_channel.c` -/

/-- Values of `pdata->resource_policy` that the teardown distinguishes. -/
inductive nvhost_resource_policy where
  | RESOURCE_PER_DEVICE
  | RESOURCE_PER_CHANNEL_INSTANCE
  deriving DecidableEq, Repr

/-- The fields of `struct nvhost_device_data` read by the channel code. -/
structure nvhost_device_data where
  /-- The `struct platform_device *` of the device (`0` is `NULL`). -/
  pdev : Nat
  resource_policy : nvhost_resource_policy
  deriving DecidableEq, Repr

/-- The fields of `struct nvhost_channel` used by the pool code. -/
structure nvhost_channel where
  chid : Int
  /-- The counter inside `struct kref refcount`. -/
  refcount : Nat
  /-- The `void *identifier` tag (`0` is `NULL`). -/
  identifier : Nat
  /-- The `struct platform_device *dev` binding (`0` is `NULL`). -/
  dev : Nat
  /-- The array `syncpts[NVHOST_MODULE_MAX_SYNCPTS]`. -/
  syncpts : List Nat
  client_managed_syncpt : Nat
  deriving DecidableEq, Repr

/-- The fields of `struct nvhost_master` used by the pool code. -/
structure nvhost_master where
  /-- Field `info.nb_channels`. -/
  nb_channels : Nat
  /-- Field `info.ch_base`. -/
  ch_base : Int
  /-- The array `chlist`, slot index to channel. -/
  chlist : Nat → nvhost_channel
  /-- The bitmap `allocated_channels`, bit index to bit. -/
  allocated_channels : Nat → Bool

/-- Calls into collaborators made by the pool code, in program order. -/
inductive Event where
  /-- Entry into `nvhost_channel_unmap_locked` for the channel with this id. -/
  | unmap_locked (chid : Int)
  /-- The `pr_err` of the early return on an unbound channel. -/
  | pr_err_freeing_unmapped
  | nvhost_module_busy
  /-- The `WARN` taken when the power request fails. -/
  | warn_leaking_syncpts
  | cdma_stop (chid : Int)
  | set_low_ch_prio (chid : Int)
  | nvhost_syncpt_mark_unused (id : Nat)
  | nvhost_syncpt_put_ref (id : Nat)
  | nvhost_module_idle
  /-- The warning logged when a reference is dropped on a zero counter. -/
  | refcount_underflow
  deriving DecidableEq, Repr

/-- What the surroundings answer during one call into the pool code. -/
structure Env where
  /-- Return value of `nvhost_module_busy(host->dev)`. -/
  module_busy_err : Int
  /-- Whether the chip provides the optional hook `set_low_ch_prio`. -/
  has_set_low_ch_prio : Bool
  /-- The driver data attached to a platform device. -/
  platform_get_drvdata : Nat → nvhost_device_data

/-- Errno value returned (negated) for a `NULL` device-data argument. -/
def EINVAL : Int := 22

/-! ## Helpers that live outside the three source files -/

/-- Modelled from the spec: `kref_init` (linux/kref.h is not among the sources);
a fresh reference count is 1 ("refcount set to 1"). -/
def kref_init : Nat := 1

/-- Modelled from the spec: `kref_get` (linux/kref.h is not among the sources);
it raises the count by one. -/
def kref_get (refcount : Nat) : Nat := refcount + 1

/-- Modelled from the spec: `kref_get_unless_zero` (linux/kref.h is not among
the sources); it raises the count and reports success only when a reference is
live, and otherwise leaves the count alone. -/
def kref_get_unless_zero (refcount : Nat) : Bool × Nat :=
  if refcount = 0 then (false, refcount) else (true, refcount + 1)

/-- Modelled from the spec: the counter part of `kref_put` (linux/kref.h is not
among the sources).  The result is the new count, whether the release callback
is to run ("the transition from 1 to 0 triggers the lifecycle controller"), and
whether the underflow warning is logged ("refcount floors at 0, never
negative"). -/
def kref_put_count : Nat → Nat × Bool × Bool
  | 0 => (0, false, true)
  | r + 1 => (r, decide (r = 0), false)

/-- Modelled from the spec: `set_bit` (linux/bitops.h is not among the
sources); marks one bit of the allocation bitmap. -/
def set_bit (nr : Nat) (addr : Nat → Bool) : Nat → Bool :=
  fun i => if i = nr then true else addr i

/-- Modelled from the spec: `clear_bit` (linux/bitops.h is not among the
sources); clears one bit of the allocation bitmap.  The index is an `int` in the
caller; a negative one addresses nothing inside the bitmap. -/
def clear_bit (nr : Int) (addr : Nat → Bool) : Nat → Bool :=
  fun i => if (i : Int) = nr then false else addr i

/-- Scan of `find_first_zero_bit`: `n` bits left to look at, starting at `i`. -/
def find_first_zero_bit_from (addr : Nat → Bool) : Nat → Nat → Nat
  | 0, i => i
  | n + 1, i => if addr i then find_first_zero_bit_from addr n (i + 1) else i

/-- Modelled from the spec: `find_first_zero_bit` (linux/bitops.h is not among
the sources); the lowest clear bit below `size`, or `size` when there is none
("scans the bitmap for a free slot"). -/
def find_first_zero_bit (addr : Nat → Bool) (size : Nat) : Nat :=
  find_first_zero_bit_from addr size 0

/-! ## Accessors at the end of `nvhost_channel.c` -/

def nvhost_channel_nb_channels (host : nvhost_master) : Nat :=
  host.nb_channels

def nvhost_channel_ch_base (host : nvhost_master) : Int :=
  host.ch_base

def nvhost_channel_get_id_from_index (host : nvhost_master) (index : Nat) : Int :=
  nvhost_channel_ch_base host + index

def nvhost_channel_get_index_from_id (host : nvhost_master) (chid : Int) : Int :=
  chid - nvhost_channel_ch_base host

/-- Store a channel back into its slot. -/
def store_channel (host : nvhost_master) (index : Nat) (ch : nvhost_channel) :
    nvhost_master :=
  { host with chlist := fun i => if i = index then ch else host.chlist i }

/-! ## `nvhost_alloc_channels` -/

/-- A channel as `kzalloc` returns it, with `chid` assigned. -/
def zeroed_channel (max_syncpts : Nat) (chid : Int) : nvhost_channel :=
  { chid := chid, refcount := 0, identifier := 0, dev := 0,
    syncpts := List.replicate max_syncpts 0, client_managed_syncpt := 0 }

/-- The loop of `nvhost_alloc_channels` on the path where every allocation and
every hardware init hook succeeds: slots `index .. index + n - 1` are created. -/
def alloc_channels_loop (max_syncpts : Nat) :
    Nat → Nat → nvhost_master → nvhost_master
  | 0, _, host => host
  | n + 1, index, host =>
    alloc_channels_loop max_syncpts n (index + 1)
      (store_channel host index
        (zeroed_channel max_syncpts (nvhost_channel_get_id_from_index host index)))

/-- Function `nvhost_alloc_channels` on its success path (return value 0);
`max_syncpts` is the constant `NVHOST_MODULE_MAX_SYNCPTS`. -/
def nvhost_alloc_channels (max_syncpts : Nat) (host : nvhost_master) : nvhost_master :=
  alloc_channels_loop max_syncpts (nvhost_channel_nb_channels host) 0 host

/-- The zero-filled `struct nvhost_master` of a device with `nb_channels`
channels whose ids start at `ch_base`, before `nvhost_alloc_channels`. -/
def zeroed_master (max_syncpts nb_channels : Nat) (ch_base : Int) : nvhost_master :=
  { nb_channels := nb_channels, ch_base := ch_base,
    chlist := fun _ => zeroed_channel max_syncpts 0,
    allocated_channels := fun _ => false }

/-- The freshly initialised pool. -/
def fresh_pool (max_syncpts nb_channels : Nat) (ch_base : Int) : nvhost_master :=
  nvhost_alloc_channels max_syncpts (zeroed_master max_syncpts nb_channels ch_base)

/-! ## `nvhost_channel_remove_identifier` -/

/-- The search loop of `nvhost_channel_remove_identifier`: `n` slots left,
starting at `index`. -/
def remove_identifier_loop (host : nvhost_master) (identifier : Nat) :
    Nat → Nat → nvhost_master
  | 0, _ => host
  | n + 1, index =>
    let ch := host.chlist index
    if ch.identifier = identifier then
      store_channel host index { ch with identifier := 0 }
    else remove_identifier_loop host identifier n (index + 1)

/-- Function `nvhost_channel_remove_identifier`: return value and new pool. -/
def nvhost_channel_remove_identifier (host : nvhost_master) (identifier : Nat) :
    Int × nvhost_master :=
  let max_channels := nvhost_channel_nb_channels host
  (0, remove_identifier_loop host identifier max_channels 0)

/-! ## `nvhost_channel_unmap_locked` -/

/-- The loop "Release channel syncpoints" over the array `syncpts`: the new
array and the calls made. -/
def release_syncpts (policy : nvhost_resource_policy) : List Nat → List Nat × List Event
  | [] => ([], [])
  | s :: rest =>
    let r := release_syncpts policy rest
    if s = 0 then (s :: r.1, r.2)
    else
      (0 :: r.1,
        Event.nvhost_syncpt_mark_unused s ::
          ((if policy = nvhost_resource_policy.RESOURCE_PER_DEVICE
              then [Event.nvhost_syncpt_put_ref s] else []) ++ r.2))

/-- The block handling `client_managed_syncpt`. -/
def release_client_managed (policy : nvhost_resource_policy) (s : Nat) : Nat × List Event :=
  if s ≠ 0 then
    (0, Event.nvhost_syncpt_mark_unused s ::
          (if policy = nvhost_resource_policy.RESOURCE_PER_DEVICE
            then [Event.nvhost_syncpt_put_ref s] else []))
  else (s, [])

/-- Function `nvhost_channel_unmap_locked`, the release callback of the
channel's reference count, run on slot `ref`. -/
def nvhost_channel_unmap_locked (env : Env) (host : nvhost_master) (ref : Nat) :
    nvhost_master × List Event :=
  let ch := host.chlist ref
  if ch.dev = 0 then
    (host, [Event.unmap_locked ch.chid, Event.pr_err_freeing_unmapped])
  else
    let pdata := env.platform_get_drvdata ch.dev
    let err := env.module_busy_err
    let body : nvhost_channel × List Event :=
      if err ≠ 0 then (ch, [Event.warn_leaking_syncpts])
      else
        let hook := if env.has_set_low_ch_prio then [Event.set_low_ch_prio ch.chid] else []
        let sp := release_syncpts pdata.resource_policy ch.syncpts
        let cm := release_client_managed pdata.resource_policy ch.client_managed_syncpt
        ({ ch with syncpts := sp.1, client_managed_syncpt := cm.1 },
          Event.cdma_stop ch.chid :: hook ++ sp.2 ++ cm.2 ++ [Event.nvhost_module_idle])
    -- err_module_busy:
    let ch1 := body.1
    let index := nvhost_channel_get_index_from_id host ch1.chid
    let bitmap := clear_bit index host.allocated_channels
    let ch2 := { ch1 with dev := 0, identifier := 0 }
    ({ store_channel host ref ch2 with allocated_channels := bitmap },
      Event.unmap_locked ch.chid :: Event.nvhost_module_busy :: body.2)

/-! ## `nvhost_channel_map` -/

/-- The loop "check if the channel is still in use" of `nvhost_channel_map`:
`n` slots left, starting at `index`.  On a hit the result is the pool with the
extra reference and the slot found. -/
def map_alias_loop (host : nvhost_master) (identifier : Nat) :
    Nat → Nat → Option (nvhost_master × Nat)
  | 0, _ => none
  | n + 1, index =>
    let ch := host.chlist index
    if ch.identifier = identifier ∧ (kref_get_unless_zero ch.refcount).1 = true then
      some (store_channel host index
              { ch with refcount := (kref_get_unless_zero ch.refcount).2 }, index)
    else map_alias_loop host identifier n (index + 1)

/-- Function `nvhost_channel_map`.  The result is the return value, the new
pool and the slot stored through `channel` (if any).  `none` stands for the call
that never returns: with every bit below `max_channels` set, the `do ... while`
loop sleeps and rescans for ever unless another thread frees a slot, and no
other thread runs in this sequential model. -/
def nvhost_channel_map (host : nvhost_master) (pdata : Option nvhost_device_data)
    (identifier : Nat) : Option (Int × nvhost_master × Option Nat) :=
  match pdata with
  | none => some (-EINVAL, host, none)
  | some pd =>
    let max_channels := nvhost_channel_nb_channels host
    match map_alias_loop host identifier max_channels 0 with
    | some (host1, index) => some (0, host1, some index)
    | none =>
      let index := find_first_zero_bit host.allocated_channels max_channels
      if index ≥ max_channels then none
      else
        let ch := host.chlist index
        let ch1 := { ch with dev := pd.pdev, identifier := identifier, refcount := kref_init }
        some (0,
          { store_channel host index ch1 with
              allocated_channels := set_bit index host.allocated_channels },
          some index)

/-! ## `nvhost_getchannel` and `nvhost_putchannel` -/

/-- Function `nvhost_getchannel` on slot `ch`.  `none` is the fault of
`platform_get_drvdata(ch->dev)` followed by `pdata->pdev->name` on a channel
without device binding. -/
def nvhost_getchannel (host : nvhost_master) (ch : Nat) : Option nvhost_master :=
  let c := host.chlist ch
  if c.dev = 0 then none
  else some (store_channel host ch { c with refcount := kref_get c.refcount })

/-- One `kref_put(&ch->refcount, nvhost_channel_unmap_locked)` on slot `ch`. -/
def kref_put (env : Env) (host : nvhost_master) (ch : Nat) : nvhost_master × List Event :=
  let c := host.chlist ch
  let r := kref_put_count c.refcount
  let host1 := store_channel host ch { c with refcount := r.1 }
  if r.2.1 then nvhost_channel_unmap_locked env host1 ch
  else (host1, if r.2.2 then [Event.refcount_underflow] else [])

/-- The loop `for (i = 0; i < cnt; i++) kref_put(...)` with `n` rounds left. -/
def putchannel_loop (env : Env) (ch : Nat) : Nat → nvhost_master → nvhost_master × List Event
  | 0, host => (host, [])
  | n + 1, host =>
    let r := kref_put env host ch
    let rest := putchannel_loop env ch n r.1
    (rest.1, r.2 ++ rest.2)

/-- Function `nvhost_putchannel` on slot `ch`.  `none` is the fault of
`platform_get_drvdata(ch->dev)` followed by `pdata->pdev->name` on a channel
without device binding. -/
def nvhost_putchannel (env : Env) (host : nvhost_master) (ch : Nat) (cnt : Int) :
    Option (nvhost_master × List Event) :=
  if (host.chlist ch).dev = 0 then none
  else some (putchannel_loop env ch cnt.toNat host)

/-- How often the teardown was entered in an event list. -/
def teardown_count (events : List Event) : Nat :=
  events.countP (fun e => match e with
    | Event.unmap_locked _ => true
    | _ => false)

/-! ## Sequences of pool calls -/

/-- One call into the pool from a client. -/
inductive PoolCall where
  | map (pdata : Option nvhost_device_data) (identifier : Nat)
  | getchannel (ch : Nat)
  | putchannel (env : Env) (ch : Nat) (cnt : Int)
  | remove_identifier (identifier : Nat)

/-- The pool after one call, if the call returns. -/
def run_call (host : nvhost_master) : PoolCall → Option nvhost_master
  | PoolCall.map pdata identifier => (nvhost_channel_map host pdata identifier).map (·.2.1)
  | PoolCall.getchannel ch => nvhost_getchannel host ch
  | PoolCall.putchannel env ch cnt => (nvhost_putchannel env host ch cnt).map (·.1)
  | PoolCall.remove_identifier identifier =>
    some (nvhost_channel_remove_identifier host identifier).2

/-- The pool after a sequence of calls, if all of them return. -/
def run_calls (host : nvhost_master) : List PoolCall → Option nvhost_master
  | [] => some host
  | c :: cs => (run_call host c).bind (fun h => run_calls h cs)

/-! ## Data model of `vhost.c` -/

/-- Truncation of a value to the C type `u32`. -/
def u32 (x : Nat) : Nat := x % 2 ^ 32

/-- The command codes stored in `msg.cmd`; `raw` is any other bit pattern, as a
reply may carry. -/
inductive tegra_vhost_cmd where
  | TEGRA_VHOST_CMD_CONNECT
  | TEGRA_VHOST_CMD_HOST1X_REGRDWR
  | raw (code : Nat)
  deriving DecidableEq, Repr

/-- The fields of `struct tegra_vhost_cmd_msg` used by `vhost.c`.  The members
of the union `params` are kept apart: `connect_*` for `params.connect` and
`moduleid`, `count`, `write`, `regs` for `params.regrdwr`; no path of the code
writes one member and reads the other. -/
structure tegra_vhost_cmd_msg where
  cmd : tegra_vhost_cmd
  ret : Int
  handle : Nat
  /-- Field `params.connect.module`. -/
  connect_module : Int
  /-- Field `params.connect.handle`. -/
  connect_handle : Nat
  moduleid : Nat
  count : Nat
  write : Nat
  /-- The array `params.regrdwr.regs[REGRDWR_ARRAY_SIZE]`, index to word. -/
  regs : Nat → Nat

/-- What `tegra_gr_comm_sendrecv` hands back: its return value, the reply
handle, the first `sizeof(struct tegra_vhost_cmd_msg)` bytes found at the reply
pointer read as a message, and the reply size. -/
structure comm_reply where
  err : Int
  handle : Nat
  data : tegra_vhost_cmd_msg
  size : Nat

/-- The transport substrate with the remote server behind it: the size of a
command message and the exchange `tegra_gr_comm_sendrecv`, which maps the state
of the far side and a request to the new state and the reply. -/
structure Transport (σ : Type) where
  sizeof_msg : Nat
  sendrecv : σ → tegra_vhost_cmd_msg → σ × comm_reply

/-- Calls and warnings of `vhost_sendrecv` besides the exchange itself. -/
inductive CommEvent where
  /-- The `WARN_ON(size < size_out)`. -/
  | warn_on_short_reply
  | tegra_gr_comm_release (handle : Nat)
  deriving DecidableEq, Repr

/-- Outcome of `vhost_sendrecv`. -/
structure sendrecv_result (σ : Type) where
  err : Int
  /-- The caller's message after the call. -/
  msg : tegra_vhost_cmd_msg
  server : σ
  events : List CommEvent

/-- Function `vhost_sendrecv`. -/
def vhost_sendrecv {σ : Type} (comm : Transport σ) (s : σ) (msg : tegra_vhost_cmd_msg) :
    sendrecv_result σ :=
  let size_out := comm.sizeof_msg
  let r := comm.sendrecv s msg
  if r.2.err = 0 then
    { err := r.2.err, msg := r.2.data, server := r.1,
      events := (if r.2.size < size_out then [CommEvent.warn_on_short_reply] else []) ++
        [CommEvent.tegra_gr_comm_release r.2.handle] }
  else { err := r.2.err, msg := msg, server := r.1, events := [] }

/-- Outcome of `vhost_host1x_regrdwr`. -/
structure regrdwr_result (σ : Type) where
  ret : Int
  /-- The array behind `vals` after the call. -/
  vals : Nat → Nat
  server : σ
  /-- The messages handed to `vhost_sendrecv`, one per round trip, in order. -/
  sent : List tegra_vhost_cmd_msg
  /-- The message as `vhost_sendrecv` left it, one per round trip, in order. -/
  received : List tegra_vhost_cmd_msg
  events : List CommEvent

/-- Assignment `a[i] = v` on an array. -/
def poke (a : Nat → Nat) (i v : Nat) : Nat → Nat :=
  fun j => if j = i then v else a j

/-- The call `memcpy(vals, p->regs, count * sizeof(u32))` with `vals` pointing
at index `vi`; the byte count is computed in `size_t` and taken not to wrap. -/
def memcpy_words (vals : Nat → Nat) (vi : Nat) (regs : Nat → Nat) (count : Nat) : Nat → Nat :=
  fun j => if vi ≤ j ∧ j < vi + count then regs (j - vi) else vals j

/-- The inner `for` loop of the write branch of `vhost_host1x_regrdwr` with `k`
iterations left: `ptr`, `oi` and `vi` are the positions of the pointers `ptr`,
`offs` and `vals` in their arrays.  The result is the new `(oi, vi, n)` and the
new `regs`. -/
def fill_write (num_per_block : Nat) (offs vals : Nat → Nat) :
    Nat → Nat → Nat → Nat → Nat → (Nat → Nat) → (Nat × Nat × Nat) × (Nat → Nat)
  | 0, _, oi, vi, n, regs => ((oi, vi, n), regs)
  | k + 1, ptr, oi, vi, n, regs =>
    let regs1 := poke regs ptr (u32 (offs oi + u32 (n * 4)))
    let regs2 := poke regs1 (ptr + 1) (vals vi)
    let n1 := u32 (n + 1)
    if n1 = num_per_block then
      fill_write num_per_block offs vals k (ptr + 2) (oi + 1) (vi + 1) 0 regs2
    else fill_write num_per_block offs vals k (ptr + 2) oi (vi + 1) n1 regs2

/-- The inner `for` loop of the read branch of `vhost_host1x_regrdwr` with `k`
iterations left.  The result is the new `(oi, n)` and the new `regs`. -/
def fill_read (num_per_block : Nat) (offs : Nat → Nat) :
    Nat → Nat → Nat → Nat → (Nat → Nat) → (Nat × Nat) × (Nat → Nat)
  | 0, _, oi, n, regs => ((oi, n), regs)
  | k + 1, ptr, oi, n, regs =>
    let regs1 := poke regs ptr (u32 (offs oi + u32 (n * 4)))
    let n1 := u32 (n + 1)
    if n1 = num_per_block then
      fill_read num_per_block offs k (ptr + 1) (oi + 1) 0 regs1
    else fill_read num_per_block offs k (ptr + 1) oi n1 regs1

/-- Put one round trip in front of the outcome of the rounds after it. -/
def after_round {σ : Type} (request : tegra_vhost_cmd_msg) (r : sendrecv_result σ)
    (rest : regrdwr_result σ) : regrdwr_result σ :=
  { rest with sent := request :: rest.sent, received := r.msg :: rest.received,
              events := r.events ++ rest.events }

/-- The `while (remaining > 0)` loop of the write branch of
`vhost_host1x_regrdwr`.  The first argument bounds the number of round trips
still allowed; `none` means the bound was reached with the loop still running. -/
def regrdwr_write_loop {σ : Type} (REGRDWR_ARRAY_SIZE : Nat) (comm : Transport σ)
    (num_per_block : Nat) (offs vals : Nat → Nat) :
    Nat → Nat → Nat → Nat → Nat → tegra_vhost_cmd_msg → σ → Option (regrdwr_result σ)
  | 0, remaining, _, _, _, _, s =>
    if remaining = 0 then
      some { ret := 0, vals := vals, server := s, sent := [], received := [], events := [] }
    else none
  | fuel + 1, remaining, oi, vi, n, msg, s =>
    if remaining = 0 then
      some { ret := 0, vals := vals, server := s, sent := [], received := [], events := [] }
    else
      let count := min remaining (REGRDWR_ARRAY_SIZE >>> 1)
      let remaining1 := remaining - count
      let f := fill_write num_per_block offs vals count 0 oi vi n msg.regs
      let request := { msg with count := count, regs := f.2 }
      let r := vhost_sendrecv comm s request
      if r.err ≠ 0 ∨ r.msg.ret ≠ 0 then
        some { ret := -1, vals := vals, server := r.server, sent := [request],
               received := [r.msg], events := r.events }
      else
        (regrdwr_write_loop REGRDWR_ARRAY_SIZE comm num_per_block offs vals
            fuel remaining1 f.1.1 f.1.2.1 f.1.2.2 r.msg r.server).map (after_round request r)

/-- The `while (remaining > 0)` loop of the read branch of
`vhost_host1x_regrdwr`; `vi` is the position of the pointer `vals` in the output
array `vals`.  The first argument bounds the number of round trips still
allowed; `none` means the bound was reached with the loop still running. -/
def regrdwr_read_loop {σ : Type} (REGRDWR_ARRAY_SIZE : Nat) (comm : Transport σ)
    (num_per_block : Nat) (offs : Nat → Nat) :
    Nat → Nat → Nat → Nat → Nat → (Nat → Nat) → tegra_vhost_cmd_msg → σ →
      Option (regrdwr_result σ)
  | 0, remaining, _, _, _, vals, _, s =>
    if remaining = 0 then
      some { ret := 0, vals := vals, server := s, sent := [], received := [], events := [] }
    else none
  | fuel + 1, remaining, oi, n, vi, vals, msg, s =>
    if remaining = 0 then
      some { ret := 0, vals := vals, server := s, sent := [], received := [], events := [] }
    else
      let count := min remaining REGRDWR_ARRAY_SIZE
      let remaining1 := remaining - count
      let f := fill_read num_per_block offs count 0 oi n msg.regs
      let request := { msg with count := count, regs := f.2 }
      let r := vhost_sendrecv comm s request
      if r.err ≠ 0 ∨ r.msg.ret ≠ 0 then
        some { ret := -1, vals := vals, server := r.server, sent := [request],
               received := [r.msg], events := r.events }
      else
        let vals1 := memcpy_words vals vi r.msg.regs r.msg.count
        (regrdwr_read_loop REGRDWR_ARRAY_SIZE comm num_per_block offs
            fuel remaining1 f.1.1 f.1.2 (vi + r.msg.count) vals1 r.msg r.server).map
          (after_round request r)

/-- Function `vhost_host1x_regrdwr`.  `REGRDWR_ARRAY_SIZE` is the constant of
that name, `fuel` bounds the number of round trips, `s` is the state of the far
side and `msg0` the content of the uninitialised local `msg`. -/
def vhost_host1x_regrdwr {σ : Type} (REGRDWR_ARRAY_SIZE : Nat) (comm : Transport σ)
    (fuel : Nat) (s : σ) (msg0 : tegra_vhost_cmd_msg)
    (handle moduleid num_offsets block_size : Nat) (offs vals : Nat → Nat) (write : Nat) :
    Option (regrdwr_result σ) :=
  let num_per_block := block_size >>> 2
  let remaining := u32 (num_offsets * num_per_block)
  let msg := { msg0 with cmd := tegra_vhost_cmd.TEGRA_VHOST_CMD_HOST1X_REGRDWR,
                         handle := handle, moduleid := moduleid, write := write }
  if write ≠ 0 then
    regrdwr_write_loop REGRDWR_ARRAY_SIZE comm num_per_block offs vals
      fuel remaining 0 0 0 msg s
  else
    regrdwr_read_loop REGRDWR_ARRAY_SIZE comm num_per_block offs
      fuel remaining 0 0 0 vals msg s

/-! ## Module identifiers and connection set-up in `vhost.c` -/

/-- The module identifier constants that `vhost_virt_moduleid` switches on and
returns.  Their values come from headers outside the three source files and
are kept as parameters. -/
structure module_ids where
  NVHOST_MODULE_NONE : Int
  NVHOST_MODULE_ISP : Int
  NVHOST_MODULE_VI : Int
  NVHOST_MODULE_MSENC : Int
  NVHOST_MODULE_VIC : Int
  TEGRA_VHOST_MODULE_HOST : Int
  TEGRA_VHOST_MODULE_ISP : Int
  TEGRA_VHOST_MODULE_VI : Int
  TEGRA_VHOST_MODULE_MSENC : Int
  TEGRA_VHOST_MODULE_VIC : Int

/-- The expression `(1 << 16) | x` on the C type `int`. -/
def second_instance (x : Int) : Int := Int.lor 65536 x

/-- Function `vhost_virt_moduleid`: the `switch` with its seven `case` labels
in source order and the `default` that returns -1. -/
def vhost_virt_moduleid (ids : module_ids) (moduleid : Int) : Int :=
  if moduleid = ids.NVHOST_MODULE_NONE then ids.TEGRA_VHOST_MODULE_HOST
  else if moduleid = ids.NVHOST_MODULE_ISP then ids.TEGRA_VHOST_MODULE_ISP
  else if moduleid = second_instance ids.NVHOST_MODULE_ISP then
    second_instance ids.TEGRA_VHOST_MODULE_ISP
  else if moduleid = ids.NVHOST_MODULE_VI then ids.TEGRA_VHOST_MODULE_VI
  else if moduleid = second_instance ids.NVHOST_MODULE_VI then
    second_instance ids.TEGRA_VHOST_MODULE_VI
  else if moduleid = ids.NVHOST_MODULE_MSENC then ids.TEGRA_VHOST_MODULE_MSENC
  else if moduleid = ids.NVHOST_MODULE_VIC then ids.TEGRA_VHOST_MODULE_VIC
  else -1

/-- Outcome of `vhost_virt_connect`: the handle returned, the state of the far
side, the messages handed to `vhost_sendrecv` and what `vhost_sendrecv` did
besides the exchange. -/
structure connect_result (σ : Type) where
  handle : Nat
  server : σ
  sent : List tegra_vhost_cmd_msg
  events : List CommEvent

/-- Function `vhost_virt_connect`; `msg0` is the content of the uninitialised
local `msg`. -/
def vhost_virt_connect {σ : Type} (ids : module_ids) (comm : Transport σ) (s : σ)
    (msg0 : tegra_vhost_cmd_msg) (moduleid : Int) : connect_result σ :=
  let msg := { msg0 with cmd := tegra_vhost_cmd.TEGRA_VHOST_CMD_CONNECT,
                         connect_module := vhost_virt_moduleid ids moduleid }
  if msg.connect_module = -1 then { handle := 0, server := s, sent := [], events := [] }
  else
    let r := vhost_sendrecv comm s msg
    { handle := if r.err ≠ 0 ∨ r.msg.ret ≠ 0 then 0 else r.msg.connect_handle,
      server := r.server, sent := [msg], events := r.events }

/-- The fields of `struct nvhost_virt_ctx`. -/
structure nvhost_virt_ctx where
  handle : Nat
  deriving DecidableEq, Repr

/-- The virtualisation state of one device: the pointer kept by
`nvhost_set_virt_data` (`0` is `NULL`) and the contexts that are allocated,
by address. -/
structure virt_state where
  virt_ctx : Nat
  heap : Nat → Option nvhost_virt_ctx

/-- What the surroundings answer during `nvhost_virt_init`: the address that
`kzalloc` returns (`0` is `NULL`) and the return value of `vhost_comm_init`. -/
structure init_env where
  kzalloc : Nat
  comm_init_err : Int

/-- Calls made by `nvhost_virt_init` and `nvhost_virt_deinit`, in program
order. -/
inductive VirtEvent where
  | vhost_comm_init
  | vhost_comm_deinit
  /-- One exchange through `vhost_sendrecv`. -/
  | exchange
  | tegra_gr_comm_release (handle : Nat)
  | kfree (ptr : Nat)
  | nvhost_set_virt_data (ptr : Nat)
  deriving DecidableEq, Repr

/-- Errno values used in `vhost.c`. -/
def ENOMEM : Int := 12

def EFAULT : Int := 14

/-- Assignment of one object on the heap of contexts. -/
def heap_store (heap : Nat → Option nvhost_virt_ctx) (ptr : Nat) (v : Option nvhost_virt_ctx) :
    Nat → Option nvhost_virt_ctx :=
  fun p => if p = ptr then v else heap p

/-- The releases among the events of `vhost_sendrecv`, as events of the caller. -/
def release_events (events : List CommEvent) : List VirtEvent :=
  events.filterMap (fun e => match e with
    | CommEvent.tegra_gr_comm_release h => some (VirtEvent.tegra_gr_comm_release h)
    | CommEvent.warn_on_short_reply => none)

/-- Outcome of `nvhost_virt_init`. -/
structure virt_init_result (σ : Type) where
  ret : Int
  state : virt_state
  server : σ
  sent : List tegra_vhost_cmd_msg
  events : List VirtEvent

/-- Function `nvhost_virt_init` on the device whose virtualisation state is
`st`. -/
def nvhost_virt_init {σ : Type} (ids : module_ids) (comm : Transport σ) (env : init_env)
    (s : σ) (msg0 : tegra_vhost_cmd_msg) (st : virt_state) (moduleid : Int) :
    virt_init_result σ :=
  let virt_ctx := env.kzalloc
  if virt_ctx = 0 then
    { ret := -ENOMEM, state := st, server := s, sent := [], events := [] }
  else
    let st1 := { st with heap := heap_store st.heap virt_ctx (some { handle := 0 }) }
    if moduleid = ids.NVHOST_MODULE_NONE ∧ env.comm_init_err ≠ 0 then
      -- fail:
      { ret := env.comm_init_err,
        state := { st1 with heap := heap_store st1.heap virt_ctx none },
        server := s, sent := [],
        events := [VirtEvent.vhost_comm_init, VirtEvent.kfree virt_ctx] }
    else
      let init_events :=
        if moduleid = ids.NVHOST_MODULE_NONE then [VirtEvent.vhost_comm_init] else []
      let c := vhost_virt_connect ids comm s msg0 moduleid
      let st2 := { st1 with heap := heap_store st1.heap virt_ctx (some { handle := c.handle }) }
      let connect_events := c.sent.map (fun _ => VirtEvent.exchange) ++ release_events c.events
      if c.handle = 0 then
        -- fail:
        { ret := -ENOMEM,
          state := { st2 with heap := heap_store st2.heap virt_ctx none },
          server := c.server, sent := c.sent,
          events := init_events ++ connect_events ++
            (if moduleid = ids.NVHOST_MODULE_NONE then [VirtEvent.vhost_comm_deinit] else []) ++
            [VirtEvent.kfree virt_ctx] }
      else
        { ret := 0, state := { st2 with virt_ctx := virt_ctx },
          server := c.server, sent := c.sent,
          events := init_events ++ connect_events ++ [VirtEvent.nvhost_set_virt_data virt_ctx] }

/-- Function `nvhost_virt_deinit` on the device whose virtualisation state is
`st`: the new state and the calls made. -/
def nvhost_virt_deinit (st : virt_state) : virt_state × List VirtEvent :=
  let virt_ctx := st.virt_ctx
  if virt_ctx ≠ 0 then
    ({ st with heap := heap_store st.heap virt_ctx none },
      [VirtEvent.vhost_comm_deinit, VirtEvent.kfree virt_ctx])
  else (st, [])

/-! ## `vhost_rdwr_module_regs` -/

/-- What the surroundings answer during `vhost_rdwr_module_regs`: whether the
two `kmalloc` calls succeed, the return values of the three user copies (the
number of bytes left uncopied, 0 on success) and the content of the two
buffers as `kmalloc` hands them out. -/
structure staging_env where
  kmalloc_vals : Bool
  kmalloc_offs : Bool
  copy_from_user_offs : Nat
  copy_from_user_vals : Nat
  copy_to_user_vals : Nat
  vals0 : Nat → Nat
  offs0 : Nat → Nat

/-- The 32-bit word at an address after the first `b` bytes there (`b` below 4)
were overwritten with those of the word `src`, the word having been `dst`: the
`b` low-order bytes come from `src`, the others stay.  The byte order is
little-endian, as on the Tegra CPUs this driver runs on. -/
def splice_bytes (dst src b : Nat) : Nat :=
  src % 256 ^ b + dst / 256 ^ b * 256 ^ b

/-- A user copy (`copy_from_user`, `copy_to_user`) of `nbytes` bytes of which
`left` stay uncopied, on arrays of 32-bit words: the leading `nbytes - left`
bytes of `dst` are replaced by those of `src`.  A word that lies wholly inside
that range is taken from `src`, the word that the range ends in gets its
leading bytes from `src`, every later word stays. -/
def copy_user (dst src : Nat → Nat) (nbytes left : Nat) : Nat → Nat :=
  fun k =>
    if 4 * (k + 1) ≤ nbytes - left then src k
    else if 4 * k < nbytes - left then splice_bytes (dst k) (src k) (nbytes - left - 4 * k)
    else dst k

/-- The conversion of an `int` to the C type `u32`. -/
def int_to_u32 (x : Int) : Nat := (x % 2 ^ 32).toNat

/-- Outcome of `vhost_rdwr_module_regs`. -/
structure rdwr_result (σ : Type) where
  ret : Int
  /-- The caller's array `values` after the call. -/
  values : Nat → Nat
  server : σ
  sent : List tegra_vhost_cmd_msg

/-- Function `vhost_rdwr_module_regs` on the device whose virtualisation state
is `st` and whose `pdata->moduleid` is `moduleid`.  `none` is the fault of
`ctx->handle` on a context pointer that is `NULL` or freed, or the round-trip
bound of `vhost_host1x_regrdwr` being reached. -/
def vhost_rdwr_module_regs {σ : Type} (ids : module_ids) (REGRDWR_ARRAY_SIZE : Nat)
    (comm : Transport σ) (fuel : Nat) (s : σ) (msg0 : tegra_vhost_cmd_msg)
    (env : staging_env) (st : virt_state) (moduleid : Int)
    (num_offsets block_size : Nat) (offsets values : Nat → Nat) (write : Nat) :
    Option (rdwr_result σ) :=
  if env.kmalloc_vals = false then
    some { ret := -ENOMEM, values := values, server := s, sent := [] }
  else if env.kmalloc_offs = false then
    some { ret := -ENOMEM, values := values, server := s, sent := [] }
  else
    let offs := copy_user env.offs0 offsets (num_offsets * 4) env.copy_from_user_offs
    if env.copy_from_user_offs ≠ 0 then
      some { ret := -EFAULT, values := values, server := s, sent := [] }
    else
      let nbytes := u32 (num_offsets * block_size)
      let vals :=
        if write ≠ 0 then copy_user env.vals0 values nbytes env.copy_from_user_vals
        else env.vals0
      if write ≠ 0 ∧ env.copy_from_user_vals ≠ 0 then
        some { ret := -EFAULT, values := values, server := s, sent := [] }
      else if st.virt_ctx = 0 then none
      else
        match st.heap st.virt_ctx with
        | none => none
        | some ctx =>
          match vhost_host1x_regrdwr REGRDWR_ARRAY_SIZE comm fuel s msg0 ctx.handle
              (int_to_u32 (vhost_virt_moduleid ids moduleid)) num_offsets block_size
              offs vals write with
          | none => none
          | some r =>
            if r.ret ≠ 0 then
              some { ret := -EFAULT, values := values, server := r.server, sent := r.sent }
            else if write = 0 then
              some { ret := if env.copy_to_user_vals ≠ 0 then -EFAULT else 0,
                     values := copy_user values r.vals nbytes env.copy_to_user_vals,
                     server := r.server, sent := r.sent }
            else some { ret := 0, values := values, server := r.server, sent := r.sent }

/-! ## Data model of `powergate-t186.c` -/

/-- The power states named in the requests (`PG_STATE_*` of
soc/tegra/bpmp_abi.h, which is not among the sources; taken by name). -/
inductive pg_state where
  | PG_STATE_OFF
  | PG_STATE_ON
  | PG_STATE_RUNNING
  deriving DecidableEq, Repr

/-- Largest value of the C type `int`. -/
def INT_MAX : Int := 2147483647

/-- Smallest value of the C type `int`. -/
def INT_MIN : Int := -2147483648

/-- The value of an arithmetic result stored in an `int`: two's complement on
32 bits.  The kernel is built with `-fno-strict-overflow`, under which `int`
arithmetic wraps. -/
def int_of (x : Int) : Int := (x + 2147483648) % 4294967296 - 2147483648

/-- An entry of the table `t186_powergate_info`. -/
structure tegra_powergate_id_info where
  valid : Bool
  part_id : Int
  /-- The index in `t186_partition_info` of the entry that `part_info` points
  at; `none` is the `NULL` of an id without entry. -/
  part_info : Option Nat

/-- Calls into collaborators made by the power-gating code, in program order. -/
inductive PgEvent where
  /-- The `tegra_bpmp_send_receive(MRQ_PG, ...)` of `pg_set_state`, with the
  fields `id` and `set_state.state` of the request. -/
  | tegra_bpmp_send_receive (part_id : Int) (state : pg_state)
  /-- The `WARN` "partition %s refcount underflow". -/
  | warn_refcount_underflow (partition : Nat)
  deriving DecidableEq, Repr

/-- What the surroundings answer during one call into the power-gating code. -/
structure pg_env where
  /-- Return value of `tegra_bpmp_send_receive`. -/
  send_receive_ret : Int

/-- Function `pg_set_state`: return value and the request sent.  The table
`t186_powergate_info` is a parameter: the ids that index it come from headers
outside the sources. -/
def pg_set_state (t186_powergate_info : Nat → tegra_powergate_id_info) (env : pg_env)
    (id : Nat) (state : pg_state) : Int × List PgEvent :=
  (env.send_receive_ret,
    [PgEvent.tegra_bpmp_send_receive (t186_powergate_info id).part_id state])

/-- Outcome of a power-gating call: return value, the field `refcount` of every
entry of `t186_partition_info`, and the calls made. -/
structure pg_result where
  ret : Int
  refcount : Nat → Int
  events : List PgEvent

/-- Function `tegra186_pg_powergate_partition`; `refcount` holds the field
`refcount` of every entry of `t186_partition_info`.  `none` is the fault of
`mutex_lock(&partition->pg_mutex)` on a `NULL` partition. -/
def tegra186_pg_powergate_partition (t186_powergate_info : Nat → tegra_powergate_id_info)
    (env : pg_env) (refcount : Nat → Int) (id : Nat) : Option pg_result :=
  match (t186_powergate_info id).part_info with
  | none => none
  | some partition =>
    if refcount partition ≠ 0 then
      let r1 := int_of (refcount partition - 1)
      let refcount1 : Nat → Int := fun k => if k = partition then r1 else refcount k
      if r1 = 0 then
        let r := pg_set_state t186_powergate_info env id pg_state.PG_STATE_OFF
        some { ret := r.1, refcount := refcount1, events := r.2 }
      else some { ret := 0, refcount := refcount1, events := [] }
    else
      some { ret := 0, refcount := refcount,
             events := [PgEvent.warn_refcount_underflow partition] }

/-- Function `tegra186_pg_unpowergate_partition`.  `none` is the fault of
`mutex_lock(&partition->pg_mutex)` on a `NULL` partition. -/
def tegra186_pg_unpowergate_partition (t186_powergate_info : Nat → tegra_powergate_id_info)
    (env : pg_env) (refcount : Nat → Int) (id : Nat) : Option pg_result :=
  match (t186_powergate_info id).part_info with
  | none => none
  | some partition =>
    let old := refcount partition
    let refcount1 : Nat → Int :=
      fun k => if k = partition then int_of (old + 1) else refcount k
    if old = 0 then
      let r := pg_set_state t186_powergate_info env id pg_state.PG_STATE_ON
      some { ret := r.1, refcount := refcount1, events := r.2 }
    else some { ret := 0, refcount := refcount1, events := [] }

/-- One call into the power-gating code from a client. -/
inductive PgCall where
  | powergate (env : pg_env) (id : Nat)
  | unpowergate (env : pg_env) (id : Nat)

/-- The refcounts after one call, if the call returns. -/
def run_pg_call (t186_powergate_info : Nat → tegra_powergate_id_info)
    (refcount : Nat → Int) : PgCall → Option (Nat → Int)
  | PgCall.powergate env id =>
    (tegra186_pg_powergate_partition t186_powergate_info env refcount id).map
      (fun r => r.refcount)
  | PgCall.unpowergate env id =>
    (tegra186_pg_unpowergate_partition t186_powergate_info env refcount id).map
      (fun r => r.refcount)

/-- The refcounts after a sequence of calls, if all of them return. -/
def run_pg_calls (t186_powergate_info : Nat → tegra_powergate_id_info) :
    (Nat → Int) → List PgCall → Option (Nat → Int)
  | refcount, [] => some refcount
  | refcount, c :: cs =>
    (run_pg_call t186_powergate_info refcount c).bind
      (fun r => run_pg_calls t186_powergate_info r cs)

/-! ## Vocabulary of the statements and sample inputs -/

/-- The number of set bits among the first `nbits` bits of a bitmap (the
kernel's `bitmap_weight`); the code does not call it, it serves to state how
many slots are allocated. -/
def bitmap_weight (addr : Nat → Bool) (nbits : Nat) : Nat :=
  ((List.range nbits).filter addr).length

/-- The allocation bits of the pool all lie below the slot count `N`. -/
def bits_below (host : nvhost_master) (N : Nat) : Prop :=
  host.nb_channels = N ∧ ∀ i, host.allocated_channels i = true → i < N

/-- Slot `i` carries `identifier` and holds a live reference: what the first
loop of `nvhost_channel_map` looks for. -/
def live_alias (host : nvhost_master) (identifier : Nat) (i : Nat) : Prop :=
  (host.chlist i).identifier = identifier ∧ 0 < (host.chlist i).refcount

/-- The pool with the refcount of slot `ch` replaced by `k`. -/
def with_refcount (host : nvhost_master) (ch k : Nat) : nvhost_master :=
  store_channel host ch { host.chlist ch with refcount := k }

instance (host : nvhost_master) (identifier i : Nat) :
    Decidable (live_alias host identifier i) := by
  unfold live_alias
  infer_instance

/-- The counts of the round trips, in order. -/
def sent_counts (sent : List tegra_vhost_cmd_msg) : List Nat :=
  sent.map (fun m => m.count)

/-- The offsets placed in the messages of a read, concatenated over the round
trips: the first `count` words of `regs` of each message. -/
def sent_offsets (sent : List tegra_vhost_cmd_msg) : List Nat :=
  sent.flatMap (fun m => (List.range m.count).map m.regs)

/-- The (offset, value) pairs packed in the messages of a write, concatenated
over the round trips: the first `count` pairs of words of `regs` of each
message. -/
def sent_pairs (sent : List tegra_vhost_cmd_msg) : List (Nat × Nat) :=
  sent.flatMap (fun m => (List.range m.count).map (fun i => (m.regs (2 * i), m.regs (2 * i + 1))))

/-- The words that `memcpy` takes from the replies of a read, concatenated over
the round trips: the first `count` words of `regs` of each reply. -/
def received_words (received : List tegra_vhost_cmd_msg) : List Nat :=
  received.flatMap (fun m => (List.range m.count).map m.regs)

/-- The unchunked single-pass offset list of the specification:
`offs[u] + 4*n` for `u` in `0 .. num_offsets-1` and `n` in `0 .. r-1`, modulo
`2^32`. -/
def unchunked_offsets (offs : Nat → Nat) (num_offsets r : Nat) : List Nat :=
  (List.range num_offsets).flatMap (fun u => (List.range r).map (fun n => u32 (offs u + 4 * n)))

/-- The unchunked pair list of the specification:
`(offs[k / r] + 4*(k mod r), vals[k])` for `k` in `0 .. num_offsets*r - 1`. -/
def unchunked_pairs (offs vals : Nat → Nat) (num_offsets r : Nat) : List (Nat × Nat) :=
  (List.range (num_offsets * r)).map (fun k => (u32 (offs (k / r) + 4 * (k % r)), vals k))

/-- The offset of scalar operation number `k` when every unit has `r`
registers: base offset of unit `k / r` plus 4 times `k mod r`, as a `u32`. -/
def op_offset (offs : Nat → Nat) (r k : Nat) : Nat :=
  u32 (offs (k / r) + 4 * (k % r))

/-- The round sizes "min(remaining, capacity) in turn" in closed form: full
rounds of `cap` followed by the remainder, if any. -/
def chunk_counts (total cap : Nat) : List Nat :=
  List.replicate (total / cap) cap ++ (if total % cap = 0 then [] else [total % cap])

/-- The capacity of one round trip: all of `regs` for offsets alone, half of it
for offset and value pairs. -/
def round_capacity (REGRDWR_ARRAY_SIZE write : Nat) : Nat :=
  if write ≠ 0 then REGRDWR_ARRAY_SIZE >>> 1 else REGRDWR_ARRAY_SIZE

/-- Every exchange succeeds: the transport reports no error and the reply
carries status 0. -/
def always_succeeds {σ : Type} (comm : Transport σ) : Prop :=
  ∀ s m, (comm.sendrecv s m).2.err = 0 ∧ (comm.sendrecv s m).2.data.ret = 0

/-- Every reply carries the `count` of its request. -/
def echoes_count {σ : Type} (comm : Transport σ) : Prop :=
  ∀ s m, (comm.sendrecv s m).2.data.count = m.count

/-- A sample register file behind the server: the value of the register at
`offset`. -/
def sample_register (offset : Nat) : Nat := offset + 1000

/-- A sample server without state: it answers a read with the register values
in place of the offsets and echoes the other fields, with status 0. -/
def sample_server : Transport Unit :=
  { sizeof_msg := 64,
    sendrecv := fun _ m =>
      ((), { err := 0, handle := 1, size := 64,
             data := { m with ret := 0,
                              regs := fun i => if m.write = 0 then sample_register (m.regs i)
                                               else m.regs i } }) }

/-- A sample server that reports success but a `count` of 0 in every reply. -/
def zero_count_server : Transport Unit :=
  { sizeof_msg := 64,
    sendrecv := fun _ m =>
      ((), { err := 0, handle := 1, size := 64,
             data := { m with ret := 0, count := 0, regs := fun _ => 99 } }) }

/-- A sample content of the uninitialised local `msg`. -/
def sample_msg0 : tegra_vhost_cmd_msg :=
  { cmd := tegra_vhost_cmd.raw 0, ret := 0, handle := 0, connect_module := 0,
    connect_handle := 0, moduleid := 0, count := 0, write := 0, regs := fun _ => 0 }

/-- Sample offsets: unit `u` starts at `0x100 * (u + 1)`. -/
def sample_offs (u : Nat) : Nat := 256 * (u + 1)

/-- Sample values for a write: `0xAA, 0xBB, ...`. -/
def sample_vals (k : Nat) : Nat := 170 + 17 * k

/-- The handles passed to `tegra_gr_comm_release`, in order. -/
def releases (events : List CommEvent) : List Nat :=
  events.filterMap (fun e => match e with
    | CommEvent.tegra_gr_comm_release h => some h
    | CommEvent.warn_on_short_reply => none)

/-- The ids passed to `nvhost_syncpt_mark_unused`, in order. -/
def marked_unused (events : List Event) : List Nat :=
  events.filterMap (fun e => match e with
    | Event.nvhost_syncpt_mark_unused id => some id
    | _ => none)

/-- The ids passed to `nvhost_syncpt_put_ref`, in order. -/
def put_refs (events : List Event) : List Nat :=
  events.filterMap (fun e => match e with
    | Event.nvhost_syncpt_put_ref id => some id
    | _ => none)

/-- The syncpoint ids a slot holds: the nonzero entries of `syncpts` in index
order, then `client_managed_syncpt` if nonzero. -/
def held_syncpts (ch : nvhost_channel) : List Nat :=
  ch.syncpts.filter (fun x => decide (x ≠ 0)) ++
    (if ch.client_managed_syncpt ≠ 0 then [ch.client_managed_syncpt] else [])

/-- Sample surroundings in which the power request fails. -/
def sample_env_no_power : Env :=
  { module_busy_err := -16, has_set_low_ch_prio := true,
    platform_get_drvdata := fun _ =>
      { pdev := 7, resource_policy := nvhost_resource_policy.RESOURCE_PER_DEVICE } }

/-- The seven `case` labels of `vhost_virt_moduleid`, in source order. -/
def module_table (ids : module_ids) : List Int :=
  [ids.NVHOST_MODULE_NONE, ids.NVHOST_MODULE_ISP, second_instance ids.NVHOST_MODULE_ISP,
   ids.NVHOST_MODULE_VI, second_instance ids.NVHOST_MODULE_VI, ids.NVHOST_MODULE_MSENC,
   ids.NVHOST_MODULE_VIC]

/-- The remote module ids are enumerators counted from 0 upwards: none of them
is negative. -/
def tegra_ids_nonneg (ids : module_ids) : Prop :=
  0 ≤ ids.TEGRA_VHOST_MODULE_HOST ∧ 0 ≤ ids.TEGRA_VHOST_MODULE_ISP ∧
  0 ≤ ids.TEGRA_VHOST_MODULE_VI ∧ 0 ≤ ids.TEGRA_VHOST_MODULE_MSENC ∧
  0 ≤ ids.TEGRA_VHOST_MODULE_VIC

/-- The message that `vhost_virt_connect` hands to `vhost_sendrecv`. -/
def connect_request (ids : module_ids) (msg0 : tegra_vhost_cmd_msg) (moduleid : Int) :
    tegra_vhost_cmd_msg :=
  { msg0 with cmd := tegra_vhost_cmd.TEGRA_VHOST_CMD_CONNECT,
              connect_module := vhost_virt_moduleid ids moduleid }

/-- Sample values of the module identifier constants. -/
def sample_ids : module_ids :=
  { NVHOST_MODULE_NONE := -1, NVHOST_MODULE_ISP := 3, NVHOST_MODULE_VI := 2,
    NVHOST_MODULE_MSENC := 5, NVHOST_MODULE_VIC := 8,
    TEGRA_VHOST_MODULE_HOST := 0, TEGRA_VHOST_MODULE_ISP := 3, TEGRA_VHOST_MODULE_VI := 2,
    TEGRA_VHOST_MODULE_MSENC := 4, TEGRA_VHOST_MODULE_VIC := 1 }

/-- A sample server that grants every connection with handle 77 and otherwise
behaves like `sample_server`. -/
def granting_server : Transport Unit :=
  { sizeof_msg := 64,
    sendrecv := fun _ m =>
      ((), { err := 0, handle := 1, size := 64,
             data := { m with ret := 0, connect_handle := 77,
                              regs := fun i => if m.write = 0 then sample_register (m.regs i)
                                               else m.regs i } }) }

/-- A sample server that answers every request with status 0 and handle 0. -/
def refusing_server : Transport Unit :=
  { sizeof_msg := 64,
    sendrecv := fun _ m =>
      ((), { err := 0, handle := 1, size := 64,
             data := { m with ret := 0, connect_handle := 0 } }) }

/-- A sample server whose transport reports error -5 on every exchange. -/
def failing_server : Transport Unit :=
  { sizeof_msg := 64,
    sendrecv := fun _ m => ((), { err := -5, handle := 0, size := 0, data := m }) }

/-- The virtualisation state of a device that never connected. -/
def unconnected_state : virt_state :=
  { virt_ctx := 0, heap := fun _ => none }

/-- The virtualisation state of a device connected with handle 77, its context
at address 100. -/
def connected_state : virt_state :=
  { virt_ctx := 100, heap := fun p => if p = 100 then some { handle := 77 } else none }

/-- Sample surroundings of `nvhost_virt_init`: `kzalloc` returns address 100
and the transport comes up. -/
def sample_init_env : init_env :=
  { kzalloc := 100, comm_init_err := 0 }

/-- Sample surroundings of `vhost_rdwr_module_regs` in which every allocation
and every user copy succeeds. -/
def sample_staging : staging_env :=
  { kmalloc_vals := true, kmalloc_offs := true, copy_from_user_offs := 0,
    copy_from_user_vals := 0, copy_to_user_vals := 0,
    vals0 := fun _ => 0, offs0 := fun _ => 0 }

/-- Sample surroundings of `vhost_rdwr_module_regs` in which the copy of the
offsets from the caller faults. -/
def faulting_staging : staging_env :=
  { kmalloc_vals := true, kmalloc_offs := true, copy_from_user_offs := 4,
    copy_from_user_vals := 0, copy_to_user_vals := 0,
    vals0 := fun _ => 0, offs0 := fun _ => 0 }

/-- How often `vhost_comm_init` was called. -/
def comm_init_calls (events : List VirtEvent) : Nat :=
  events.count VirtEvent.vhost_comm_init

/-- How often `vhost_comm_deinit` was called. -/
def comm_deinit_calls (events : List VirtEvent) : Nat :=
  events.count VirtEvent.vhost_comm_deinit

/-- The events of one `vhost_virt_connect` as `nvhost_virt_init` sees them. -/
def connect_events {σ : Type} (c : connect_result σ) : List VirtEvent :=
  c.sent.map (fun _ => VirtEvent.exchange) ++ release_events c.events

/-- The exchange of one round trip failed: `vhost_sendrecv` returned a
transport error or left a nonzero status in the message. -/
def exchange_failed {σ : Type} (r : sendrecv_result σ) : Prop :=
  r.err ≠ 0 ∨ r.msg.ret ≠ 0

instance {σ : Type} (r : sendrecv_result σ) : Decidable (exchange_failed r) := by
  unfold exchange_failed
  infer_instance

/-- The outcomes of `vhost_sendrecv` for the messages `sent` handed to it one
after the other, starting with the far side in state `s`. -/
def replay {σ : Type} (comm : Transport σ) : σ → List tegra_vhost_cmd_msg →
    List (sendrecv_result σ)
  | _, [] => []
  | s, m :: ms => vhost_sendrecv comm s m :: replay comm (vhost_sendrecv comm s m).server ms

/-- The words that the rounds before the first failed one deliver: the first
`count` words of `regs` of each reply, in round-trip order. -/
def copied_words {σ : Type} : List (sendrecv_result σ) → List Nat
  | [] => []
  | o :: os =>
    if exchange_failed o then []
    else (List.range o.msg.count).map o.msg.regs ++ copied_words os

/-- The message that one round of the read loop hands to `vhost_sendrecv`. -/
def read_request (C r : Nat) (offs : Nat → Nat) (remaining oi n : Nat)
    (msg : tegra_vhost_cmd_msg) : tegra_vhost_cmd_msg :=
  { msg with count := min remaining C,
             regs := (fill_read r offs (min remaining C) 0 oi n msg.regs).2 }

/-- The message that one round of the write loop hands to `vhost_sendrecv`. -/
def write_request (C r : Nat) (offs vals : Nat → Nat) (remaining oi vi n : Nat)
    (msg : tegra_vhost_cmd_msg) : tegra_vhost_cmd_msg :=
  { msg with count := min remaining (C >>> 1),
             regs := (fill_write r offs vals (min remaining (C >>> 1)) 0 oi vi n msg.regs).2 }

/-- A sample server that counts the exchanges in its state: it behaves like
`sample_server`, except that its second reply carries status -22. -/
def flaky_server : Transport Nat :=
  { sizeof_msg := 64,
    sendrecv := fun n m =>
      (n + 1, { err := 0, handle := 1, size := 64,
                data := { m with ret := if n = 1 then -22 else 0,
                                 regs := fun i => if m.write = 0 then sample_register (m.regs i)
                                                  else m.regs i } }) }

/-- The bookkeeping of slot `i` is consistent: its allocation bit is set exactly
when it holds a reference, it holds a reference exactly when it is bound to a
device, a slot that carries an identifier holds a reference, set bits lie inside
the pool, and a slot of the pool has the id `ch_base + i`. -/
def slot_consistent (host : nvhost_master) (i : Nat) : Prop :=
  (host.allocated_channels i = true ↔ 0 < (host.chlist i).refcount) ∧
  (0 < (host.chlist i).refcount ↔ (host.chlist i).dev ≠ 0) ∧
  ((host.chlist i).identifier ≠ 0 → 0 < (host.chlist i).refcount) ∧
  (host.allocated_channels i = true → i < host.nb_channels) ∧
  (i < host.nb_channels → (host.chlist i).chid = host.ch_base + i)

/-- Every slot of the pool is consistent. -/
def pool_consistent (host : nvhost_master) : Prop :=
  ∀ i, slot_consistent host i

/-- The call hands a device to the pool: the device data of an
`nvhost_channel_map`, when present, has a `pdev` that is not `NULL`.  The source
dereferences it on entry (`nvhost_get_host(pdata->pdev)`) and again for the
trace (`pdata->pdev->name`); in the embedding the pool is passed in directly. -/
def binds_device : PoolCall → Prop
  | PoolCall.map (some pd) _ => pd.pdev ≠ 0
  | _ => True

/-- No two distinct slots with a live reference carry the same non-null
identifier. -/
def unique_live_identifiers (host : nvhost_master) : Prop :=
  ∀ identifier, identifier ≠ 0 →
    ∀ i j, live_alias host identifier i → live_alias host identifier j → i = j

/-- What the pool calls keep true about liveness: a slot bound to a device holds
a reference, a slot that holds a reference lies inside the pool, and live
identifiers are unique. -/
def alias_consistent (host : nvhost_master) : Prop :=
  (∀ i, (host.chlist i).dev ≠ 0 → 0 < (host.chlist i).refcount) ∧
  (∀ i, 0 < (host.chlist i).refcount → i < host.nb_channels) ∧
  unique_live_identifiers host

/-- The states requested from the power controller, in order. -/
def state_requests (events : List PgEvent) : List pg_state :=
  events.filterMap (fun e => match e with
    | PgEvent.tegra_bpmp_send_receive _ state => some state
    | PgEvent.warn_refcount_underflow _ => none)

/-- How many calls of a sequence are `tegra186_pg_unpowergate_partition`. -/
def unpowergate_count : List PgCall → Nat
  | [] => 0
  | PgCall.powergate _ _ :: cs => unpowergate_count cs
  | PgCall.unpowergate _ _ :: cs => unpowergate_count cs + 1

/-- The refcounts with the one of `partition` replaced by `v`. -/
def with_partition (refcount : Nat → Int) (partition : Nat) (v : Int) : Nat → Int :=
  fun k => if k = partition then v else refcount k

/-- A sample table: ids 0 to 16 name the partitions 0 to 16, with the
`part_id` of the source (0 to 15, and 43 for the last one). -/
def sample_powergate_info (id : Nat) : tegra_powergate_id_info :=
  if id < 17 then
    { valid := true, part_id := if id = 16 then 43 else id, part_info := some id }
  else { valid := false, part_id := 0, part_info := none }

/-- Sample surroundings: the power controller answers -22. -/
def sample_pg_env : pg_env :=
  { send_receive_ret := -22 }

/-- A sample session on partition 12: on, on, off, off, off. -/
def sample_pg_calls : List PgCall :=
  [PgCall.unpowergate sample_pg_env 12, PgCall.unpowergate sample_pg_env 12,
   PgCall.powergate sample_pg_env 12, PgCall.powergate sample_pg_env 12,
   PgCall.powergate sample_pg_env 12]

/-- Sample surroundings of `vhost_rdwr_module_regs` in which every allocation
and every user copy succeeds and `kmalloc` hands out a buffer full of stale
bytes `0xAA`. -/
def stale_staging : staging_env :=
  { kmalloc_vals := true, kmalloc_offs := true, copy_from_user_offs := 0,
    copy_from_user_vals := 0, copy_to_user_vals := 0,
    vals0 := fun _ => 2863311530, offs0 := fun _ => 0 }

/-- A sample device. -/
def sample_pdata : nvhost_device_data :=
  { pdev := 7, resource_policy := nvhost_resource_policy.RESOURCE_PER_DEVICE }

/-- Sample surroundings: the power request succeeds and the hook exists. -/
def sample_env : Env :=
  { module_busy_err := 0, has_set_low_ch_prio := true,
    platform_get_drvdata := fun _ => sample_pdata }

/-- A sample client session on a pool of two slots. -/
def sample_calls : List PoolCall :=
  [PoolCall.map (some sample_pdata) 11, PoolCall.map (some sample_pdata) 12,
   PoolCall.getchannel 0, PoolCall.putchannel sample_env 0 2,
   PoolCall.remove_identifier 12]

/-- A session that maps a channel and then removes its identifier. -/
def untag_calls : List PoolCall :=
  [PoolCall.map (some sample_pdata) 11, PoolCall.remove_identifier 11]

/-- A session on a pool of three slots in which identifier 11 is mapped
twice, loses its tag and is mapped again. -/
def alias_calls : List PoolCall :=
  [PoolCall.map (some sample_pdata) 11, PoolCall.map (some sample_pdata) 12,
   PoolCall.map (some sample_pdata) 11, PoolCall.remove_identifier 11,
   PoolCall.map (some sample_pdata) 11]

/-- A pool of two slots (ids 5 and 6) in which slot 0 is mapped for
identifier 11 with two references and slot 1 is free. -/
def sample_pool : nvhost_master :=
  { nb_channels := 2, ch_base := 5,
    chlist := fun i =>
      if i = 0 then
        { chid := 5, refcount := 2, identifier := 11, dev := 7,
          syncpts := [3, 0], client_managed_syncpt := 4 }
      else zeroed_channel 2 (5 + i),
    allocated_channels := fun i => decide (i = 0) }

/-! ## Frame lemmas for the pool operations -/

theorem store_channel_nb (host : nvhost_master) (i : Nat) (c : nvhost_channel) :
    (store_channel host i c).nb_channels = host.nb_channels := rfl

theorem store_channel_base (host : nvhost_master) (i : Nat) (c : nvhost_channel) :
    (store_channel host i c).ch_base = host.ch_base := rfl

theorem store_channel_bitmap (host : nvhost_master) (i : Nat) (c : nvhost_channel) :
    (store_channel host i c).allocated_channels = host.allocated_channels := rfl

theorem store_channel_same (host : nvhost_master) (i : Nat) (c : nvhost_channel) :
    (store_channel host i c).chlist i = c := by
  simp [store_channel]

theorem store_channel_other (host : nvhost_master) (i j : Nat) (c : nvhost_channel)
    (hne : j ≠ i) : (store_channel host i c).chlist j = host.chlist j := by
  simp [store_channel, hne]

/-- What `find_first_zero_bit_from` returns: an index in `[i, i + n]`, clear
when it is below `i + n`, with every bit from `i` up to it set. -/
theorem find_first_zero_bit_from_spec (addr : Nat → Bool) :
    ∀ n i, i ≤ find_first_zero_bit_from addr n i ∧
      find_first_zero_bit_from addr n i ≤ i + n ∧
      (find_first_zero_bit_from addr n i < i + n →
        addr (find_first_zero_bit_from addr n i) = false) ∧
      (∀ j, i ≤ j → j < find_first_zero_bit_from addr n i → addr j = true) := by
  intro n
  induction n with
  | zero =>
    intro i
    refine ⟨le_refl _, le_refl _, ?_, ?_⟩
    · intro h; simp [find_first_zero_bit_from] at h
    · intro j h1 h2; simp [find_first_zero_bit_from] at h2; omega
  | succ n ih =>
    intro i
    by_cases hb : addr i = true
    · have hstep : find_first_zero_bit_from addr (n + 1) i =
          find_first_zero_bit_from addr n (i + 1) := by
        simp [find_first_zero_bit_from, hb]
      rw [hstep]
      obtain ⟨h1, h2, h3, h4⟩ := ih (i + 1)
      refine ⟨by omega, by omega, ?_, ?_⟩
      · intro h; exact h3 (by omega)
      · intro j hj1 hj2
        by_cases hji : j = i
        · subst hji; exact hb
        · exact h4 j (by omega) hj2
    · have hstep : find_first_zero_bit_from addr (n + 1) i = i := by
        simp [find_first_zero_bit_from, hb]
      rw [hstep]
      refine ⟨le_refl _, by omega, ?_, ?_⟩
      · intro _; simpa using hb
      · intro j hj1 hj2; omega

theorem find_first_zero_bit_le (addr : Nat → Bool) (size : Nat) :
    find_first_zero_bit addr size ≤ size := by
  have h := (find_first_zero_bit_from_spec addr size 0).2.1
  simpa [find_first_zero_bit] using h

theorem find_first_zero_bit_clear (addr : Nat → Bool) (size : Nat)
    (h : find_first_zero_bit addr size < size) :
    addr (find_first_zero_bit addr size) = false := by
  have h3 := (find_first_zero_bit_from_spec addr size 0).2.2.1
  simp only [find_first_zero_bit] at h ⊢
  exact h3 (by omega)

theorem find_first_zero_bit_below (addr : Nat → Bool) (size j : Nat)
    (h : j < find_first_zero_bit addr size) : addr j = true := by
  have h4 := (find_first_zero_bit_from_spec addr size 0).2.2.2
  exact h4 j (Nat.zero_le _) h

/-- A clear bit below `size` makes the scan succeed, at or before that bit. -/
theorem find_first_zero_bit_le_of_clear (addr : Nat → Bool) (size j : Nat)
    (hc : addr j = false) : find_first_zero_bit addr size ≤ j := by
  by_contra hlt
  have := find_first_zero_bit_below addr size j (by omega)
  rw [hc] at this
  exact Bool.noConfusion this

theorem remove_identifier_loop_nb (host : nvhost_master) (identifier : Nat) :
    ∀ n index, (remove_identifier_loop host identifier n index).nb_channels
      = host.nb_channels := by
  intro n
  induction n with
  | zero => intro index; rfl
  | succ n ih =>
    intro index
    simp only [remove_identifier_loop]
    split
    · rfl
    · exact ih _

theorem remove_identifier_loop_bitmap (host : nvhost_master) (identifier : Nat) :
    ∀ n index, (remove_identifier_loop host identifier n index).allocated_channels
      = host.allocated_channels := by
  intro n
  induction n with
  | zero => intro index; rfl
  | succ n ih =>
    intro index
    simp only [remove_identifier_loop]
    split
    · rfl
    · exact ih _

theorem map_alias_loop_frame (host : nvhost_master) (identifier : Nat) :
    ∀ n index host1 found, map_alias_loop host identifier n index = some (host1, found) →
      host1.nb_channels = host.nb_channels ∧
      host1.ch_base = host.ch_base ∧
      host1.allocated_channels = host.allocated_channels := by
  intro n
  induction n with
  | zero => intro index host1 found h; simp [map_alias_loop] at h
  | succ n ih =>
    intro index host1 found h
    simp only [map_alias_loop] at h
    split at h
    · simp only [Option.some.injEq, Prod.mk.injEq] at h
      obtain ⟨h1, _⟩ := h
      subst h1
      exact ⟨rfl, rfl, rfl⟩
    · exact ih _ _ _ h

theorem clear_bit_sub (nr : Int) (addr : Nat → Bool) (i : Nat)
    (h : clear_bit nr addr i = true) : addr i = true := by
  unfold clear_bit at h
  split at h
  · exact Bool.noConfusion h
  · exact h

theorem unmap_locked_nb (env : Env) (host : nvhost_master) (ref : Nat) :
    (nvhost_channel_unmap_locked env host ref).1.nb_channels = host.nb_channels := by
  unfold nvhost_channel_unmap_locked
  simp only
  split <;> rfl

theorem unmap_locked_bitmap_sub (env : Env) (host : nvhost_master) (ref i : Nat)
    (h : (nvhost_channel_unmap_locked env host ref).1.allocated_channels i = true) :
    host.allocated_channels i = true := by
  unfold nvhost_channel_unmap_locked at h
  simp only at h
  split at h
  · exact h
  · exact clear_bit_sub _ _ _ h

theorem kref_put_nb (env : Env) (host : nvhost_master) (ch : Nat) :
    (kref_put env host ch).1.nb_channels = host.nb_channels := by
  unfold kref_put
  simp only
  split
  · rw [unmap_locked_nb]; rfl
  · rfl

theorem kref_put_bitmap_sub (env : Env) (host : nvhost_master) (ch i : Nat)
    (h : (kref_put env host ch).1.allocated_channels i = true) :
    host.allocated_channels i = true := by
  unfold kref_put at h
  simp only at h
  split at h
  · have h2 := unmap_locked_bitmap_sub env _ ch i h
    exact h2
  · exact h

theorem putchannel_loop_nb (env : Env) (ch : Nat) :
    ∀ n host, (putchannel_loop env ch n host).1.nb_channels = host.nb_channels := by
  intro n
  induction n with
  | zero => intro host; rfl
  | succ n ih =>
    intro host
    simp only [putchannel_loop]
    rw [ih, kref_put_nb]

theorem putchannel_loop_bitmap_sub (env : Env) (ch i : Nat) :
    ∀ n host, (putchannel_loop env ch n host).1.allocated_channels i = true →
      host.allocated_channels i = true := by
  intro n
  induction n with
  | zero => intro host h; exact h
  | succ n ih =>
    intro host h
    simp only [putchannel_loop] at h
    exact kref_put_bitmap_sub env host ch i (ih _ h)

theorem alloc_channels_loop_frame (max_syncpts : Nat) :
    ∀ n index host,
      (alloc_channels_loop max_syncpts n index host).nb_channels = host.nb_channels ∧
      (alloc_channels_loop max_syncpts n index host).ch_base = host.ch_base ∧
      (alloc_channels_loop max_syncpts n index host).allocated_channels
        = host.allocated_channels := by
  intro n
  induction n with
  | zero => intro index host; exact ⟨rfl, rfl, rfl⟩
  | succ n ih =>
    intro index host
    simp only [alloc_channels_loop]
    obtain ⟨h1, h2, h3⟩ := ih (index + 1)
      (store_channel host index
        (zeroed_channel max_syncpts (nvhost_channel_get_id_from_index host index)))
    exact ⟨h1, h2, h3⟩

/-- Every bit that `nvhost_channel_map` leaves set was set before, or is the
bit reported by `find_first_zero_bit`, which was clear and below
`max_channels`. -/
theorem map_bitmap_cases (host : nvhost_master) (pdata : Option nvhost_device_data)
    (identifier : Nat) (r : Int × nvhost_master × Option Nat)
    (h : nvhost_channel_map host pdata identifier = some r) :
    r.2.1.nb_channels = host.nb_channels ∧
    ∀ i, r.2.1.allocated_channels i = true →
      host.allocated_channels i = true ∨
      (i = find_first_zero_bit host.allocated_channels (nvhost_channel_nb_channels host) ∧
        i < nvhost_channel_nb_channels host ∧ host.allocated_channels i = false) := by
  unfold nvhost_channel_map at h
  cases pdata with
  | none =>
    simp only [Option.some.injEq] at h
    subst h
    exact ⟨rfl, fun i hi => Or.inl hi⟩
  | some pd =>
    simp only at h
    cases hal : map_alias_loop host identifier (nvhost_channel_nb_channels host) 0 with
    | some p =>
      obtain ⟨host1, found⟩ := p
      rw [hal] at h
      simp only [Option.some.injEq] at h
      subst h
      obtain ⟨h1, _, h3⟩ := map_alias_loop_frame host identifier _ _ _ _ hal
      refine ⟨h1, fun i hi => Or.inl ?_⟩
      simpa [h3] using hi
    | none =>
      rw [hal] at h
      simp only at h
      split at h
      · exact Option.noConfusion h
      · rename_i hlt
        simp only [Option.some.injEq] at h
        subst h
        refine ⟨rfl, fun i hi => ?_⟩
        simp only [set_bit] at hi
        by_cases hi2 : i = find_first_zero_bit host.allocated_channels
            (nvhost_channel_nb_channels host)
        · right
          refine ⟨hi2, by omega, ?_⟩
          rw [hi2]
          exact find_first_zero_bit_clear _ _ (by omega)
        · left
          simpa [hi2] using hi

theorem bits_below_fresh (max_syncpts N : Nat) (ch_base : Int) :
    bits_below (fresh_pool max_syncpts N ch_base) N := by
  obtain ⟨h1, _, h3⟩ := alloc_channels_loop_frame max_syncpts
    (nvhost_channel_nb_channels (zeroed_master max_syncpts N ch_base)) 0
    (zeroed_master max_syncpts N ch_base)
  refine ⟨?_, ?_⟩
  · unfold fresh_pool nvhost_alloc_channels; rw [h1]; rfl
  · intro i hi
    unfold fresh_pool nvhost_alloc_channels at hi
    rw [h3] at hi
    simp [zeroed_master] at hi

theorem bits_below_run_call (N : Nat) (host host1 : nvhost_master) (c : PoolCall)
    (hinv : bits_below host N) (h : run_call host c = some host1) :
    bits_below host1 N := by
  obtain ⟨hn, hb⟩ := hinv
  cases c with
  | map pdata identifier =>
    simp only [run_call, Option.map_eq_some'] at h
    obtain ⟨r, hr, rfl⟩ := h
    obtain ⟨h1, h2⟩ := map_bitmap_cases host pdata identifier r hr
    refine ⟨by rw [h1, hn], fun i hi => ?_⟩
    rcases h2 i hi with h3 | ⟨_, h4, _⟩
    · exact hb i h3
    · simpa [nvhost_channel_nb_channels, hn] using h4
  | getchannel ch =>
    simp only [run_call, nvhost_getchannel] at h
    split at h
    · exact Option.noConfusion h
    · simp only [Option.some.injEq] at h
      subst h
      exact ⟨hn, hb⟩
  | putchannel env ch cnt =>
    simp only [run_call, Option.map_eq_some'] at h
    obtain ⟨r, hr, rfl⟩ := h
    simp only [nvhost_putchannel] at hr
    split at hr
    · exact Option.noConfusion hr
    · simp only [Option.some.injEq] at hr
      subst hr
      refine ⟨by rw [putchannel_loop_nb, hn], fun i hi => ?_⟩
      exact hb i (putchannel_loop_bitmap_sub env ch i _ _ hi)
  | remove_identifier identifier =>
    simp only [run_call, nvhost_channel_remove_identifier, Option.some.injEq] at h
    subst h
    refine ⟨by rw [remove_identifier_loop_nb, hn], fun i hi => ?_⟩
    rw [remove_identifier_loop_bitmap] at hi
    exact hb i hi

theorem bits_below_run_calls (N : Nat) (calls : List PoolCall) :
    ∀ host host1, bits_below host N → run_calls host calls = some host1 →
      bits_below host1 N := by
  induction calls with
  | nil =>
    intro host host1 hinv h
    simp only [run_calls, Option.some.injEq] at h
    subst h; exact hinv
  | cons c cs ih =>
    intro host host1 hinv h
    simp only [run_calls, Option.bind_eq_some] at h
    obtain ⟨h2, hc, hcs⟩ := h
    exact ih h2 host1 (bits_below_run_call N host h2 c hinv hc) hcs

/-- A bitmap whose set bits all lie below `N` has at most `N` set bits. -/
theorem bitmap_weight_le (addr : Nat → Bool) (N nbits : Nat)
    (h : ∀ i, addr i = true → i < N) : bitmap_weight addr nbits ≤ N := by
  unfold bitmap_weight
  have hnd : ((List.range nbits).filter addr).Nodup := (List.nodup_range nbits).filter _
  have hsub : (List.range nbits).filter addr ⊆ List.range N := by
    intro x hx
    rw [List.mem_filter] at hx
    exact List.mem_range.mpr (h x hx.2)
  have := (List.subperm_of_subset hnd hsub).length_le
  simpa using this

/-! ## The pool never hands out more slots than it has -/

/-- C1: from the freshly initialised pool of `N` slots, after any finite
sequence of `nvhost_channel_map`, `nvhost_getchannel`, `nvhost_putchannel` and
`nvhost_channel_remove_identifier` calls that return, every set bit of
`allocated_channels` has an index below `N`, the number of set bits (over any
bitmap width) is at most `N`, and a further `nvhost_channel_map` only adds the
bit that `find_first_zero_bit` reported, which was clear and below
`max_channels`. -/
theorem allocated_channels_within_pool (max_syncpts N : Nat) (ch_base : Int)
    (calls : List PoolCall) (host : nvhost_master)
    (hrun : run_calls (fresh_pool max_syncpts N ch_base) calls = some host) :
    (∀ i, host.allocated_channels i = true → i < N) ∧
    (∀ nbits, bitmap_weight host.allocated_channels nbits ≤ N) ∧
    (∀ pdata identifier r, nvhost_channel_map host pdata identifier = some r →
      ∀ i, r.2.1.allocated_channels i = true →
        host.allocated_channels i = true ∨
        (i = find_first_zero_bit host.allocated_channels (nvhost_channel_nb_channels host) ∧
          i < N ∧ host.allocated_channels i = false)) := by
  have hinv := bits_below_run_calls N calls _ host
    (bits_below_fresh max_syncpts N ch_base) hrun
  refine ⟨hinv.2, fun nbits => bitmap_weight_le _ N nbits hinv.2, ?_⟩
  intro pdata identifier r hr i hi
  rcases (map_bitmap_cases host pdata identifier r hr).2 i hi with h1 | ⟨h2, h3, h4⟩
  · exact Or.inl h1
  · refine Or.inr ⟨h2, ?_, h4⟩
    simpa [nvhost_channel_nb_channels, hinv.1] using h3

/-- C1 at the sample session on a pool of two slots with ids from 5. -/
theorem allocated_channels_within_pool_witness :
    run_calls (fresh_pool 1 2 5) sample_calls
      = some ((run_calls (fresh_pool 1 2 5) sample_calls).getD (fresh_pool 1 2 5)) ∧
    ((∀ i, ((run_calls (fresh_pool 1 2 5) sample_calls).getD
        (fresh_pool 1 2 5)).allocated_channels i = true → i < 2) ∧
     (∀ nbits, bitmap_weight ((run_calls (fresh_pool 1 2 5) sample_calls).getD
        (fresh_pool 1 2 5)).allocated_channels nbits ≤ 2)) :=
  ⟨rfl,
    (allocated_channels_within_pool 1 2 5 sample_calls _ rfl).1,
    (allocated_channels_within_pool 1 2 5 sample_calls _ rfl).2.1⟩

/-! ## `nvhost_channel_map`: reuse of a live slot and reservation of a free one -/

theorem alias_test_iff (host : nvhost_master) (identifier i : Nat) :
    ((host.chlist i).identifier = identifier ∧
      (kref_get_unless_zero (host.chlist i).refcount).1 = true) ↔
    live_alias host identifier i := by
  unfold live_alias kref_get_unless_zero
  by_cases h : (host.chlist i).refcount = 0
  · simp [h]
  · simp [h, Nat.pos_of_ne_zero h]

theorem kref_get_unless_zero_live (refcount : Nat) (h : 0 < refcount) :
    (kref_get_unless_zero refcount).2 = refcount + 1 := by
  unfold kref_get_unless_zero
  simp [Nat.ne_of_gt h]

/-- The alias search finds nothing when no slot in its range is a live alias. -/
theorem map_alias_loop_none (host : nvhost_master) (identifier : Nat) :
    ∀ n index, (∀ j, index ≤ j → j < index + n → ¬ live_alias host identifier j) →
      map_alias_loop host identifier n index = none := by
  intro n
  induction n with
  | zero => intro index _; rfl
  | succ n ih =>
    intro index hno
    have h0 : ¬ ((host.chlist index).identifier = identifier ∧
        (kref_get_unless_zero (host.chlist index).refcount).1 = true) := by
      rw [alias_test_iff]; exact hno index (le_refl _) (by omega)
    simp only [map_alias_loop, h0, if_false]
    exact ih (index + 1) (fun j h1 h2 => hno j (by omega) (by omega))

/-- The alias search returns the lowest live alias in its range, with one more
reference on it and nothing else touched. -/
theorem map_alias_loop_first (host : nvhost_master) (identifier : Nat) :
    ∀ n index, (∃ i, index ≤ i ∧ i < index + n ∧ live_alias host identifier i) →
      ∃ i, index ≤ i ∧ i < index + n ∧ live_alias host identifier i ∧
        (∀ j, index ≤ j → j < i → ¬ live_alias host identifier j) ∧
        map_alias_loop host identifier n index =
          some (store_channel host i
            { host.chlist i with refcount := (host.chlist i).refcount + 1 }, i) := by
  intro n
  induction n with
  | zero => intro index ⟨i, h1, h2, _⟩; omega
  | succ n ih =>
    intro index ⟨i, h1, h2, h3⟩
    by_cases h0 : live_alias host identifier index
    · refine ⟨index, le_refl _, by omega, h0, fun j hj1 hj2 => by omega, ?_⟩
      have hc := (alias_test_iff host identifier index).mpr h0
      simp only [map_alias_loop, hc, and_self, if_true]
      rw [kref_get_unless_zero_live _ h0.2]
    · have hne : i ≠ index := fun h => h0 (h ▸ h3)
      obtain ⟨k, hk1, hk2, hk3, hk4, hk5⟩ := ih (index + 1) ⟨i, by omega, by omega, h3⟩
      refine ⟨k, by omega, by omega, hk3, ?_, ?_⟩
      · intro j hj1 hj2
        by_cases hj : j = index
        · subst hj; exact h0
        · exact hk4 j (by omega) hj2
      · have hc : ¬ ((host.chlist index).identifier = identifier ∧
            (kref_get_unless_zero (host.chlist index).refcount).1 = true) := by
          rw [alias_test_iff]; exact h0
        simp only [map_alias_loop, hc, if_false]
        exact hk5

/-- C2: when some slot of the pool carries `identifier` with a live reference
(refcount above 0), `nvhost_channel_map` returns 0 with such a slot (the lowest
one; it is slot `k` whenever `k` is the only live carrier), adds exactly one to
its refcount, and leaves the rest of that slot, every other slot and the
allocation bitmap unchanged, so that no free slot is consumed. -/
theorem map_reuses_live_slot (host : nvhost_master) (pd : nvhost_device_data)
    (identifier : Nat)
    (hlive : ∃ i, i < nvhost_channel_nb_channels host ∧ live_alias host identifier i) :
    ∃ i host1, i < nvhost_channel_nb_channels host ∧ live_alias host identifier i ∧
      (∀ j, j < i → ¬ live_alias host identifier j) ∧
      (∀ k, (∀ j, j < nvhost_channel_nb_channels host → live_alias host identifier j → j = k) →
        i = k) ∧
      nvhost_channel_map host (some pd) identifier = some (0, host1, some i) ∧
      host1.chlist i = { host.chlist i with refcount := (host.chlist i).refcount + 1 } ∧
      (∀ j, j ≠ i → host1.chlist j = host.chlist j) ∧
      host1.allocated_channels = host.allocated_channels ∧
      host1.nb_channels = host.nb_channels ∧ host1.ch_base = host.ch_base := by
  obtain ⟨i0, hi0, hl0⟩ := hlive
  obtain ⟨i, _, h2, h3, h4, h5⟩ := map_alias_loop_first host identifier
    (nvhost_channel_nb_channels host) 0 ⟨i0, Nat.zero_le _, by omega, hl0⟩
  refine ⟨i, _, by omega, h3, fun j hj => h4 j (Nat.zero_le _) hj,
    fun k hk => hk i (by omega) h3, ?_,
    store_channel_same _ _ _, fun j hj => store_channel_other _ _ _ _ hj, rfl, rfl, rfl⟩
  simp only [nvhost_channel_map, h5]

/-- C2 at the sample pool: identifier 11 is live on slot 0. -/
theorem map_reuses_live_slot_witness :
    ∃ i host1, i < nvhost_channel_nb_channels sample_pool ∧ live_alias sample_pool 11 i ∧
      (∀ j, j < i → ¬ live_alias sample_pool 11 j) ∧
      (∀ k, (∀ j, j < nvhost_channel_nb_channels sample_pool → live_alias sample_pool 11 j →
        j = k) → i = k) ∧
      nvhost_channel_map sample_pool (some sample_pdata) 11 = some (0, host1, some i) ∧
      host1.chlist i
        = { sample_pool.chlist i with refcount := (sample_pool.chlist i).refcount + 1 } ∧
      (∀ j, j ≠ i → host1.chlist j = sample_pool.chlist j) ∧
      host1.allocated_channels = sample_pool.allocated_channels ∧
      host1.nb_channels = sample_pool.nb_channels ∧ host1.ch_base = sample_pool.ch_base :=
  map_reuses_live_slot sample_pool sample_pdata 11
    ⟨0, by decide, by decide, by decide⟩

/-- Without a live alias and with a clear bit below `max_channels`,
`nvhost_channel_map` takes the slot of the lowest clear bit. -/
theorem map_first_free (host : nvhost_master) (pd : nvhost_device_data)
    (identifier : Nat)
    (hno : ∀ j, j < nvhost_channel_nb_channels host → ¬ live_alias host identifier j)
    (hfree : ∃ i, i < nvhost_channel_nb_channels host ∧ host.allocated_channels i = false) :
    ∃ i host1, i < nvhost_channel_nb_channels host ∧
      host.allocated_channels i = false ∧
      (∀ j, j < i → host.allocated_channels j = true) ∧
      nvhost_channel_map host (some pd) identifier = some (0, host1, some i) ∧
      host1.allocated_channels i = true ∧
      (host1.chlist i).identifier = identifier ∧
      (host1.chlist i).dev = pd.pdev ∧
      (host1.chlist i).refcount = 1 ∧
      (host1.chlist i).chid = (host.chlist i).chid ∧
      (host1.chlist i).syncpts = (host.chlist i).syncpts ∧
      (host1.chlist i).client_managed_syncpt = (host.chlist i).client_managed_syncpt ∧
      (∀ j, j ≠ i → host1.chlist j = host.chlist j ∧
        host1.allocated_channels j = host.allocated_channels j) ∧
      host1.nb_channels = host.nb_channels ∧ host1.ch_base = host.ch_base := by
  obtain ⟨i0, hi0, hc0⟩ := hfree
  have hle := find_first_zero_bit_le_of_clear host.allocated_channels
    (nvhost_channel_nb_channels host) i0 hc0
  have hlt : find_first_zero_bit host.allocated_channels (nvhost_channel_nb_channels host)
      < nvhost_channel_nb_channels host := by omega
  have hnone := map_alias_loop_none host identifier (nvhost_channel_nb_channels host) 0
    (fun j _ h2 => hno j (by omega))
  refine ⟨find_first_zero_bit host.allocated_channels (nvhost_channel_nb_channels host),
    { store_channel host
        (find_first_zero_bit host.allocated_channels (nvhost_channel_nb_channels host))
        { host.chlist
            (find_first_zero_bit host.allocated_channels (nvhost_channel_nb_channels host)) with
          dev := pd.pdev, identifier := identifier, refcount := kref_init } with
      allocated_channels :=
        set_bit (find_first_zero_bit host.allocated_channels (nvhost_channel_nb_channels host))
          host.allocated_channels },
    hlt, find_first_zero_bit_clear _ _ hlt,
    fun j hj => find_first_zero_bit_below _ _ j hj, ?_, ?_, ?_, ?_, ?_, ?_, ?_, ?_, ?_, rfl, rfl⟩
  · simp only [nvhost_channel_map, hnone, ge_iff_le, Nat.not_le.mpr hlt, if_false]
  · simp [set_bit]
  · simp [store_channel]
  · simp [store_channel]
  · simp [store_channel, kref_init]
  · simp [store_channel]
  · simp [store_channel]
  · simp [store_channel]
  · intro j hj
    simp [store_channel, set_bit, hj]

/-- C3: when no slot carries `identifier` with a live reference and some
allocation bit below `max_channels` is clear, `nvhost_channel_map` returns 0
with the lowest-index free slot; afterwards that slot's bit is set, its
identifier is the given one, its device is the caller's device, its refcount
is exactly 1, and every other slot and every other bit is unchanged. -/
theorem map_reserves_lowest_free_slot (host : nvhost_master) (pd : nvhost_device_data)
    (identifier : Nat)
    (hno : ∀ j, j < nvhost_channel_nb_channels host → ¬ live_alias host identifier j)
    (hfree : ∃ i, i < nvhost_channel_nb_channels host ∧ host.allocated_channels i = false) :
    ∃ i host1, i < nvhost_channel_nb_channels host ∧
      host.allocated_channels i = false ∧
      (∀ j, j < i → host.allocated_channels j = true) ∧
      nvhost_channel_map host (some pd) identifier = some (0, host1, some i) ∧
      host1.allocated_channels i = true ∧
      (host1.chlist i).identifier = identifier ∧
      (host1.chlist i).dev = pd.pdev ∧
      (host1.chlist i).refcount = 1 ∧
      (host1.chlist i).chid = (host.chlist i).chid ∧
      (host1.chlist i).syncpts = (host.chlist i).syncpts ∧
      (host1.chlist i).client_managed_syncpt = (host.chlist i).client_managed_syncpt ∧
      (∀ j, j ≠ i → host1.chlist j = host.chlist j ∧
        host1.allocated_channels j = host.allocated_channels j) ∧
      host1.nb_channels = host.nb_channels ∧ host1.ch_base = host.ch_base :=
  map_first_free host pd identifier hno hfree

/-- C3 at the sample pool: identifier 12 is new and slot 1 is free. -/
theorem map_reserves_lowest_free_slot_witness :
    ∃ i host1, i < nvhost_channel_nb_channels sample_pool ∧
      sample_pool.allocated_channels i = false ∧
      (∀ j, j < i → sample_pool.allocated_channels j = true) ∧
      nvhost_channel_map sample_pool (some sample_pdata) 12 = some (0, host1, some i) ∧
      host1.allocated_channels i = true ∧
      (host1.chlist i).identifier = 12 ∧
      (host1.chlist i).dev = sample_pdata.pdev ∧
      (host1.chlist i).refcount = 1 ∧
      (host1.chlist i).chid = (sample_pool.chlist i).chid ∧
      (host1.chlist i).syncpts = (sample_pool.chlist i).syncpts ∧
      (host1.chlist i).client_managed_syncpt
        = (sample_pool.chlist i).client_managed_syncpt ∧
      (∀ j, j ≠ i → host1.chlist j = sample_pool.chlist j ∧
        host1.allocated_channels j = sample_pool.allocated_channels j) ∧
      host1.nb_channels = sample_pool.nb_channels ∧ host1.ch_base = sample_pool.ch_base :=
  map_reserves_lowest_free_slot sample_pool sample_pdata 12
    (by
      intro j hj
      have hj2 : j < 2 := hj
      interval_cases j <;> decide)
    ⟨1, by decide, by decide⟩

/-! ## `nvhost_channel_remove_identifier` touches one identifier tag only -/

theorem remove_identifier_loop_none (host : nvhost_master) (identifier : Nat) :
    ∀ n index, (∀ j, index ≤ j → j < index + n → (host.chlist j).identifier ≠ identifier) →
      remove_identifier_loop host identifier n index = host := by
  intro n
  induction n with
  | zero => intro index _; rfl
  | succ n ih =>
    intro index hno
    have h0 := hno index (le_refl _) (by omega)
    simp only [remove_identifier_loop, h0, if_false]
    exact ih (index + 1) (fun j h1 h2 => hno j (by omega) (by omega))

theorem remove_identifier_loop_first (host : nvhost_master) (identifier : Nat) :
    ∀ n index i, index ≤ i → i < index + n → (host.chlist i).identifier = identifier →
      (∀ j, index ≤ j → j < i → (host.chlist j).identifier ≠ identifier) →
      remove_identifier_loop host identifier n index =
        store_channel host i { host.chlist i with identifier := 0 } := by
  intro n
  induction n with
  | zero => intro index i h1 h2; omega
  | succ n ih =>
    intro index i h1 h2 h3 h4
    by_cases hi : i = index
    · subst hi
      simp only [remove_identifier_loop, h3, if_true]
    · have h0 := h4 index (le_refl _) (by omega)
      simp only [remove_identifier_loop, h0, if_false]
      exact ih (index + 1) i (by omega) (by omega) h3
        (fun j hj1 hj2 => h4 j (by omega) hj2)

theorem remove_identifier_loop_fields (host : nvhost_master) (identifier : Nat) :
    ∀ n index j,
      ((remove_identifier_loop host identifier n index).chlist j).refcount
        = (host.chlist j).refcount ∧
      ((remove_identifier_loop host identifier n index).chlist j).dev
        = (host.chlist j).dev ∧
      ((remove_identifier_loop host identifier n index).chlist j).syncpts
        = (host.chlist j).syncpts ∧
      ((remove_identifier_loop host identifier n index).chlist j).client_managed_syncpt
        = (host.chlist j).client_managed_syncpt ∧
      ((remove_identifier_loop host identifier n index).chlist j).chid
        = (host.chlist j).chid := by
  intro n
  induction n with
  | zero => intro index j; exact ⟨rfl, rfl, rfl, rfl, rfl⟩
  | succ n ih =>
    intro index j
    simp only [remove_identifier_loop]
    split
    · by_cases hj : j = index
      · subst hj; simp [store_channel]
      · simp [store_channel, hj]
    · exact ih (index + 1) j

/-- C6: `nvhost_channel_remove_identifier` returns 0; it leaves the allocation
bitmap and every slot's refcount, device binding, syncpoints and id unchanged;
if no slot below `max_channels` carries the identifier the whole pool is
unchanged; otherwise the lowest-index slot carrying it has its identifier
cleared and every other slot is unchanged. -/
theorem remove_identifier_clears_first_tag_only (host : nvhost_master) (identifier : Nat) :
    (nvhost_channel_remove_identifier host identifier).1 = 0 ∧
    (nvhost_channel_remove_identifier host identifier).2.allocated_channels
      = host.allocated_channels ∧
    (nvhost_channel_remove_identifier host identifier).2.nb_channels = host.nb_channels ∧
    (nvhost_channel_remove_identifier host identifier).2.ch_base = host.ch_base ∧
    (∀ j,
      ((nvhost_channel_remove_identifier host identifier).2.chlist j).refcount
        = (host.chlist j).refcount ∧
      ((nvhost_channel_remove_identifier host identifier).2.chlist j).dev
        = (host.chlist j).dev ∧
      ((nvhost_channel_remove_identifier host identifier).2.chlist j).syncpts
        = (host.chlist j).syncpts ∧
      ((nvhost_channel_remove_identifier host identifier).2.chlist j).client_managed_syncpt
        = (host.chlist j).client_managed_syncpt ∧
      ((nvhost_channel_remove_identifier host identifier).2.chlist j).chid
        = (host.chlist j).chid) ∧
    ((∀ j, j < nvhost_channel_nb_channels host → (host.chlist j).identifier ≠ identifier) →
      (nvhost_channel_remove_identifier host identifier).2 = host) ∧
    (∀ i, i < nvhost_channel_nb_channels host → (host.chlist i).identifier = identifier →
      (∀ j, j < i → (host.chlist j).identifier ≠ identifier) →
      (nvhost_channel_remove_identifier host identifier).2.chlist i
        = { host.chlist i with identifier := 0 } ∧
      ∀ j, j ≠ i →
        (nvhost_channel_remove_identifier host identifier).2.chlist j = host.chlist j) := by
  refine ⟨rfl, remove_identifier_loop_bitmap host identifier _ _,
    remove_identifier_loop_nb host identifier _ _, ?_, ?_, ?_, ?_⟩
  · simp only [nvhost_channel_remove_identifier]
    by_cases hex : ∃ i, i < nvhost_channel_nb_channels host ∧
        (host.chlist i).identifier = identifier ∧
        ∀ j, j < i → (host.chlist j).identifier ≠ identifier
    · obtain ⟨i, h1, h2, h3⟩ := hex
      rw [remove_identifier_loop_first host identifier _ 0 i (Nat.zero_le _) (by omega) h2
        (fun j _ hj => h3 j hj)]
      rfl
    · have hno : ∀ j, j < nvhost_channel_nb_channels host →
          (host.chlist j).identifier ≠ identifier := by
        intro j
        induction j using Nat.strong_induction_on with
        | _ j ih =>
          intro hj heq
          exact hex ⟨j, hj, heq, fun k hk => ih k hk (by omega)⟩
      rw [remove_identifier_loop_none host identifier _ 0 (fun j _ hj => hno j (by omega))]
  · intro j
    exact remove_identifier_loop_fields host identifier _ 0 j
  · intro hno
    simp only [nvhost_channel_remove_identifier]
    exact remove_identifier_loop_none host identifier _ 0 (fun j _ hj => hno j (by omega))
  · intro i h1 h2 h3
    simp only [nvhost_channel_remove_identifier]
    rw [remove_identifier_loop_first host identifier _ 0 i (Nat.zero_le _) (by omega) h2
      (fun j _ hj => h3 j hj)]
    exact ⟨store_channel_same _ _ _, fun j hj => store_channel_other _ _ _ _ hj⟩

/-! ## `nvhost_putchannel`: dropping references and the teardown -/

theorem store_channel_self (host : nvhost_master) (ch : Nat) (c : nvhost_channel)
    (h : c = host.chlist ch) : store_channel host ch c = host := by
  subst h
  cases host with
  | mk nb base chl al =>
    simp only [store_channel]
    congr
    funext i
    by_cases hi : i = ch
    · simp [hi]
    · simp [hi]

theorem store_channel_twice (host : nvhost_master) (ch : Nat) (a b : nvhost_channel) :
    store_channel (store_channel host ch a) ch b = store_channel host ch b := by
  simp only [store_channel]
  congr
  funext i
  by_cases hi : i = ch
  · simp [hi]
  · simp [hi]

theorem with_refcount_same (host : nvhost_master) (ch : Nat) :
    with_refcount host ch (host.chlist ch).refcount = host :=
  store_channel_self host ch _ rfl

theorem with_refcount_twice (host : nvhost_master) (ch a b : Nat) :
    with_refcount (with_refcount host ch a) ch b = with_refcount host ch b := by
  unfold with_refcount
  rw [store_channel_twice, store_channel_same]

theorem with_refcount_slot (host : nvhost_master) (ch k : Nat) :
    (with_refcount host ch k).chlist ch = { host.chlist ch with refcount := k } :=
  store_channel_same _ _ _

/-- A `kref_put` that leaves references behind only lowers the count. -/
theorem kref_put_more (env : Env) (host : nvhost_master) (ch : Nat)
    (h : 2 ≤ (host.chlist ch).refcount) :
    kref_put env host ch = (with_refcount host ch ((host.chlist ch).refcount - 1), []) := by
  obtain ⟨r, hr⟩ : ∃ r, (host.chlist ch).refcount = r + 2 := ⟨_, (Nat.sub_add_cancel h).symm⟩
  simp [kref_put, kref_put_count, hr, with_refcount]

/-- The `kref_put` that drops the last reference runs the teardown. -/
theorem kref_put_last (env : Env) (host : nvhost_master) (ch : Nat)
    (h : (host.chlist ch).refcount = 1) :
    kref_put env host ch = nvhost_channel_unmap_locked env (with_refcount host ch 0) ch := by
  simp [kref_put, kref_put_count, h, with_refcount]

/-- A `kref_put` on a zero count only logs the underflow. -/
theorem kref_put_zero (env : Env) (host : nvhost_master) (ch : Nat)
    (h : (host.chlist ch).refcount = 0) :
    kref_put env host ch = (host, [Event.refcount_underflow]) := by
  have hs : with_refcount host ch 0 = host := by
    rw [← h]; exact with_refcount_same host ch
  simp only [kref_put, kref_put_count, h]
  simp only [with_refcount] at hs
  simp [hs]

theorem putchannel_loop_fewer (env : Env) (ch : Nat) :
    ∀ n host, n < (host.chlist ch).refcount →
      putchannel_loop env ch n host
        = (with_refcount host ch ((host.chlist ch).refcount - n), []) := by
  intro n
  induction n with
  | zero =>
    intro host _
    simp only [putchannel_loop, Nat.sub_zero, with_refcount_same]
  | succ n ih =>
    intro host hlt
    simp only [putchannel_loop]
    rw [kref_put_more env host ch (by omega)]
    simp only
    rw [ih _ (by rw [with_refcount_slot]; simp only; omega)]
    rw [with_refcount_twice, with_refcount_slot]
    simp only [List.append_nil, Prod.mk.injEq, and_true]
    congr 1
    omega

theorem putchannel_loop_split (env : Env) (ch : Nat) :
    ∀ a b host, putchannel_loop env ch (a + b) host =
      ((putchannel_loop env ch b (putchannel_loop env ch a host).1).1,
        (putchannel_loop env ch a host).2 ++
          (putchannel_loop env ch b (putchannel_loop env ch a host).1).2) := by
  intro a
  induction a with
  | zero => intro b host; simp [putchannel_loop]
  | succ a ih =>
    intro b host
    have hab : a + 1 + b = (a + b) + 1 := by omega
    rw [hab]
    simp only [putchannel_loop]
    rw [ih]
    simp [List.append_assoc]

theorem putchannel_loop_underflow (env : Env) (ch : Nat) :
    ∀ n host, (host.chlist ch).refcount = 0 →
      putchannel_loop env ch n host = (host, List.replicate n Event.refcount_underflow) := by
  intro n
  induction n with
  | zero => intro host _; rfl
  | succ n ih =>
    intro host h
    simp only [putchannel_loop]
    rw [kref_put_zero env host ch h]
    simp only
    rw [ih host h]
    rfl

/-- Dropping exactly as many references as are held ends in the teardown. -/
theorem putchannel_loop_all (env : Env) (ch : Nat) (host : nvhost_master)
    (hpos : 1 ≤ (host.chlist ch).refcount) :
    putchannel_loop env ch (host.chlist ch).refcount host
      = nvhost_channel_unmap_locked env (with_refcount host ch 0) ch := by
  obtain ⟨r, hr⟩ : ∃ r, (host.chlist ch).refcount = r + 1 := ⟨_, (Nat.sub_add_cancel hpos).symm⟩
  rw [hr, putchannel_loop_split env ch r 1 host]
  rw [putchannel_loop_fewer env ch r host (by omega)]
  have h1 : (host.chlist ch).refcount - r = 1 := by omega
  simp only [h1, putchannel_loop, List.nil_append, List.append_nil]
  rw [kref_put_last env _ ch (by rw [with_refcount_slot]), with_refcount_twice]

theorem teardown_count_append (a b : List Event) :
    teardown_count (a ++ b) = teardown_count a + teardown_count b := by
  simp [teardown_count, List.countP_append]

theorem teardown_count_replicate_underflow (n : Nat) :
    teardown_count (List.replicate n Event.refcount_underflow) = 0 := by
  induction n with
  | zero => rfl
  | succ n ih =>
    rw [List.replicate_succ]
    simp only [teardown_count, List.countP_cons] at ih ⊢
    simp [ih]

theorem release_syncpts_no_teardown (policy : nvhost_resource_policy) (l : List Nat) :
    teardown_count (release_syncpts policy l).2 = 0 := by
  induction l with
  | nil => rfl
  | cons x rest ih =>
    simp only [release_syncpts]
    split
    · exact ih
    · simp only [teardown_count, List.countP_cons, List.countP_append] at ih ⊢
      split <;> simp [ih, List.countP_cons]

theorem release_client_managed_no_teardown (policy : nvhost_resource_policy) (x : Nat) :
    teardown_count (release_client_managed policy x).2 = 0 := by
  simp only [release_client_managed]
  split
  · split <;> simp [teardown_count, List.countP_cons]
  · rfl

/-- The teardown of a slot with a device binding: it is entered once, clears
the bit at index `chid - ch_base`, clears the slot's device and identifier, and
leaves the slot's refcount and id and all other slots as they were. -/
theorem unmap_locked_bound (env : Env) (host : nvhost_master) (ref : Nat)
    (hdev : (host.chlist ref).dev ≠ 0) :
    teardown_count (nvhost_channel_unmap_locked env host ref).2 = 1 ∧
    (nvhost_channel_unmap_locked env host ref).1.allocated_channels
      = clear_bit (nvhost_channel_get_index_from_id host (host.chlist ref).chid)
          host.allocated_channels ∧
    ((nvhost_channel_unmap_locked env host ref).1.chlist ref).dev = 0 ∧
    ((nvhost_channel_unmap_locked env host ref).1.chlist ref).identifier = 0 ∧
    ((nvhost_channel_unmap_locked env host ref).1.chlist ref).refcount
      = (host.chlist ref).refcount ∧
    ((nvhost_channel_unmap_locked env host ref).1.chlist ref).chid
      = (host.chlist ref).chid ∧
    (∀ j, j ≠ ref →
      (nvhost_channel_unmap_locked env host ref).1.chlist j = host.chlist j) ∧
    (nvhost_channel_unmap_locked env host ref).1.nb_channels = host.nb_channels ∧
    (nvhost_channel_unmap_locked env host ref).1.ch_base = host.ch_base := by
  have hsp := release_syncpts_no_teardown
    (env.platform_get_drvdata (host.chlist ref).dev).resource_policy (host.chlist ref).syncpts
  have hcm := release_client_managed_no_teardown
    (env.platform_get_drvdata (host.chlist ref).dev).resource_policy
    (host.chlist ref).client_managed_syncpt
  unfold nvhost_channel_unmap_locked
  simp only [hdev, if_false]
  by_cases hb : env.module_busy_err = 0
  · refine ⟨?_, ?_, ?_, ?_, ?_, ?_, ?_, rfl, rfl⟩
    · simp only [hb, ne_eq, not_true_eq_false, if_false]
      rw [show ∀ (e1 e2 : Event) (l : List Event), e1 :: e2 :: l = [e1, e2] ++ l from
        fun _ _ _ => rfl]
      rw [show ∀ (e1 : Event) (l : List Event), e1 :: l = [e1] ++ l from fun _ _ => rfl]
      simp only [teardown_count_append, hsp, hcm]
      cases env.has_set_low_ch_prio <;> simp [teardown_count, List.countP_cons]
    · simp [hb]
    · simp [store_channel]
    · simp [store_channel]
    · simp [store_channel, hb]
    · simp [store_channel, hb]
    · intro j hj; simp [store_channel, hj]
  · refine ⟨?_, ?_, ?_, ?_, ?_, ?_, ?_, rfl, rfl⟩
    · simp [hb, teardown_count, List.countP_cons]
    · simp [hb]
    · simp [store_channel]
    · simp [store_channel]
    · simp [store_channel, hb]
    · simp [store_channel, hb]
    · intro j hj; simp [store_channel, hj]

/-- A put of all held references on a bound slot, in terms of the teardown. -/
theorem putchannel_all_eq (env : Env) (host : nvhost_master) (ch r : Nat)
    (hdev : (host.chlist ch).dev ≠ 0) (hr : (host.chlist ch).refcount = r) (hpos : 1 ≤ r) :
    nvhost_putchannel env host ch r
      = some (nvhost_channel_unmap_locked env (with_refcount host ch 0) ch) := by
  simp only [nvhost_putchannel, hdev, if_false, Int.toNat_ofNat]
  rw [← hr, putchannel_loop_all env ch host (by omega)]

/-- A put of fewer references than are held on a bound slot. -/
theorem putchannel_fewer_eq (env : Env) (host : nvhost_master) (ch r : Nat) (c : Int)
    (hdev : (host.chlist ch).dev ≠ 0) (hr : (host.chlist ch).refcount = r) (hpos : 1 ≤ r)
    (hc : c < r) :
    nvhost_putchannel env host ch c = some (with_refcount host ch (r - c.toNat), []) := by
  simp only [nvhost_putchannel, hdev, if_false]
  rw [putchannel_loop_fewer env ch c.toNat host (by omega), hr]

/-- A put of more references than are held on a bound, live slot. -/
theorem putchannel_excess_eq (env : Env) (host : nvhost_master) (ch r : Nat) (c : Int)
    (hdev : (host.chlist ch).dev ≠ 0) (hr : (host.chlist ch).refcount = r) (hpos : 1 ≤ r)
    (hc : (r : Int) < c) :
    nvhost_putchannel env host ch c
      = some ((nvhost_channel_unmap_locked env (with_refcount host ch 0) ch).1,
          (nvhost_channel_unmap_locked env (with_refcount host ch 0) ch).2 ++
            List.replicate (c.toNat - r) Event.refcount_underflow) := by
  have hdev0 : ((with_refcount host ch 0).chlist ch).dev ≠ 0 := by
    rw [with_refcount_slot]; exact hdev
  have hb := unmap_locked_bound env (with_refcount host ch 0) ch hdev0
  have hrc0 : ((nvhost_channel_unmap_locked env (with_refcount host ch 0) ch).1.chlist
      ch).refcount = 0 := by
    rw [hb.2.2.2.2.1, with_refcount_slot]
  have hsum : c.toNat = r + (c.toNat - r) := by omega
  simp only [nvhost_putchannel, hdev, if_false]
  rw [hsum, putchannel_loop_split env ch r (c.toNat - r) host]
  have hall : putchannel_loop env ch r host
      = nvhost_channel_unmap_locked env (with_refcount host ch 0) ch := by
    rw [← hr]; exact putchannel_loop_all env ch host (by omega)
  rw [hall, putchannel_loop_underflow env ch _ _ hrc0]
  have hk : r + (c.toNat - r) - r = c.toNat - r := by omega
  simp only [hk]

/-- The slot freed by the teardown is the one a later `nvhost_channel_map`
returns when it is the lowest free slot and the identifier has no live alias. -/
theorem map_returns_slot_if_lowest_free (host : nvhost_master) (ch : Nat)
    (hch : ch < nvhost_channel_nb_channels host)
    (hclear : host.allocated_channels ch = false)
    (pd : nvhost_device_data) (identifier : Nat)
    (hno : ∀ j, j < nvhost_channel_nb_channels host → ¬ live_alias host identifier j)
    (hbelow : ∀ j, j < ch → host.allocated_channels j = true) :
    ∃ host2, nvhost_channel_map host (some pd) identifier = some (0, host2, some ch) := by
  obtain ⟨i, host2, _, h2, h3, h4, _⟩ := map_first_free host pd identifier hno ⟨ch, hch, hclear⟩
  have hi : i = ch := by
    rcases Nat.lt_trichotomy i ch with h | h | h
    · have := hbelow i h; rw [h2] at this; exact Bool.noConfusion this
    · exact h
    · have := h3 ch h; rw [hclear] at this; exact Bool.noConfusion this
  subst hi
  exact ⟨host2, h4⟩

/-- C4: on a slot with a device binding and refcount `r ≥ 1`,
`nvhost_putchannel(ch, r)` enters the teardown `nvhost_channel_unmap_locked`
exactly once, and `nvhost_putchannel(ch, c)` with `c < r` enters it zero times
and leaves `r - c` references.  After the teardown the allocation bit at index
`chid - ch_base` is clear and the slot's identifier and device binding are
absent; when the slot's id is the one `nvhost_alloc_channels` gave it, the slot
is free and a later `nvhost_channel_map` returns it whenever it is the lowest
free slot and the requested identifier has no live alias. -/
theorem putchannel_last_reference_tears_down_once (env : Env) (host : nvhost_master)
    (ch r : Nat) (hdev : (host.chlist ch).dev ≠ 0) (hr : (host.chlist ch).refcount = r)
    (hpos : 1 ≤ r) :
    (∃ host1 events, nvhost_putchannel env host ch r = some (host1, events) ∧
      teardown_count events = 1 ∧
      (∀ i : Nat, (i : Int) = (host.chlist ch).chid - nvhost_channel_ch_base host →
        host1.allocated_channels i = false) ∧
      (host1.chlist ch).identifier = 0 ∧
      (host1.chlist ch).dev = 0 ∧
      (host1.chlist ch).refcount = 0 ∧
      (∀ j, j ≠ ch → host1.chlist j = host.chlist j) ∧
      (ch < nvhost_channel_nb_channels host →
        (host.chlist ch).chid = nvhost_channel_get_id_from_index host ch →
        host1.allocated_channels ch = false ∧
        ∀ pd identifier,
          (∀ j, j < nvhost_channel_nb_channels host1 → ¬ live_alias host1 identifier j) →
          (∀ j, j < ch → host1.allocated_channels j = true) →
          ∃ host2, nvhost_channel_map host1 (some pd) identifier = some (0, host2, some ch))) ∧
    (∀ c : Int, c < r →
      ∃ host1 events, nvhost_putchannel env host ch c = some (host1, events) ∧
        teardown_count events = 0 ∧
        (host1.chlist ch).refcount = r - c.toNat ∧
        (host1.chlist ch).identifier = (host.chlist ch).identifier ∧
        (host1.chlist ch).dev = (host.chlist ch).dev ∧
        host1.allocated_channels = host.allocated_channels) := by
  have hdev0 : ((with_refcount host ch 0).chlist ch).dev ≠ 0 := by
    rw [with_refcount_slot]; exact hdev
  obtain ⟨hb1, hb2, hb3, hb4, hb5, hb6, hb7, hb8, hb9⟩ :=
    unmap_locked_bound env (with_refcount host ch 0) ch hdev0
  have hbit : ∀ i : Nat, (i : Int) = (host.chlist ch).chid - nvhost_channel_ch_base host →
      (nvhost_channel_unmap_locked env (with_refcount host ch 0) ch).1.allocated_channels i
        = false := by
    intro i hi
    rw [hb2, with_refcount_slot]
    simp only [clear_bit, nvhost_channel_get_index_from_id]
    rw [if_pos]
    exact hi
  constructor
  · refine ⟨(nvhost_channel_unmap_locked env (with_refcount host ch 0) ch).1,
      (nvhost_channel_unmap_locked env (with_refcount host ch 0) ch).2,
      putchannel_all_eq env host ch r hdev hr hpos, hb1, hbit, hb4, hb3, ?_, ?_, ?_⟩
    · rw [hb5, with_refcount_slot]
    · intro j hj
      rw [hb7 j hj]
      exact store_channel_other _ _ _ _ hj
    · intro hch hid
      have hclear := hbit ch (by
        rw [hid]; simp only [nvhost_channel_get_id_from_index]; omega)
      refine ⟨hclear, fun pd identifier hno hbelow => ?_⟩
      exact map_returns_slot_if_lowest_free _ ch
        (by simpa [nvhost_channel_nb_channels, hb8] using hch) hclear pd identifier hno hbelow
  · intro c hc
    refine ⟨with_refcount host ch (r - c.toNat), [],
      putchannel_fewer_eq env host ch r c hdev hr hpos hc, rfl, ?_, ?_, ?_, rfl⟩
    · rw [with_refcount_slot]
    · rw [with_refcount_slot]
    · rw [with_refcount_slot]

/-- C4 at the sample pool: slot 0 is bound to device 7 and holds 2 references. -/
theorem putchannel_last_reference_tears_down_once_witness :
    ((sample_pool.chlist 0).dev ≠ 0 ∧ (sample_pool.chlist 0).refcount = 2 ∧ 1 ≤ 2) ∧
    (∃ host1 events, nvhost_putchannel sample_env sample_pool 0 (2 : Nat) = some (host1, events) ∧
      teardown_count events = 1 ∧
      (∀ i : Nat, (i : Int) = (sample_pool.chlist 0).chid - nvhost_channel_ch_base sample_pool →
        host1.allocated_channels i = false) ∧
      (host1.chlist 0).identifier = 0 ∧
      (host1.chlist 0).dev = 0 ∧
      (host1.chlist 0).refcount = 0 ∧
      (∀ j, j ≠ 0 → host1.chlist j = sample_pool.chlist j) ∧
      (0 < nvhost_channel_nb_channels sample_pool →
        (sample_pool.chlist 0).chid = nvhost_channel_get_id_from_index sample_pool 0 →
        host1.allocated_channels 0 = false ∧
        ∀ pd identifier,
          (∀ j, j < nvhost_channel_nb_channels host1 → ¬ live_alias host1 identifier j) →
          (∀ j, j < 0 → host1.allocated_channels j = true) →
          ∃ host2, nvhost_channel_map host1 (some pd) identifier = some (0, host2, some 0))) :=
  ⟨⟨by decide, by decide, by decide⟩,
    (putchannel_last_reference_tears_down_once sample_env sample_pool 0 2
      (by decide) (by decide) (by decide)).1⟩

/-- C5, as stated, fails: on the sample pool slot 0 is live with 2 references,
and `nvhost_putchannel(ch, 3)` enters the teardown once. -/
theorem putchannel_excess_count_counterexample :
    (sample_pool.chlist 0).dev ≠ 0 ∧ (sample_pool.chlist 0).refcount = 2 ∧
    (nvhost_putchannel sample_env sample_pool 0 3).map (fun r => teardown_count r.2)
      = some 1 := by
  refine ⟨by decide, by decide, ?_⟩
  decide

/-- C5, amended: on a live slot (device bound, refcount `r ≥ 1`) and for every
count `c > r`, `nvhost_putchannel(ch, c)` enters the teardown exactly once, on
the `r`-th decrement; the `c - r` surplus decrements run no teardown and only
log the underflow; the refcount ends at 0. -/
theorem putchannel_excess_count_tears_down_once (env : Env) (host : nvhost_master)
    (ch r : Nat) (c : Int) (hdev : (host.chlist ch).dev ≠ 0)
    (hr : (host.chlist ch).refcount = r) (hpos : 1 ≤ r) (hc : (r : Int) < c) :
    ∃ host1 events, nvhost_putchannel env host ch c = some (host1, events) ∧
      nvhost_putchannel env host ch r
        = some (nvhost_channel_unmap_locked env (with_refcount host ch 0) ch) ∧
      host1 = (nvhost_channel_unmap_locked env (with_refcount host ch 0) ch).1 ∧
      events = (nvhost_channel_unmap_locked env (with_refcount host ch 0) ch).2 ++
        List.replicate (c.toNat - r) Event.refcount_underflow ∧
      teardown_count events = 1 ∧
      (host1.chlist ch).refcount = 0 := by
  have hdev0 : ((with_refcount host ch 0).chlist ch).dev ≠ 0 := by
    rw [with_refcount_slot]; exact hdev
  have hb := unmap_locked_bound env (with_refcount host ch 0) ch hdev0
  refine ⟨(nvhost_channel_unmap_locked env (with_refcount host ch 0) ch).1,
    (nvhost_channel_unmap_locked env (with_refcount host ch 0) ch).2 ++
      List.replicate (c.toNat - r) Event.refcount_underflow,
    putchannel_excess_eq env host ch r c hdev hr hpos hc,
    putchannel_all_eq env host ch r hdev hr hpos, rfl, rfl, ?_, ?_⟩
  · rw [teardown_count_append, hb.1, teardown_count_replicate_underflow]
  · rw [hb.2.2.2.2.1, with_refcount_slot]

/-- C5 amended, at the sample pool: 2 references held, 3 dropped. -/
theorem putchannel_excess_count_tears_down_once_witness :
    ((sample_pool.chlist 0).dev ≠ 0 ∧ (sample_pool.chlist 0).refcount = 2 ∧ 1 ≤ 2 ∧
      ((2 : Nat) : Int) < 3) ∧
    ∃ host1 events, nvhost_putchannel sample_env sample_pool 0 3 = some (host1, events) ∧
      nvhost_putchannel sample_env sample_pool 0 (2 : Nat)
        = some (nvhost_channel_unmap_locked sample_env (with_refcount sample_pool 0 0) 0) ∧
      host1 = (nvhost_channel_unmap_locked sample_env (with_refcount sample_pool 0 0) 0).1 ∧
      events = (nvhost_channel_unmap_locked sample_env (with_refcount sample_pool 0 0) 0).2 ++
        List.replicate ((3 : Int).toNat - 2) Event.refcount_underflow ∧
      teardown_count events = 1 ∧
      (host1.chlist 0).refcount = 0 :=
  ⟨⟨by decide, by decide, by decide, by decide⟩,
    putchannel_excess_count_tears_down_once sample_env sample_pool 0 2 3
      (by decide) (by decide) (by decide) (by decide)⟩

/-! ## The chunked register protocol: the inner fill loops -/

theorem u32_of_lt (x : Nat) (h : x < 2 ^ 32) : u32 x = x := Nat.mod_eq_of_lt h

theorem u32_le (x : Nat) : u32 x ≤ x := Nat.mod_le _ _

theorem poke_same (a : Nat → Nat) (i v : Nat) : poke a i v i = v := by
  simp [poke]

theorem poke_other (a : Nat → Nat) (i v j : Nat) (h : j ≠ i) : poke a i v j = a j := by
  simp [poke, h]

/-- The cursor `(oi, n)` with `n < r` stands at operation `oi * r + n`. -/
theorem op_offset_cursor (offs : Nat → Nat) (r oi n : Nat) (hn : n < r) :
    op_offset offs r (oi * r + n) = u32 (offs oi + 4 * n) := by
  have hr : 0 < r := by omega
  have h1 : (oi * r + n) / r = oi := by
    rw [Nat.add_comm, Nat.add_mul_div_right _ _ hr, Nat.div_eq_of_lt hn, Nat.zero_add]
  have h2 : (oi * r + n) % r = n := by
    rw [Nat.add_comm, Nat.add_mul_mod_self_right, Nat.mod_eq_of_lt hn]
  simp only [op_offset, h1, h2]

/-- The word the fill loops store for the cursor `(oi, n)`. -/
theorem stored_offset (offs : Nat → Nat) (r oi n : Nat) (hn : n < r) (hr : r ≤ 2 ^ 30) :
    u32 (offs oi + u32 (n * 4)) = op_offset offs r (oi * r + n) := by
  rw [op_offset_cursor offs r oi n hn, u32_of_lt (n * 4) (by omega), Nat.mul_comm]

/-- The read fill loop, started at operation `k`, stores the offsets of
operations `k .. k + cnt - 1` at `ptr .. ptr + cnt - 1`, leaves the words below
`ptr` alone and ends with the cursor at operation `k + cnt`. -/
theorem fill_read_spec (r : Nat) (offs : Nat → Nat) (hr : r ≤ 2 ^ 30) :
    ∀ cnt ptr oi n regs, n < r →
      (fill_read r offs cnt ptr oi n regs).1.1 * r + (fill_read r offs cnt ptr oi n regs).1.2
        = oi * r + n + cnt ∧
      (fill_read r offs cnt ptr oi n regs).1.2 < r ∧
      (∀ j, j < ptr → (fill_read r offs cnt ptr oi n regs).2 j = regs j) ∧
      (∀ i, i < cnt →
        (fill_read r offs cnt ptr oi n regs).2 (ptr + i) = op_offset offs r (oi * r + n + i)) := by
  intro cnt
  induction cnt with
  | zero =>
    intro ptr oi n regs hn
    exact ⟨rfl, hn, fun _ _ => rfl, fun i hi => by omega⟩
  | succ cnt ih =>
    intro ptr oi n regs hn
    have hn1 : u32 (n + 1) = n + 1 := u32_of_lt _ (by omega)
    simp only [fill_read, hn1]
    by_cases hwrap : n + 1 = r
    · simp only [hwrap, if_true]
      obtain ⟨h1, h2, h3, h4⟩ := ih (ptr + 1) (oi + 1) 0
        (poke regs ptr (u32 (offs oi + u32 (n * 4)))) (by omega)
      refine ⟨?_, h2, ?_, ?_⟩
      · rw [h1, Nat.add_mul]; omega
      · intro j hj
        rw [h3 j (by omega), poke_other _ _ _ _ (by omega)]
      · intro i hi
        cases i with
        | zero =>
          simp only [Nat.add_zero]
          rw [h3 ptr (by omega), poke_same, stored_offset offs r oi n hn hr]
        | succ i =>
          have := h4 i (by omega)
          rw [show ptr + (i + 1) = ptr + 1 + i by omega, this]
          congr 1
          rw [Nat.add_mul]; omega
    · simp only [hwrap, if_false]
      obtain ⟨h1, h2, h3, h4⟩ := ih (ptr + 1) oi (n + 1)
        (poke regs ptr (u32 (offs oi + u32 (n * 4)))) (by omega)
      refine ⟨?_, h2, ?_, ?_⟩
      · rw [h1]; omega
      · intro j hj
        rw [h3 j (by omega), poke_other _ _ _ _ (by omega)]
      · intro i hi
        cases i with
        | zero =>
          simp only [Nat.add_zero]
          rw [h3 ptr (by omega), poke_same, stored_offset offs r oi n hn hr]
        | succ i =>
          have := h4 i (by omega)
          rw [show ptr + (i + 1) = ptr + 1 + i by omega, this]
          congr 1
          omega

/-- The write fill loop, started at operation `k` with `vals` at `vi`, stores
the pairs of operations `k .. k + cnt - 1` at `ptr, ptr + 1, ...`, leaves the
words below `ptr` alone and advances the cursor and `vals` by `cnt`. -/
theorem fill_write_spec (r : Nat) (offs vals : Nat → Nat) (hr : r ≤ 2 ^ 30) :
    ∀ cnt ptr oi vi n regs, n < r →
      (fill_write r offs vals cnt ptr oi vi n regs).1.1 * r
          + (fill_write r offs vals cnt ptr oi vi n regs).1.2.2 = oi * r + n + cnt ∧
      (fill_write r offs vals cnt ptr oi vi n regs).1.2.2 < r ∧
      (fill_write r offs vals cnt ptr oi vi n regs).1.2.1 = vi + cnt ∧
      (∀ j, j < ptr → (fill_write r offs vals cnt ptr oi vi n regs).2 j = regs j) ∧
      (∀ i, i < cnt →
        (fill_write r offs vals cnt ptr oi vi n regs).2 (ptr + 2 * i)
          = op_offset offs r (oi * r + n + i) ∧
        (fill_write r offs vals cnt ptr oi vi n regs).2 (ptr + 2 * i + 1) = vals (vi + i)) := by
  intro cnt
  induction cnt with
  | zero =>
    intro ptr oi vi n regs hn
    exact ⟨rfl, hn, rfl, fun _ _ => rfl, fun i hi => by omega⟩
  | succ cnt ih =>
    intro ptr oi vi n regs hn
    have hn1 : u32 (n + 1) = n + 1 := u32_of_lt _ (by omega)
    simp only [fill_write, hn1]
    by_cases hwrap : n + 1 = r
    · simp only [hwrap, if_true]
      obtain ⟨h1, h2, h3, h4, h5⟩ := ih (ptr + 2) (oi + 1) (vi + 1) 0
        (poke (poke regs ptr (u32 (offs oi + u32 (n * 4)))) (ptr + 1) (vals vi)) (by omega)
      refine ⟨?_, h2, by rw [h3]; omega, ?_, ?_⟩
      · rw [h1, Nat.add_mul]; omega
      · intro j hj
        rw [h4 j (by omega), poke_other _ _ _ _ (by omega), poke_other _ _ _ _ (by omega)]
      · intro i hi
        cases i with
        | zero =>
          refine ⟨?_, ?_⟩
          · simp only [Nat.mul_zero, Nat.add_zero]
            rw [h4 ptr (by omega), poke_other _ _ _ _ (by omega),
              poke_same, stored_offset offs r oi n hn hr]
          · simp only [Nat.mul_zero, Nat.add_zero]
            rw [h4 (ptr + 1) (by omega), poke_same]
        | succ i =>
          obtain ⟨h6, h7⟩ := h5 i (by omega)
          refine ⟨?_, ?_⟩
          · rw [show ptr + 2 * (i + 1) = ptr + 2 + 2 * i by omega, h6]
            congr 1
            rw [Nat.add_mul]; omega
          · rw [show ptr + 2 * (i + 1) + 1 = ptr + 2 + 2 * i + 1 by omega, h7]
            congr 1
            omega
    · simp only [hwrap, if_false]
      obtain ⟨h1, h2, h3, h4, h5⟩ := ih (ptr + 2) oi (vi + 1) (n + 1)
        (poke (poke regs ptr (u32 (offs oi + u32 (n * 4)))) (ptr + 1) (vals vi)) (by omega)
      refine ⟨?_, h2, by rw [h3]; omega, ?_, ?_⟩
      · rw [h1]; omega
      · intro j hj
        rw [h4 j (by omega), poke_other _ _ _ _ (by omega), poke_other _ _ _ _ (by omega)]
      · intro i hi
        cases i with
        | zero =>
          refine ⟨?_, ?_⟩
          · simp only [Nat.mul_zero, Nat.add_zero]
            rw [h4 ptr (by omega), poke_other _ _ _ _ (by omega),
              poke_same, stored_offset offs r oi n hn hr]
          · simp only [Nat.mul_zero, Nat.add_zero]
            rw [h4 (ptr + 1) (by omega), poke_same]
        | succ i =>
          obtain ⟨h6, h7⟩ := h5 i (by omega)
          refine ⟨?_, ?_⟩
          · rw [show ptr + 2 * (i + 1) = ptr + 2 + 2 * i by omega, h6]
            congr 1
            omega
          · rw [show ptr + 2 * (i + 1) + 1 = ptr + 2 + 2 * i + 1 by omega, h7]
            congr 1
            omega

/-! ## The chunked register protocol: round sizes -/

theorem chunk_counts_zero (cap : Nat) : chunk_counts 0 cap = [] := by
  simp [chunk_counts]

/-- The closed form of the round sizes unfolds as the loop does: the first
round takes `min remaining cap`, the rest is chunked in the same way. -/
theorem chunk_counts_step (t cap : Nat) (ht : 0 < t) (hcap : 0 < cap) :
    chunk_counts t cap = min t cap :: chunk_counts (t - min t cap) cap := by
  by_cases hlt : t < cap
  · have hmin : min t cap = t := Nat.min_eq_left (Nat.le_of_lt hlt)
    rw [hmin, Nat.sub_self, chunk_counts_zero]
    have hne : t ≠ 0 := by omega
    simp [chunk_counts, Nat.div_eq_of_lt hlt, Nat.mod_eq_of_lt hlt, hne]
  · have hge : cap ≤ t := Nat.le_of_not_lt hlt
    have hmin : min t cap = cap := Nat.min_eq_right hge
    rw [hmin]
    have hd : t / cap = (t - cap) / cap + 1 := by
      conv_lhs => rw [← Nat.sub_add_cancel hge]
      exact Nat.add_div_right _ hcap
    have hm : t % cap = (t - cap) % cap := by
      conv_lhs => rw [← Nat.sub_add_cancel hge]
      exact Nat.add_mod_right _ _
    simp only [chunk_counts, hd, hm, List.replicate_succ, List.cons_append]

theorem chunk_counts_mem (t cap : Nat) (hcap : 0 < cap) (c : Nat)
    (hc : c ∈ chunk_counts t cap) : 1 ≤ c ∧ c ≤ cap := by
  simp only [chunk_counts, List.mem_append, List.mem_replicate] at hc
  rcases hc with ⟨_, h⟩ | h
  · omega
  · split at h
    · simp at h
    · simp only [List.mem_singleton] at h
      have := Nat.mod_lt t hcap
      omega

theorem chunk_counts_dropLast (t cap : Nat) (c : Nat)
    (hc : c ∈ (chunk_counts t cap).dropLast) : c = cap := by
  unfold chunk_counts at hc
  split at hc
  · rw [List.append_nil] at hc
    exact (List.mem_replicate.mp (List.mem_of_mem_dropLast hc)).2
  · rw [List.dropLast_append_of_ne_nil _ (by simp)] at hc
    simp only [List.dropLast_single, List.append_nil] at hc
    exact (List.mem_replicate.mp hc).2

theorem chunk_counts_sum (t cap : Nat) : (chunk_counts t cap).sum = t := by
  unfold chunk_counts
  split
  · rename_i h
    have := Nat.div_add_mod t cap
    simp only [List.append_nil, List.sum_replicate, smul_eq_mul]
    rw [h] at this
    rw [Nat.mul_comm]; omega
  · have := Nat.div_add_mod t cap
    simp only [List.sum_append, List.sum_replicate, smul_eq_mul, List.sum_cons, List.sum_nil]
    rw [Nat.mul_comm]; omega

theorem chunk_counts_length (t cap : Nat) (hcap : 0 < cap) :
    (chunk_counts t cap).length = (t + cap - 1) / cap := by
  have hdm := Nat.div_add_mod t cap
  have hlt := Nat.mod_lt t hcap
  unfold chunk_counts
  split
  · rename_i h
    simp only [List.append_nil, List.length_replicate]
    symm
    apply Nat.div_eq_of_lt_le
    · rw [h] at hdm
      rw [Nat.mul_comm]; omega
    · rw [h] at hdm
      rw [Nat.add_mul, Nat.mul_comm]; omega
  · simp only [List.length_append, List.length_replicate, List.length_singleton]
    symm
    apply Nat.div_eq_of_lt_le
    · rw [Nat.add_mul, Nat.mul_comm]; omega
    · rw [Nat.add_mul, Nat.add_mul, Nat.mul_comm]; omega

/-- The `i`-th round takes `min (remaining, cap)` of what the rounds before it
left over. -/
theorem chunk_counts_get (cap : Nat) (hcap : 0 < cap) :
    ∀ i t, i < (chunk_counts t cap).length →
      (chunk_counts t cap)[i]? = some (min (t - i * cap) cap) := by
  intro i
  induction i with
  | zero =>
    intro t hi
    have ht : 0 < t := by
      rcases Nat.eq_zero_or_pos t with h | h
      · rw [h, chunk_counts_zero] at hi; simp at hi
      · exact h
    rw [chunk_counts_step t cap ht hcap]
    simp
  | succ i ih =>
    intro t hi
    have ht : 0 < t := by
      rcases Nat.eq_zero_or_pos t with h | h
      · rw [h, chunk_counts_zero] at hi; simp at hi
      · exact h
    rw [chunk_counts_step t cap ht hcap] at hi ⊢
    simp only [List.length_cons, Nat.add_lt_add_iff_right] at hi
    rw [List.getElem?_cons_succ, ih _ hi]
    by_cases hlt : t < cap
    · rw [Nat.min_eq_left (Nat.le_of_lt hlt), Nat.sub_self, chunk_counts_zero] at hi
      simp at hi
    · rw [Nat.min_eq_right (Nat.le_of_not_lt hlt)]
      congr 2
      rw [Nat.add_mul]; omega

/-! ## The chunked register protocol: the round-trip loops -/

theorem sendrecv_ok {σ : Type} (comm : Transport σ) (hok : always_succeeds comm)
    (s : σ) (m : tegra_vhost_cmd_msg) :
    (vhost_sendrecv comm s m).err = 0 ∧
    (vhost_sendrecv comm s m).msg = (comm.sendrecv s m).2.data ∧
    (vhost_sendrecv comm s m).msg.ret = 0 := by
  obtain ⟨h1, h2⟩ := hok s m
  simp [vhost_sendrecv, h1, h2]

theorem range'_eq_map_add (k n : Nat) :
    List.range' k n = (List.range n).map (fun i => k + i) := by
  rw [List.range_eq_range', List.map_add_range']
  rfl

theorem range'_split (k a b : Nat) :
    List.range' k (a + b) = (List.range a).map (fun i => k + i) ++ List.range' (k + a) b := by
  rw [← range'_eq_map_add, List.range'_append_1, Nat.add_comm]

/-- With every exchange succeeding the read loop, started at operation `k` with
`remaining` operations to go and enough fuel, returns 0; its round sizes are
the chunking of `remaining` by the capacity and its messages carry the offsets
of operations `k .. k + remaining - 1` in order.  If the replies echo `count`,
the words copied to `vals` from `vi` on are the words of the replies in order,
and the rest of `vals` is untouched. -/
theorem read_loop_spec {σ : Type} (C : Nat) (comm : Transport σ) (r : Nat)
    (offs : Nat → Nat) (hok : always_succeeds comm) (hC : 0 < C) (hr : r ≤ 2 ^ 30) :
    ∀ fuel remaining oi n vi vals msg s, n < r → remaining ≤ fuel →
      ∃ res, regrdwr_read_loop C comm r offs fuel remaining oi n vi vals msg s = some res ∧
        res.ret = 0 ∧
        sent_counts res.sent = chunk_counts remaining C ∧
        sent_offsets res.sent = (List.range' (oi * r + n) remaining).map (op_offset offs r) ∧
        (echoes_count comm →
          (List.range remaining).map (fun i => res.vals (vi + i))
            = received_words res.received ∧
          ∀ j, j < vi ∨ vi + remaining ≤ j → res.vals j = vals j) := by
  intro fuel
  induction fuel with
  | zero =>
    intro remaining oi n vi vals msg s _ hrem
    have h0 : remaining = 0 := by omega
    subst h0
    refine ⟨{ ret := 0, vals := vals, server := s, sent := [], received := [], events := [] },
      by simp only [regrdwr_read_loop, if_true], rfl, ?_, ?_, ?_⟩
    · simp [sent_counts, chunk_counts_zero]
    · simp [sent_offsets]
    · intro _; exact ⟨by simp [received_words], fun _ _ => rfl⟩
  | succ fuel ih =>
    intro remaining oi n vi vals msg s hn hrem
    by_cases h0 : remaining = 0
    · subst h0
      refine ⟨{ ret := 0, vals := vals, server := s, sent := [], received := [], events := [] },
        by simp only [regrdwr_read_loop, if_true], rfl, ?_, ?_, ?_⟩
      · simp [sent_counts, chunk_counts_zero]
      · simp [sent_offsets]
      · intro _; exact ⟨by simp [received_words], fun _ _ => rfl⟩
    · have hpos : 0 < remaining := Nat.pos_of_ne_zero h0
      have hcnt1 : 1 ≤ min remaining C := by
        rw [Nat.le_min]; exact ⟨hpos, hC⟩
      have hcnt2 : min remaining C ≤ remaining := Nat.min_le_left _ _
      obtain ⟨f1, f2, f3, f4⟩ := fill_read_spec r offs hr (min remaining C) 0 oi n msg.regs hn
      obtain ⟨e1, e2, e3⟩ := sendrecv_ok comm hok s
        { msg with count := min remaining C,
                   regs := (fill_read r offs (min remaining C) 0 oi n msg.regs).2 }
      obtain ⟨rest, hrest, g1, g2, g3, g4⟩ := ih (remaining - min remaining C)
        (fill_read r offs (min remaining C) 0 oi n msg.regs).1.1
        (fill_read r offs (min remaining C) 0 oi n msg.regs).1.2
        (vi + (vhost_sendrecv comm s
          { msg with count := min remaining C,
                     regs := (fill_read r offs (min remaining C) 0 oi n msg.regs).2 }).msg.count)
        (memcpy_words vals vi
          (vhost_sendrecv comm s
            { msg with count := min remaining C,
                       regs := (fill_read r offs (min remaining C) 0 oi n msg.regs).2 }).msg.regs
          (vhost_sendrecv comm s
            { msg with count := min remaining C,
                       regs := (fill_read r offs (min remaining C) 0 oi n msg.regs).2 }).msg.count)
        (vhost_sendrecv comm s
          { msg with count := min remaining C,
                     regs := (fill_read r offs (min remaining C) 0 oi n msg.regs).2 }).msg
        (vhost_sendrecv comm s
          { msg with count := min remaining C,
                     regs := (fill_read r offs (min remaining C) 0 oi n msg.regs).2 }).server
        f2 (by omega)
      refine ⟨after_round
          { msg with count := min remaining C,
                     regs := (fill_read r offs (min remaining C) 0 oi n msg.regs).2 }
          (vhost_sendrecv comm s
            { msg with count := min remaining C,
                       regs := (fill_read r offs (min remaining C) 0 oi n msg.regs).2 })
          rest, ?_, g1, ?_, ?_, ?_⟩
      · simp only [regrdwr_read_loop, h0, if_false, e1, e3, ne_eq, not_true_eq_false, or_self,
          hrest, Option.map_some']
      · simp only [after_round, sent_counts, List.map_cons] at g2 ⊢
        rw [g2, chunk_counts_step remaining C hpos hC]
      · simp only [after_round, sent_offsets, List.flatMap_cons] at g3 ⊢
        rw [g3, f1]
        have hsplit : remaining = min remaining C + (remaining - min remaining C) := by omega
        conv_rhs => rw [hsplit, range'_split, List.map_append, List.map_map]
        congr 1
        apply List.map_congr_left
        intro i hi
        have hi2 := List.mem_range.mp hi
        have := f4 i hi2
        simp only [Nat.zero_add] at this
        simp only [Function.comp, this]
      · intro hecho
        have hc : (vhost_sendrecv comm s
            { msg with count := min remaining C,
                       regs := (fill_read r offs (min remaining C) 0 oi n msg.regs).2 }).msg.count
            = min remaining C := by
          rw [e2]; exact hecho s _
        obtain ⟨g5, g6⟩ := g4 hecho
        rw [hc] at g5 g6
        refine ⟨?_, ?_⟩
        · simp only [after_round, received_words, List.flatMap_cons] at g5 ⊢
          rw [← g5, hc]
          have hsplit : remaining = min remaining C + (remaining - min remaining C) := by omega
          conv_lhs => rw [hsplit, List.range_add, List.map_append, List.map_map]
          congr 1
          · apply List.map_congr_left
            intro i hi
            have hi2 := List.mem_range.mp hi
            rw [g6 (vi + i) (Or.inl (by omega))]
            simp only [memcpy_words]
            rw [if_pos ⟨by omega, by omega⟩]
            congr 1
            omega
          · apply List.map_congr_left
            intro i _
            simp only [Function.comp, Nat.add_assoc]
        · intro j hj
          simp only [after_round]
          rw [g6 j (by omega)]
          simp only [memcpy_words]
          rw [if_neg (by omega)]

/-- With every exchange succeeding the write loop, started at operation `k`
(with `vals` at the same position) with `remaining` operations to go and enough
fuel, returns 0 and leaves `vals` alone; its round sizes are the chunking of
`remaining` by half the array size and its messages carry the pairs of
operations `k .. k + remaining - 1` in order. -/
theorem write_loop_spec {σ : Type} (C : Nat) (comm : Transport σ) (r : Nat)
    (offs vals : Nat → Nat) (hok : always_succeeds comm) (hC : 0 < C >>> 1)
    (hr : r ≤ 2 ^ 30) :
    ∀ fuel remaining oi vi n msg s, n < r → vi = oi * r + n → remaining ≤ fuel →
      ∃ res, regrdwr_write_loop C comm r offs vals fuel remaining oi vi n msg s = some res ∧
        res.ret = 0 ∧
        res.vals = vals ∧
        sent_counts res.sent = chunk_counts remaining (C >>> 1) ∧
        sent_pairs res.sent
          = (List.range' vi remaining).map (fun k => (op_offset offs r k, vals k)) := by
  intro fuel
  induction fuel with
  | zero =>
    intro remaining oi vi n msg s _ _ hrem
    have h0 : remaining = 0 := by omega
    subst h0
    refine ⟨{ ret := 0, vals := vals, server := s, sent := [], received := [], events := [] },
      by simp only [regrdwr_write_loop, if_true], rfl, rfl, ?_, ?_⟩
    · simp [sent_counts, chunk_counts_zero]
    · simp [sent_pairs]
  | succ fuel ih =>
    intro remaining oi vi n msg s hn hvi hrem
    by_cases h0 : remaining = 0
    · subst h0
      refine ⟨{ ret := 0, vals := vals, server := s, sent := [], received := [], events := [] },
        by simp only [regrdwr_write_loop, if_true], rfl, rfl, ?_, ?_⟩
      · simp [sent_counts, chunk_counts_zero]
      · simp [sent_pairs]
    · have hpos : 0 < remaining := Nat.pos_of_ne_zero h0
      have hcnt1 : 1 ≤ min remaining (C >>> 1) := by
        rw [Nat.le_min]; exact ⟨hpos, hC⟩
      have hcnt2 : min remaining (C >>> 1) ≤ remaining := Nat.min_le_left _ _
      obtain ⟨f1, f2, f3, _, f5⟩ :=
        fill_write_spec r offs vals hr (min remaining (C >>> 1)) 0 oi vi n msg.regs hn
      obtain ⟨e1, _, e3⟩ := sendrecv_ok comm hok s
        { msg with count := min remaining (C >>> 1),
                   regs := (fill_write r offs vals (min remaining (C >>> 1)) 0 oi vi n
                              msg.regs).2 }
      obtain ⟨rest, hrest, g1, g2, g3, g4⟩ := ih (remaining - min remaining (C >>> 1))
        (fill_write r offs vals (min remaining (C >>> 1)) 0 oi vi n msg.regs).1.1
        (fill_write r offs vals (min remaining (C >>> 1)) 0 oi vi n msg.regs).1.2.1
        (fill_write r offs vals (min remaining (C >>> 1)) 0 oi vi n msg.regs).1.2.2
        (vhost_sendrecv comm s
          { msg with count := min remaining (C >>> 1),
                     regs := (fill_write r offs vals (min remaining (C >>> 1)) 0 oi vi n
                                msg.regs).2 }).msg
        (vhost_sendrecv comm s
          { msg with count := min remaining (C >>> 1),
                     regs := (fill_write r offs vals (min remaining (C >>> 1)) 0 oi vi n
                                msg.regs).2 }).server
        f2 (by rw [f3, f1, hvi]) (by omega)
      refine ⟨after_round
          { msg with count := min remaining (C >>> 1),
                     regs := (fill_write r offs vals (min remaining (C >>> 1)) 0 oi vi n
                                msg.regs).2 }
          (vhost_sendrecv comm s
            { msg with count := min remaining (C >>> 1),
                       regs := (fill_write r offs vals (min remaining (C >>> 1)) 0 oi vi n
                                  msg.regs).2 })
          rest, ?_, g1, g2, ?_, ?_⟩
      · simp only [regrdwr_write_loop, h0, if_false, e1, e3, ne_eq, not_true_eq_false, or_self,
          hrest, Option.map_some']
      · simp only [after_round, sent_counts, List.map_cons] at g3 ⊢
        rw [g3, chunk_counts_step remaining (C >>> 1) hpos hC]
      · simp only [after_round, sent_pairs, List.flatMap_cons] at g4 ⊢
        rw [g4, f3]
        have hsplit : remaining
            = min remaining (C >>> 1) + (remaining - min remaining (C >>> 1)) := by omega
        conv_rhs => rw [hsplit, range'_split, List.map_append, List.map_map]
        congr 1
        apply List.map_congr_left
        intro i hi
        have hi2 := List.mem_range.mp hi
        obtain ⟨h6, h7⟩ := f5 i hi2
        simp only [Nat.zero_add] at h6 h7
        simp only [Function.comp]
        rw [h6, h7, hvi]

/-- Both loops return at once, without any round trip, when nothing remains. -/
theorem read_loop_nothing {σ : Type} (C : Nat) (comm : Transport σ) (r : Nat)
    (offs : Nat → Nat) (fuel oi n vi : Nat) (vals : Nat → Nat) (msg : tegra_vhost_cmd_msg)
    (s : σ) :
    regrdwr_read_loop C comm r offs fuel 0 oi n vi vals msg s
      = some { ret := 0, vals := vals, server := s, sent := [], received := [], events := [] } := by
  cases fuel <;> simp only [regrdwr_read_loop, if_true]

theorem write_loop_nothing {σ : Type} (C : Nat) (comm : Transport σ) (r : Nat)
    (offs vals : Nat → Nat) (fuel oi vi n : Nat) (msg : tegra_vhost_cmd_msg) (s : σ) :
    regrdwr_write_loop C comm r offs vals fuel 0 oi vi n msg s
      = some { ret := 0, vals := vals, server := s, sent := [], received := [], events := [] } := by
  cases fuel <;> simp only [regrdwr_write_loop, if_true]

/-! ## The unchunked single pass -/

/-- The single-pass offset list of the specification, indexed by operation
number. -/
theorem unchunked_offsets_eq (offs : Nat → Nat) (r : Nat) :
    ∀ N, unchunked_offsets offs N r = (List.range (N * r)).map (op_offset offs r) := by
  intro N
  induction N with
  | zero => simp [unchunked_offsets]
  | succ N ih =>
    have hl : unchunked_offsets offs (N + 1) r
        = unchunked_offsets offs N r ++ (List.range r).map (fun n => u32 (offs N + 4 * n)) := by
      simp [unchunked_offsets, List.range_succ, List.flatMap_append]
    rw [hl, ih, Nat.add_mul, Nat.one_mul, List.range_add, List.map_append, List.map_map]
    congr 1
    apply List.map_congr_left
    intro n hn
    have hn2 := List.mem_range.mp hn
    simp only [Function.comp]
    rw [op_offset_cursor offs r N n hn2]

theorem unchunked_offsets_length (offs : Nat → Nat) (N r : Nat) :
    (unchunked_offsets offs N r).length = N * r := by
  rw [unchunked_offsets_eq]; simp

theorem unchunked_offsets_take (offs : Nat → Nat) (N r t : Nat) (ht : t ≤ N * r) :
    (unchunked_offsets offs N r).take t = (List.range' 0 t).map (op_offset offs r) := by
  rw [unchunked_offsets_eq, ← List.map_take, List.take_range, Nat.min_eq_left ht,
    List.range_eq_range']

theorem unchunked_pairs_take (offs vals : Nat → Nat) (N r t : Nat) (ht : t ≤ N * r) :
    (unchunked_pairs offs vals N r).take t
      = (List.range' 0 t).map (fun k => (op_offset offs r k, vals k)) := by
  unfold unchunked_pairs
  rw [← List.map_take, List.take_range, Nat.min_eq_left ht, List.range_eq_range']
  rfl

theorem unchunked_pairs_length (offs vals : Nat → Nat) (N r : Nat) :
    (unchunked_pairs offs vals N r).length = N * r := by
  simp [unchunked_pairs]

theorem shiftRight_two (x : Nat) : x >>> 2 = x / 4 := by
  rw [Nat.shiftRight_eq_div_pow]

theorem block_regs_le (block_size : Nat) (h : block_size < 2 ^ 32) :
    block_size / 4 ≤ 2 ^ 30 := by
  omega

/-! ## `vhost_host1x_regrdwr` as a whole -/

/-- A read with every exchange succeeding: the call returns 0, the round sizes
chunk the 32-bit operation count `T` by the array size, and the messages carry
the offsets of operations `0 .. T - 1`; with replies that echo `count`, the
first `T` words of `vals` are the words of the replies and the rest of `vals` is
untouched. -/
theorem regrdwr_read_core {σ : Type} (C : Nat) (comm : Transport σ) (fuel : Nat) (s : σ)
    (msg0 : tegra_vhost_cmd_msg) (handle moduleid num_offsets block_size : Nat)
    (offs vals : Nat → Nat)
    (hC : 0 < C) (hbs : block_size < 2 ^ 32) (hok : always_succeeds comm)
    (hfuel : u32 (num_offsets * (block_size / 4)) ≤ fuel) :
    ∃ res, vhost_host1x_regrdwr C comm fuel s msg0 handle moduleid num_offsets block_size
        offs vals 0 = some res ∧
      res.ret = 0 ∧
      sent_counts res.sent = chunk_counts (u32 (num_offsets * (block_size / 4))) C ∧
      sent_offsets res.sent
        = (List.range' 0 (u32 (num_offsets * (block_size / 4)))).map
            (op_offset offs (block_size / 4)) ∧
      (echoes_count comm →
        (List.range (u32 (num_offsets * (block_size / 4)))).map res.vals
          = received_words res.received ∧
        ∀ j, u32 (num_offsets * (block_size / 4)) ≤ j → res.vals j = vals j) := by
  by_cases hr0 : block_size / 4 = 0
  · have hT : u32 (num_offsets * (block_size / 4)) = 0 := by rw [hr0]; rfl
    refine ⟨{ ret := 0, vals := vals, server := s, sent := [], received := [], events := [] },
      ?_, rfl, ?_, ?_, ?_⟩
    · simp only [vhost_host1x_regrdwr, shiftRight_two, hT, ne_eq, not_true_eq_false, if_false,
        read_loop_nothing]
    · rw [hT, chunk_counts_zero]; rfl
    · rw [hT]; rfl
    · intro _
      rw [hT]
      exact ⟨rfl, fun _ _ => rfl⟩
  · obtain ⟨res, h1, h2, h3, h4, h5⟩ := read_loop_spec C comm (block_size / 4) offs hok hC
      (block_regs_le block_size hbs) fuel (u32 (num_offsets * (block_size / 4))) 0 0 0 vals
      { msg0 with cmd := tegra_vhost_cmd.TEGRA_VHOST_CMD_HOST1X_REGRDWR,
                  handle := handle, moduleid := moduleid, write := 0 }
      s (Nat.pos_of_ne_zero hr0) hfuel
    refine ⟨res, ?_, h2, h3, ?_, ?_⟩
    · simp only [vhost_host1x_regrdwr, shiftRight_two, ne_eq, not_true_eq_false, if_false]
      exact h1
    · simpa using h4
    · intro hecho
      obtain ⟨h6, h7⟩ := h5 hecho
      refine ⟨?_, fun j hj => h7 j (Or.inr (by omega))⟩
      simpa using h6

/-- A write with every exchange succeeding: the call returns 0, the round
sizes chunk the 32-bit operation count `T` by half the array size, and the
messages carry the (offset, value) pairs of operations `0 .. T - 1`. -/
theorem regrdwr_write_core {σ : Type} (C : Nat) (comm : Transport σ) (fuel : Nat) (s : σ)
    (msg0 : tegra_vhost_cmd_msg) (handle moduleid num_offsets block_size : Nat)
    (offs vals : Nat → Nat) (write : Nat) (hw : write ≠ 0)
    (hC : 2 ≤ C) (hbs : block_size < 2 ^ 32) (hok : always_succeeds comm)
    (hfuel : u32 (num_offsets * (block_size / 4)) ≤ fuel) :
    ∃ res, vhost_host1x_regrdwr C comm fuel s msg0 handle moduleid num_offsets block_size
        offs vals write = some res ∧
      res.ret = 0 ∧
      res.vals = vals ∧
      sent_counts res.sent = chunk_counts (u32 (num_offsets * (block_size / 4))) (C >>> 1) ∧
      sent_pairs res.sent
        = (List.range' 0 (u32 (num_offsets * (block_size / 4)))).map
            (fun k => (op_offset offs (block_size / 4) k, vals k)) := by
  have hcap : 0 < C >>> 1 := by
    rw [Nat.shiftRight_eq_div_pow]; omega
  by_cases hr0 : block_size / 4 = 0
  · have hT : u32 (num_offsets * (block_size / 4)) = 0 := by rw [hr0]; rfl
    refine ⟨{ ret := 0, vals := vals, server := s, sent := [], received := [], events := [] },
      ?_, rfl, rfl, ?_, ?_⟩
    · simp only [vhost_host1x_regrdwr, shiftRight_two, hT, ne_eq, hw, not_false_eq_true,
        if_true, write_loop_nothing]
    · rw [hT, chunk_counts_zero]; rfl
    · rw [hT]; rfl
  · obtain ⟨res, h1, h2, h3, h4, h5⟩ := write_loop_spec C comm (block_size / 4) offs vals hok
      hcap (block_regs_le block_size hbs) fuel (u32 (num_offsets * (block_size / 4))) 0 0 0
      { msg0 with cmd := tegra_vhost_cmd.TEGRA_VHOST_CMD_HOST1X_REGRDWR,
                  handle := handle, moduleid := moduleid, write := write }
      s (Nat.pos_of_ne_zero hr0) (by simp) hfuel
    refine ⟨res, ?_, h2, h3, h4, h5⟩
    simp only [vhost_host1x_regrdwr, shiftRight_two, ne_eq, hw, not_false_eq_true, if_true]
    exact h1

theorem sample_server_succeeds : always_succeeds sample_server :=
  fun _ _ => ⟨rfl, rfl⟩

theorem sample_server_echoes : echoes_count sample_server :=
  fun _ _ => rfl

theorem zero_count_server_succeeds : always_succeeds zero_count_server :=
  fun _ _ => ⟨rfl, rfl⟩

/-- C7: with `REGRDWR_ARRAY_SIZE = C ≥ 2`, a total of
`num_offsets * (block_size / 4)` operations that fits 32 bits and every exchange
succeeding, `vhost_host1x_regrdwr` returns 0 after round trips whose counts are
`min(remaining, cap)` in turn, with `cap = C` for reads and `C / 2` for writes:
every count lies between 1 and `cap`, all but the last equal `cap`, the counts
sum to the total and there are `ceil(total / cap)` round trips. -/
theorem regrdwr_round_sizes {σ : Type} (C : Nat) (comm : Transport σ) (fuel : Nat) (s : σ)
    (msg0 : tegra_vhost_cmd_msg) (handle moduleid num_offsets block_size : Nat)
    (offs vals : Nat → Nat) (write : Nat)
    (hC : 2 ≤ C) (hbs : block_size < 2 ^ 32)
    (htotal : num_offsets * (block_size / 4) < 2 ^ 32)
    (hok : always_succeeds comm)
    (hfuel : num_offsets * (block_size / 4) ≤ fuel) :
    ∃ res, vhost_host1x_regrdwr C comm fuel s msg0 handle moduleid num_offsets block_size
        offs vals write = some res ∧
      res.ret = 0 ∧
      round_capacity C write = (if write ≠ 0 then C / 2 else C) ∧
      sent_counts res.sent
        = chunk_counts (num_offsets * (block_size / 4)) (round_capacity C write) ∧
      (∀ i, i < res.sent.length →
        (sent_counts res.sent)[i]?
          = some (min (num_offsets * (block_size / 4) - i * round_capacity C write)
              (round_capacity C write))) ∧
      (∀ c, c ∈ sent_counts res.sent → 1 ≤ c ∧ c ≤ round_capacity C write) ∧
      (∀ c, c ∈ (sent_counts res.sent).dropLast → c = round_capacity C write) ∧
      (sent_counts res.sent).sum = num_offsets * (block_size / 4) ∧
      res.sent.length
        = (num_offsets * (block_size / 4) + round_capacity C write - 1)
            / round_capacity C write := by
  have hT : u32 (num_offsets * (block_size / 4)) = num_offsets * (block_size / 4) :=
    u32_of_lt _ htotal
  have hhalf : C >>> 1 = C / 2 := by rw [Nat.shiftRight_eq_div_pow]
  have hcapdef : round_capacity C write = (if write ≠ 0 then C / 2 else C) := by
    unfold round_capacity; rw [hhalf]
  have hcap : 0 < round_capacity C write := by
    rw [hcapdef]; split <;> omega
  have hcore : ∃ res, vhost_host1x_regrdwr C comm fuel s msg0 handle moduleid num_offsets
      block_size offs vals write = some res ∧ res.ret = 0 ∧
      sent_counts res.sent
        = chunk_counts (num_offsets * (block_size / 4)) (round_capacity C write) := by
    by_cases hw : write = 0
    · subst hw
      obtain ⟨res, h1, h2, h3, _⟩ := regrdwr_read_core C comm fuel s msg0 handle moduleid
        num_offsets block_size offs vals (by omega) hbs hok (by rw [hT]; exact hfuel)
      refine ⟨res, h1, h2, ?_⟩
      rw [h3, hT]; rfl
    · obtain ⟨res, h1, h2, _, h3, _⟩ := regrdwr_write_core C comm fuel s msg0 handle moduleid
        num_offsets block_size offs vals write hw hC hbs hok (by rw [hT]; exact hfuel)
      refine ⟨res, h1, h2, ?_⟩
      rw [h3, hT]
      simp only [round_capacity, ne_eq, hw, not_false_eq_true, if_true]
  obtain ⟨res, h1, h2, h3⟩ := hcore
  have hlen : res.sent.length = (sent_counts res.sent).length := by
    simp [sent_counts]
  refine ⟨res, h1, h2, hcapdef, h3, ?_, ?_, ?_, ?_, ?_⟩
  · intro i hi
    rw [hlen, h3] at hi
    rw [h3]
    exact chunk_counts_get _ hcap i _ hi
  · intro c hc
    rw [h3] at hc
    exact chunk_counts_mem _ _ hcap c hc
  · intro c hc
    rw [h3] at hc
    exact chunk_counts_dropLast _ _ c hc
  · rw [h3]; exact chunk_counts_sum _ _
  · rw [hlen, h3]; exact chunk_counts_length _ _ hcap

/-- C7 at the example of the specification: 5 units of 8 bytes read with
capacity 4 go out as rounds of 4, 4 and 2 operations. -/
theorem regrdwr_round_sizes_witness :
    ((2 ≤ 4 ∧ 8 < 2 ^ 32 ∧ 5 * (8 / 4) < 2 ^ 32 ∧ always_succeeds sample_server ∧
      5 * (8 / 4) ≤ 10) ∧
     (vhost_host1x_regrdwr 4 sample_server 10 () sample_msg0 1 2 5 8 sample_offs
        (fun _ => 0) 0).map (fun r => sent_counts r.sent) = some [4, 4, 2]) ∧
    ∃ res, vhost_host1x_regrdwr 4 sample_server 10 () sample_msg0 1 2 5 8 sample_offs
        (fun _ => 0) 0 = some res ∧
      res.ret = 0 ∧
      round_capacity 4 0 = (if 0 ≠ 0 then 4 / 2 else 4) ∧
      sent_counts res.sent = chunk_counts (5 * (8 / 4)) (round_capacity 4 0) ∧
      (∀ i, i < res.sent.length →
        (sent_counts res.sent)[i]?
          = some (min (5 * (8 / 4) - i * round_capacity 4 0) (round_capacity 4 0))) ∧
      (∀ c, c ∈ sent_counts res.sent → 1 ≤ c ∧ c ≤ round_capacity 4 0) ∧
      (∀ c, c ∈ (sent_counts res.sent).dropLast → c = round_capacity 4 0) ∧
      (sent_counts res.sent).sum = 5 * (8 / 4) ∧
      res.sent.length = (5 * (8 / 4) + round_capacity 4 0 - 1) / round_capacity 4 0 :=
  ⟨⟨⟨by decide, by decide, by decide, sample_server_succeeds, by decide⟩, by decide⟩,
    regrdwr_round_sizes 4 sample_server 10 () sample_msg0 1 2 5 8 sample_offs (fun _ => 0) 0
      (by decide) (by decide) (by decide) sample_server_succeeds (by decide)⟩

/-- C8, as stated, fails: 65536 units of 262144 bytes (65536 registers each) make
`2^32` operations, the `u32` product `num_offsets * num_per_block` wraps to 0,
and the read returns 0 without placing any offset in any message, whereas the
unchunked list has `2^32` entries. -/
theorem regrdwr_read_offsets_counterexample :
    (0 < 262144 ∧ 262144 % 4 = 0 ∧ always_succeeds sample_server) ∧
    (vhost_host1x_regrdwr 4 sample_server 10 () sample_msg0 1 2 65536 262144 sample_offs
        (fun _ => 0) 0).map (fun r => (r.ret, sent_offsets r.sent)) = some (0, []) ∧
    (vhost_host1x_regrdwr 4 sample_server 10 () sample_msg0 1 2 65536 262144 sample_offs
        (fun _ => 0) 0).map (fun r => sent_offsets r.sent)
      ≠ some (unchunked_offsets sample_offs 65536 (262144 / 4)) := by
  have hrun : (vhost_host1x_regrdwr 4 sample_server 10 () sample_msg0 1 2 65536 262144
      sample_offs (fun _ => 0) 0).map (fun r => sent_offsets r.sent) = some [] := by
    decide
  refine ⟨⟨by decide, by decide, sample_server_succeeds⟩, by decide, ?_⟩
  rw [hrun]
  intro h
  have hlen := congrArg (fun o => o.map List.length) h
  simp only [Option.map_some', List.length_nil, unchunked_offsets_length] at hlen
  exact absurd hlen (by decide)

/-- C8, amended: for a read with every exchange succeeding (array size at least
1), the offsets placed in the messages, concatenated over the round trips, are
the first `num_offsets * r mod 2^32` entries of the unchunked single-pass list
`[offs[u] + 4*n]`, where `r = block_size / 4`; they are the whole list when
`num_offsets * r` fits 32 bits, whatever the capacity. -/
theorem regrdwr_read_offsets_in_order {σ : Type} (C : Nat) (comm : Transport σ) (fuel : Nat)
    (s : σ) (msg0 : tegra_vhost_cmd_msg) (handle moduleid num_offsets block_size : Nat)
    (offs vals : Nat → Nat)
    (hC : 0 < C) (hbs : block_size < 2 ^ 32) (hok : always_succeeds comm)
    (hfuel : u32 (num_offsets * (block_size / 4)) ≤ fuel) :
    ∃ res, vhost_host1x_regrdwr C comm fuel s msg0 handle moduleid num_offsets block_size
        offs vals 0 = some res ∧
      res.ret = 0 ∧
      sent_offsets res.sent
        = (unchunked_offsets offs num_offsets (block_size / 4)).take
            (u32 (num_offsets * (block_size / 4))) ∧
      (num_offsets * (block_size / 4) < 2 ^ 32 →
        sent_offsets res.sent = unchunked_offsets offs num_offsets (block_size / 4)) := by
  obtain ⟨res, h1, h2, _, h4, _⟩ := regrdwr_read_core C comm fuel s msg0 handle moduleid
    num_offsets block_size offs vals hC hbs hok hfuel
  have htake : sent_offsets res.sent
      = (unchunked_offsets offs num_offsets (block_size / 4)).take
          (u32 (num_offsets * (block_size / 4))) := by
    rw [h4, unchunked_offsets_take offs num_offsets (block_size / 4) _ (u32_le _)]
  refine ⟨res, h1, h2, htake, fun hfit => ?_⟩
  rw [htake, u32_of_lt _ hfit]
  exact List.take_of_length_le (by rw [unchunked_offsets_length])

/-- C8 amended, at the example of the specification: 5 units of 8 bytes read
with capacity 4. -/
theorem regrdwr_read_offsets_in_order_witness :
    ((0 < 4 ∧ 8 < 2 ^ 32 ∧ always_succeeds sample_server ∧ u32 (5 * (8 / 4)) ≤ 10) ∧
     (vhost_host1x_regrdwr 4 sample_server 10 () sample_msg0 1 2 5 8 sample_offs
        (fun _ => 0) 0).map (fun r => sent_offsets r.sent)
      = some [256, 260, 512, 516, 768, 772, 1024, 1028, 1280, 1284]) ∧
    ∃ res, vhost_host1x_regrdwr 4 sample_server 10 () sample_msg0 1 2 5 8 sample_offs
        (fun _ => 0) 0 = some res ∧
      res.ret = 0 ∧
      sent_offsets res.sent
        = (unchunked_offsets sample_offs 5 (8 / 4)).take (u32 (5 * (8 / 4))) ∧
      (5 * (8 / 4) < 2 ^ 32 → sent_offsets res.sent = unchunked_offsets sample_offs 5 (8 / 4)) :=
  ⟨⟨⟨by decide, by decide, sample_server_succeeds, by decide⟩, by decide⟩,
    regrdwr_read_offsets_in_order 4 sample_server 10 () sample_msg0 1 2 5 8 sample_offs
      (fun _ => 0) (by decide) (by decide) sample_server_succeeds (by decide)⟩

/-- C9, as stated, fails: 65536 units of 262144 bytes make `2^32` operations,
the `u32` product wraps to 0, and the write returns 0 without packing any pair,
whereas the list of pairs for `k = 0 .. num_offsets*r - 1` has `2^32` entries. -/
theorem regrdwr_write_pairs_counterexample :
    (0 < 262144 ∧ 262144 % 4 = 0 ∧ always_succeeds sample_server) ∧
    (vhost_host1x_regrdwr 4 sample_server 10 () sample_msg0 1 2 65536 262144 sample_offs
        sample_vals 1).map (fun r => (r.ret, sent_pairs r.sent)) = some (0, []) ∧
    (vhost_host1x_regrdwr 4 sample_server 10 () sample_msg0 1 2 65536 262144 sample_offs
        sample_vals 1).map (fun r => sent_pairs r.sent)
      ≠ some (unchunked_pairs sample_offs sample_vals 65536 (262144 / 4)) := by
  have hrun : (vhost_host1x_regrdwr 4 sample_server 10 () sample_msg0 1 2 65536 262144
      sample_offs sample_vals 1).map (fun r => sent_pairs r.sent) = some [] := by
    decide
  refine ⟨⟨by decide, by decide, sample_server_succeeds⟩, by decide, ?_⟩
  rw [hrun]
  intro h
  have hlen := congrArg (fun o => o.map List.length) h
  simp only [Option.map_some', List.length_nil, unchunked_pairs_length] at hlen
  exact absurd hlen (by decide)

/-- C9, amended: for a write with every exchange succeeding (array size at
least 2), the (offset, value) pairs packed in the messages, concatenated over
the round trips, are the first `num_offsets * r mod 2^32` entries of the list
`(offs[k / r] + 4*(k mod r), vals[k])`, `k = 0 .. num_offsets*r - 1`, where
`r = block_size / 4`; they are the whole list when `num_offsets * r` fits 32
bits.  The array `vals` is left as it was. -/
theorem regrdwr_write_pairs_in_order {σ : Type} (C : Nat) (comm : Transport σ) (fuel : Nat)
    (s : σ) (msg0 : tegra_vhost_cmd_msg) (handle moduleid num_offsets block_size : Nat)
    (offs vals : Nat → Nat) (write : Nat) (hw : write ≠ 0)
    (hC : 2 ≤ C) (hbs : block_size < 2 ^ 32) (hok : always_succeeds comm)
    (hfuel : u32 (num_offsets * (block_size / 4)) ≤ fuel) :
    ∃ res, vhost_host1x_regrdwr C comm fuel s msg0 handle moduleid num_offsets block_size
        offs vals write = some res ∧
      res.ret = 0 ∧
      res.vals = vals ∧
      sent_pairs res.sent
        = (unchunked_pairs offs vals num_offsets (block_size / 4)).take
            (u32 (num_offsets * (block_size / 4))) ∧
      (num_offsets * (block_size / 4) < 2 ^ 32 →
        sent_pairs res.sent = unchunked_pairs offs vals num_offsets (block_size / 4)) := by
  obtain ⟨res, h1, h2, h3, _, h5⟩ := regrdwr_write_core C comm fuel s msg0 handle moduleid
    num_offsets block_size offs vals write hw hC hbs hok hfuel
  have htake : sent_pairs res.sent
      = (unchunked_pairs offs vals num_offsets (block_size / 4)).take
          (u32 (num_offsets * (block_size / 4))) := by
    rw [h5, unchunked_pairs_take offs vals num_offsets (block_size / 4) _ (u32_le _)]
  refine ⟨res, h1, h2, h3, htake, fun hfit => ?_⟩
  rw [htake, u32_of_lt _ hfit]
  exact List.take_of_length_le (by rw [unchunked_pairs_length])

/-- C9 amended, at the example of the specification: offsets `0x100, 0x200`,
4 bytes per unit, values `0xAA, 0xBB`, array size 4 (two pairs per round):
one round trip with the pairs `(0x100, 0xAA), (0x200, 0xBB)`. -/
theorem regrdwr_write_pairs_in_order_witness :
    (((1 : Nat) ≠ 0 ∧ 2 ≤ 4 ∧ 4 < 2 ^ 32 ∧ always_succeeds sample_server ∧
      u32 (2 * (4 / 4)) ≤ 10) ∧
     (vhost_host1x_regrdwr 4 sample_server 10 () sample_msg0 1 2 2 4 sample_offs
        sample_vals 1).map (fun r => (sent_counts r.sent, sent_pairs r.sent))
      = some ([2], [(0x100, 0xAA), (0x200, 0xBB)])) ∧
    ∃ res, vhost_host1x_regrdwr 4 sample_server 10 () sample_msg0 1 2 2 4 sample_offs
        sample_vals 1 = some res ∧
      res.ret = 0 ∧
      res.vals = sample_vals ∧
      sent_pairs res.sent
        = (unchunked_pairs sample_offs sample_vals 2 (4 / 4)).take (u32 (2 * (4 / 4))) ∧
      (2 * (4 / 4) < 2 ^ 32 →
        sent_pairs res.sent = unchunked_pairs sample_offs sample_vals 2 (4 / 4)) :=
  ⟨⟨⟨by decide, by decide, by decide, sample_server_succeeds, by decide⟩, by decide⟩,
    regrdwr_write_pairs_in_order 4 sample_server 10 () sample_msg0 1 2 2 4 sample_offs
      sample_vals 1 (by decide) (by decide) (by decide) sample_server_succeeds (by decide)⟩

/-- C10, as stated, fails.  First input: one unit of 4 bytes read from a server
that reports success with `count = 0` in its reply; one round trip asks for
offset 256, the reply carries 99 as its first word, the call returns 0, and
`vals[0]` still holds its old value 0, because `memcpy` takes its length from
the `count` of the reply.  Second input: 65536 units of 262144 bytes; the call
returns 0 with no round trip at all and `vals[0]` unchanged, although index 0
lies below `num_offsets * (block_size / 4)`. -/
theorem regrdwr_read_output_counterexample :
    (always_succeeds zero_count_server ∧
     (vhost_host1x_regrdwr 4 zero_count_server 10 () sample_msg0 1 2 1 4 sample_offs
        (fun _ => 0) 0).map
        (fun r => (r.ret, sent_counts r.sent, sent_offsets r.sent,
          r.received.map (fun m => m.regs 0), r.vals 0))
      = some (0, [1], [256], [99], 0)) ∧
    (always_succeeds sample_server ∧ 0 < 65536 * (262144 / 4) ∧
     (vhost_host1x_regrdwr 4 sample_server 10 () sample_msg0 1 2 65536 262144 sample_offs
        (fun _ => 0) 0).map (fun r => (r.ret, r.sent.length, r.vals 0))
      = some (0, 0, 0)) := by
  refine ⟨⟨zero_count_server_succeeds, by decide⟩, sample_server_succeeds, by decide, by decide⟩

/-- C10, amended: for a read with every exchange succeeding and every reply
carrying the `count` of its request (array size at least 1), the call returns
0 and, with `T = num_offsets * (block_size / 4) mod 2^32` the operation count
the code computes, `vals[0 .. T-1]` is the concatenation, in round-trip order,
of the first `count` words of each reply, so that `vals[k]` is the word returned
for the `k`-th requested offset, the requested offsets being the first `T`
entries of the unchunked list; `vals` is unchanged from index `T` on. -/
theorem regrdwr_read_output {σ : Type} (C : Nat) (comm : Transport σ) (fuel : Nat)
    (s : σ) (msg0 : tegra_vhost_cmd_msg) (handle moduleid num_offsets block_size : Nat)
    (offs vals : Nat → Nat)
    (hC : 0 < C) (hbs : block_size < 2 ^ 32) (hok : always_succeeds comm)
    (hecho : echoes_count comm)
    (hfuel : u32 (num_offsets * (block_size / 4)) ≤ fuel) :
    ∃ res, vhost_host1x_regrdwr C comm fuel s msg0 handle moduleid num_offsets block_size
        offs vals 0 = some res ∧
      res.ret = 0 ∧
      sent_offsets res.sent
        = (unchunked_offsets offs num_offsets (block_size / 4)).take
            (u32 (num_offsets * (block_size / 4))) ∧
      (List.range (u32 (num_offsets * (block_size / 4)))).map res.vals
        = received_words res.received ∧
      (∀ k, k < u32 (num_offsets * (block_size / 4)) →
        (received_words res.received)[k]? = some (res.vals k)) ∧
      (∀ j, u32 (num_offsets * (block_size / 4)) ≤ j → res.vals j = vals j) ∧
      (num_offsets * (block_size / 4) < 2 ^ 32 →
        u32 (num_offsets * (block_size / 4)) = num_offsets * (block_size / 4)) := by
  obtain ⟨res, h1, h2, _, h4, h5⟩ := regrdwr_read_core C comm fuel s msg0 handle moduleid
    num_offsets block_size offs vals hC hbs hok hfuel
  obtain ⟨h6, h7⟩ := h5 hecho
  refine ⟨res, h1, h2, ?_, h6, ?_, h7, fun hfit => u32_of_lt _ hfit⟩
  · rw [h4, unchunked_offsets_take offs num_offsets (block_size / 4) _ (u32_le _)]
  · intro k hk
    rw [← h6, List.getElem?_map, List.getElem?_range hk]
    rfl

/-- C10 amended, at the example of the specification: 5 units of 8 bytes read
with capacity 4 from the sample server, whose register at `offset` holds
`offset + 1000`. -/
theorem regrdwr_read_output_witness :
    ((0 < 4 ∧ 8 < 2 ^ 32 ∧ always_succeeds sample_server ∧ echoes_count sample_server ∧
      u32 (5 * (8 / 4)) ≤ 10) ∧
     (vhost_host1x_regrdwr 4 sample_server 10 () sample_msg0 1 2 5 8 sample_offs
        (fun _ => 0) 0).map (fun r => (List.range 11).map r.vals)
      = some [1256, 1260, 1512, 1516, 1768, 1772, 2024, 2028, 2280, 2284, 0]) ∧
    ∃ res, vhost_host1x_regrdwr 4 sample_server 10 () sample_msg0 1 2 5 8 sample_offs
        (fun _ => 0) 0 = some res ∧
      res.ret = 0 ∧
      sent_offsets res.sent
        = (unchunked_offsets sample_offs 5 (8 / 4)).take (u32 (5 * (8 / 4))) ∧
      (List.range (u32 (5 * (8 / 4)))).map res.vals = received_words res.received ∧
      (∀ k, k < u32 (5 * (8 / 4)) → (received_words res.received)[k]? = some (res.vals k)) ∧
      (∀ j, u32 (5 * (8 / 4)) ≤ j → res.vals j = (fun _ => 0) j) ∧
      (5 * (8 / 4) < 2 ^ 32 → u32 (5 * (8 / 4)) = 5 * (8 / 4)) :=
  ⟨⟨⟨by decide, by decide, sample_server_succeeds, sample_server_echoes, by decide⟩,
      by decide⟩,
    regrdwr_read_output 4 sample_server 10 () sample_msg0 1 2 5 8 sample_offs
      (fun _ => 0) (by decide) (by decide) sample_server_succeeds sample_server_echoes
      (by decide)⟩

/-! ## `vhost_sendrecv` -/

/-- C20: when the transport exchange succeeds, `vhost_sendrecv` returns 0,
overwrites the caller's message with the leading `sizeof(msg)` bytes of the
reply and calls `tegra_gr_comm_release` exactly once, on the reply handle; when
the exchange fails, the caller's message is unchanged, nothing is released and
the transport's error code is returned. -/
theorem sendrecv_copies_reply_and_releases_once {σ : Type} (comm : Transport σ) (s : σ)
    (msg : tegra_vhost_cmd_msg) :
    ((comm.sendrecv s msg).2.err = 0 →
      (vhost_sendrecv comm s msg).err = 0 ∧
      (vhost_sendrecv comm s msg).msg = (comm.sendrecv s msg).2.data ∧
      releases (vhost_sendrecv comm s msg).events = [(comm.sendrecv s msg).2.handle]) ∧
    ((comm.sendrecv s msg).2.err ≠ 0 →
      (vhost_sendrecv comm s msg).err = (comm.sendrecv s msg).2.err ∧
      (vhost_sendrecv comm s msg).msg = msg ∧
      (vhost_sendrecv comm s msg).events = [] ∧
      releases (vhost_sendrecv comm s msg).events = []) ∧
    (vhost_sendrecv comm s msg).server = (comm.sendrecv s msg).1 := by
  refine ⟨?_, ?_, ?_⟩
  · intro h
    simp only [vhost_sendrecv, h, if_true, true_and]
    split <;> simp [releases]
  · intro h
    simp [vhost_sendrecv, h, releases]
  · simp only [vhost_sendrecv]
    split <;> rfl

/-! ## The teardown: power failure and syncpoint release -/

theorem release_syncpts_marked (policy : nvhost_resource_policy) (l : List Nat) :
    marked_unused (release_syncpts policy l).2 = l.filter (fun x => decide (x ≠ 0)) ∧
    put_refs (release_syncpts policy l).2
      = (if policy = nvhost_resource_policy.RESOURCE_PER_DEVICE
          then l.filter (fun x => decide (x ≠ 0)) else []) ∧
    (release_syncpts policy l).1 = List.replicate l.length 0 := by
  induction l with
  | nil => simp [release_syncpts, marked_unused, put_refs]
  | cons x rest ih =>
    obtain ⟨h1, h2, h3⟩ := ih
    simp only [marked_unused, put_refs] at h1 h2 ⊢
    by_cases hx : x = 0
    · subst hx
      simp only [release_syncpts, if_true, h1, h2, h3]
      simp [List.replicate_succ]
    · by_cases hp : policy = nvhost_resource_policy.RESOURCE_PER_DEVICE
      · simp only [release_syncpts, hx, if_false, hp, if_true] at h1 h2 h3 ⊢
        simp [List.filterMap_cons, h1, h2, h3, hx, List.replicate_succ]
      · simp only [release_syncpts, hx, if_false, hp] at h1 h2 h3 ⊢
        simp [List.filterMap_cons, h1, h2, h3, hx, List.replicate_succ]

theorem release_syncpts_events_kind (policy : nvhost_resource_policy) (l : List Nat) :
    ∀ e, e ∈ (release_syncpts policy l).2 →
      (∃ id, e = Event.nvhost_syncpt_mark_unused id) ∨
      (∃ id, e = Event.nvhost_syncpt_put_ref id) := by
  induction l with
  | nil => intro e he; simp [release_syncpts] at he
  | cons x rest ih =>
    intro e he
    simp only [release_syncpts] at he
    split at he
    · exact ih e he
    · simp only [List.mem_cons, List.mem_append] at he
      rcases he with h | h | h
      · exact Or.inl ⟨x, h⟩
      · split at h
        · simp only [List.mem_singleton] at h
          exact Or.inr ⟨x, h⟩
        · simp at h
      · exact ih e h

theorem release_client_managed_spec (policy : nvhost_resource_policy) (x : Nat) :
    marked_unused (release_client_managed policy x).2 = (if x ≠ 0 then [x] else []) ∧
    put_refs (release_client_managed policy x).2
      = (if policy = nvhost_resource_policy.RESOURCE_PER_DEVICE
          then (if x ≠ 0 then [x] else []) else []) ∧
    (release_client_managed policy x).1 = 0 ∧
    (∀ e, e ∈ (release_client_managed policy x).2 →
      (∃ id, e = Event.nvhost_syncpt_mark_unused id) ∨
      (∃ id, e = Event.nvhost_syncpt_put_ref id)) := by
  by_cases hx : x = 0
  · subst hx
    simp [release_client_managed, marked_unused, put_refs]
  · by_cases hp : policy = nvhost_resource_policy.RESOURCE_PER_DEVICE
    · simp [release_client_managed, marked_unused, put_refs, hx, hp]
    · simp [release_client_managed, marked_unused, put_refs, hx, hp]

/-- The calls of the teardown of a bound slot when the power request
succeeds, in order. -/
theorem unmap_locked_events_powered (env : Env) (host : nvhost_master) (ref : Nat)
    (hdev : (host.chlist ref).dev ≠ 0) (hpow : env.module_busy_err = 0) :
    (nvhost_channel_unmap_locked env host ref).2
      = [Event.unmap_locked (host.chlist ref).chid, Event.nvhost_module_busy,
          Event.cdma_stop (host.chlist ref).chid] ++
        (if env.has_set_low_ch_prio then [Event.set_low_ch_prio (host.chlist ref).chid]
          else []) ++
        (release_syncpts (env.platform_get_drvdata (host.chlist ref).dev).resource_policy
          (host.chlist ref).syncpts).2 ++
        (release_client_managed
          (env.platform_get_drvdata (host.chlist ref).dev).resource_policy
          (host.chlist ref).client_managed_syncpt).2 ++
        [Event.nvhost_module_idle] ∧
    ((nvhost_channel_unmap_locked env host ref).1.chlist ref).syncpts
      = (release_syncpts (env.platform_get_drvdata (host.chlist ref).dev).resource_policy
          (host.chlist ref).syncpts).1 ∧
    ((nvhost_channel_unmap_locked env host ref).1.chlist ref).client_managed_syncpt
      = (release_client_managed
          (env.platform_get_drvdata (host.chlist ref).dev).resource_policy
          (host.chlist ref).client_managed_syncpt).1 := by
  unfold nvhost_channel_unmap_locked
  simp only [hdev, if_false, hpow, ne_eq, not_true_eq_false]
  refine ⟨?_, ?_, ?_⟩
  · simp
  · simp [store_channel]
  · simp [store_channel]

/-- The teardown of a bound slot when the power request fails. -/
theorem unmap_locked_unpowered (env : Env) (host : nvhost_master) (ref : Nat)
    (hdev : (host.chlist ref).dev ≠ 0) (hfail : env.module_busy_err ≠ 0) :
    (nvhost_channel_unmap_locked env host ref).2
      = [Event.unmap_locked (host.chlist ref).chid, Event.nvhost_module_busy,
          Event.warn_leaking_syncpts] ∧
    ((nvhost_channel_unmap_locked env host ref).1.chlist ref).syncpts
      = (host.chlist ref).syncpts ∧
    ((nvhost_channel_unmap_locked env host ref).1.chlist ref).client_managed_syncpt
      = (host.chlist ref).client_managed_syncpt := by
  unfold nvhost_channel_unmap_locked
  simp only [hdev, if_false, hfail, ne_eq, not_false_eq_true, if_true]
  refine ⟨trivial, ?_, ?_⟩
  · simp [store_channel]
  · simp [store_channel]

/-- C18: when `nvhost_module_busy` fails during the teardown of a slot with a
device binding, the only calls made are the power request and the warning: the
command stream is not stopped, the low-priority hook is not invoked, no
syncpoint is marked unused or dereferenced and `nvhost_module_idle` is not
called; the slot's syncpoint entries keep their values; and still the bit at
index `chid - ch_base` is cleared and the slot's identifier and device binding
are cleared. -/
theorem unmap_power_failure_still_frees_slot (env : Env) (host : nvhost_master) (ref : Nat)
    (hdev : (host.chlist ref).dev ≠ 0) (hfail : env.module_busy_err ≠ 0) :
    (nvhost_channel_unmap_locked env host ref).2
      = [Event.unmap_locked (host.chlist ref).chid, Event.nvhost_module_busy,
          Event.warn_leaking_syncpts] ∧
    (∀ e, e ∈ (nvhost_channel_unmap_locked env host ref).2 →
      e ≠ Event.cdma_stop (host.chlist ref).chid ∧
      e ≠ Event.set_low_ch_prio (host.chlist ref).chid ∧
      e ≠ Event.nvhost_module_idle) ∧
    marked_unused (nvhost_channel_unmap_locked env host ref).2 = [] ∧
    put_refs (nvhost_channel_unmap_locked env host ref).2 = [] ∧
    ((nvhost_channel_unmap_locked env host ref).1.chlist ref).syncpts
      = (host.chlist ref).syncpts ∧
    ((nvhost_channel_unmap_locked env host ref).1.chlist ref).client_managed_syncpt
      = (host.chlist ref).client_managed_syncpt ∧
    (∀ i : Nat, (i : Int) = (host.chlist ref).chid - nvhost_channel_ch_base host →
      (nvhost_channel_unmap_locked env host ref).1.allocated_channels i = false) ∧
    ((nvhost_channel_unmap_locked env host ref).1.chlist ref).identifier = 0 ∧
    ((nvhost_channel_unmap_locked env host ref).1.chlist ref).dev = 0 := by
  obtain ⟨h1, h2, h3⟩ := unmap_locked_unpowered env host ref hdev hfail
  obtain ⟨_, hb2, hb3, hb4, _⟩ := unmap_locked_bound env host ref hdev
  refine ⟨h1, ?_, ?_, ?_, h2, h3, ?_, hb4, hb3⟩
  · intro e he
    rw [h1] at he
    simp only [List.mem_cons, List.mem_singleton, List.not_mem_nil, or_false] at he
    rcases he with h | h | h <;> subst h <;> simp
  · rw [h1]; rfl
  · rw [h1]; rfl
  · intro i hi
    rw [hb2]
    simp only [clear_bit, nvhost_channel_get_index_from_id]
    rw [if_pos hi]

/-- C18 at the sample pool: slot 0 is bound and holds syncpoints 3 and 4; the
power request fails with `-EBUSY`. -/
theorem unmap_power_failure_still_frees_slot_witness :
    ((sample_pool.chlist 0).dev ≠ 0 ∧ sample_env_no_power.module_busy_err ≠ 0) ∧
    (nvhost_channel_unmap_locked sample_env_no_power sample_pool 0).2
      = [Event.unmap_locked (sample_pool.chlist 0).chid, Event.nvhost_module_busy,
          Event.warn_leaking_syncpts] ∧
    (∀ e, e ∈ (nvhost_channel_unmap_locked sample_env_no_power sample_pool 0).2 →
      e ≠ Event.cdma_stop (sample_pool.chlist 0).chid ∧
      e ≠ Event.set_low_ch_prio (sample_pool.chlist 0).chid ∧
      e ≠ Event.nvhost_module_idle) ∧
    marked_unused (nvhost_channel_unmap_locked sample_env_no_power sample_pool 0).2 = [] ∧
    put_refs (nvhost_channel_unmap_locked sample_env_no_power sample_pool 0).2 = [] ∧
    ((nvhost_channel_unmap_locked sample_env_no_power sample_pool 0).1.chlist 0).syncpts
      = (sample_pool.chlist 0).syncpts ∧
    ((nvhost_channel_unmap_locked sample_env_no_power sample_pool 0).1.chlist
        0).client_managed_syncpt
      = (sample_pool.chlist 0).client_managed_syncpt ∧
    (∀ i : Nat, (i : Int) = (sample_pool.chlist 0).chid - nvhost_channel_ch_base sample_pool →
      (nvhost_channel_unmap_locked sample_env_no_power sample_pool 0).1.allocated_channels i
        = false) ∧
    ((nvhost_channel_unmap_locked sample_env_no_power sample_pool 0).1.chlist 0).identifier
      = 0 ∧
    ((nvhost_channel_unmap_locked sample_env_no_power sample_pool 0).1.chlist 0).dev = 0 :=
  ⟨⟨by decide, by decide⟩,
    unmap_power_failure_still_frees_slot sample_env_no_power sample_pool 0
      (by decide) (by decide)⟩

/-- C19: when the power request succeeds during the teardown of a slot with a
device binding, `nvhost_syncpt_mark_unused` is called once for each nonzero
entry of `syncpts` in index order and then once for `client_managed_syncpt` if
nonzero, and for no other id; `nvhost_syncpt_put_ref` is called for the same
ids if the resource policy of the device is `RESOURCE_PER_DEVICE` and not at
all otherwise; afterwards every entry of `syncpts` and `client_managed_syncpt`
are 0; the power request is taken once and released once. -/
theorem unmap_releases_every_syncpt (env : Env) (host : nvhost_master) (ref : Nat)
    (hdev : (host.chlist ref).dev ≠ 0) (hpow : env.module_busy_err = 0) :
    marked_unused (nvhost_channel_unmap_locked env host ref).2
      = held_syncpts (host.chlist ref) ∧
    put_refs (nvhost_channel_unmap_locked env host ref).2
      = (if (env.platform_get_drvdata (host.chlist ref).dev).resource_policy
            = nvhost_resource_policy.RESOURCE_PER_DEVICE
          then held_syncpts (host.chlist ref) else []) ∧
    ((nvhost_channel_unmap_locked env host ref).1.chlist ref).syncpts
      = List.replicate (host.chlist ref).syncpts.length 0 ∧
    (∀ x, x ∈ ((nvhost_channel_unmap_locked env host ref).1.chlist ref).syncpts → x = 0) ∧
    ((nvhost_channel_unmap_locked env host ref).1.chlist ref).client_managed_syncpt = 0 ∧
    (nvhost_channel_unmap_locked env host ref).2.count Event.nvhost_module_busy = 1 ∧
    (nvhost_channel_unmap_locked env host ref).2.count Event.nvhost_module_idle = 1 := by
  obtain ⟨h1, h2, h3⟩ := unmap_locked_events_powered env host ref hdev hpow
  obtain ⟨s1, s2, s3⟩ := release_syncpts_marked
    (env.platform_get_drvdata (host.chlist ref).dev).resource_policy (host.chlist ref).syncpts
  obtain ⟨c1, c2, c3, c4⟩ := release_client_managed_spec
    (env.platform_get_drvdata (host.chlist ref).dev).resource_policy
    (host.chlist ref).client_managed_syncpt
  have hk := release_syncpts_events_kind
    (env.platform_get_drvdata (host.chlist ref).dev).resource_policy (host.chlist ref).syncpts
  have hcount : ∀ (l : List Event) (e0 : Event),
      (∀ e, e ∈ l → (∃ id, e = Event.nvhost_syncpt_mark_unused id) ∨
        (∃ id, e = Event.nvhost_syncpt_put_ref id)) →
      e0 = Event.nvhost_module_busy ∨ e0 = Event.nvhost_module_idle → l.count e0 = 0 := by
    intro l e0 hl he0
    rw [List.count_eq_zero]
    intro hmem
    rcases hl e0 hmem with ⟨id, h⟩ | ⟨id, h⟩ <;> rcases he0 with h0 | h0 <;>
      rw [h0] at h <;> exact Event.noConfusion h
  have hsplit : ∀ (a b c : List Event), marked_unused (a ++ b ++ c)
      = marked_unused a ++ marked_unused b ++ marked_unused c := by
    intro a b c; simp [marked_unused, List.filterMap_append]
  have hsplit2 : ∀ (a b c : List Event), put_refs (a ++ b ++ c)
      = put_refs a ++ put_refs b ++ put_refs c := by
    intro a b c; simp [put_refs, List.filterMap_append]
  refine ⟨?_, ?_, ?_, ?_, ?_, ?_, ?_⟩
  · rw [h1]
    simp only [List.append_assoc]
    simp only [marked_unused, List.filterMap_append] at s1 c1 ⊢
    rw [s1, c1]
    cases env.has_set_low_ch_prio <;> simp [held_syncpts]
  · rw [h1]
    simp only [List.append_assoc]
    simp only [put_refs, List.filterMap_append] at s2 c2 ⊢
    rw [s2, c2]
    by_cases hp : (env.platform_get_drvdata (host.chlist ref).dev).resource_policy
        = nvhost_resource_policy.RESOURCE_PER_DEVICE
    · cases env.has_set_low_ch_prio <;> simp [held_syncpts, hp]
    · cases env.has_set_low_ch_prio <;> simp [held_syncpts, hp]
  · rw [h2, s3]
  · intro x hx
    rw [h2, s3] at hx
    exact (List.mem_replicate.mp hx).2
  · rw [h3, c3]
  · rw [h1]
    simp only [List.count_append, hcount _ _ hk (Or.inl rfl), hcount _ _ c4 (Or.inl rfl)]
    cases env.has_set_low_ch_prio <;> simp [List.count_cons]
  · rw [h1]
    simp only [List.count_append, hcount _ _ hk (Or.inr rfl), hcount _ _ c4 (Or.inr rfl)]
    cases env.has_set_low_ch_prio <;> simp [List.count_cons]

/-- C19 at the sample pool: slot 0 holds syncpoints 3 (in `syncpts`) and 4
(client managed) and its device allocates syncpoints per device. -/
theorem unmap_releases_every_syncpt_witness :
    (((sample_pool.chlist 0).dev ≠ 0 ∧ sample_env.module_busy_err = 0) ∧
     marked_unused (nvhost_channel_unmap_locked sample_env sample_pool 0).2 = [3, 4] ∧
     put_refs (nvhost_channel_unmap_locked sample_env sample_pool 0).2 = [3, 4]) ∧
    marked_unused (nvhost_channel_unmap_locked sample_env sample_pool 0).2
      = held_syncpts (sample_pool.chlist 0) ∧
    put_refs (nvhost_channel_unmap_locked sample_env sample_pool 0).2
      = (if (sample_env.platform_get_drvdata (sample_pool.chlist 0).dev).resource_policy
            = nvhost_resource_policy.RESOURCE_PER_DEVICE
          then held_syncpts (sample_pool.chlist 0) else []) ∧
    ((nvhost_channel_unmap_locked sample_env sample_pool 0).1.chlist 0).syncpts
      = List.replicate (sample_pool.chlist 0).syncpts.length 0 ∧
    (∀ x, x ∈ ((nvhost_channel_unmap_locked sample_env sample_pool 0).1.chlist 0).syncpts →
      x = 0) ∧
    ((nvhost_channel_unmap_locked sample_env sample_pool 0).1.chlist 0).client_managed_syncpt
      = 0 ∧
    (nvhost_channel_unmap_locked sample_env sample_pool 0).2.count Event.nvhost_module_busy
      = 1 ∧
    (nvhost_channel_unmap_locked sample_env sample_pool 0).2.count Event.nvhost_module_idle
      = 1 :=
  ⟨⟨⟨by decide, by decide⟩, by decide, by decide⟩,
    unmap_releases_every_syncpt sample_env sample_pool 0 (by decide) (by decide)⟩

/-! ## `vhost_virt_moduleid` and `vhost_virt_connect` -/

theorem second_instance_ne (x : Int) (hx : 0 ≤ x) : second_instance x ≠ -1 := by
  obtain ⟨n, rfl⟩ := Int.eq_ofNat_of_zero_le hx
  have h : second_instance (n : Int) = ((65536 ||| n : Nat) : Int) := rfl
  rw [h]
  omega

theorem sendrecv_err {σ : Type} (comm : Transport σ) (s : σ) (m : tegra_vhost_cmd_msg) :
    (vhost_sendrecv comm s m).err = (comm.sendrecv s m).2.err := by
  simp only [vhost_sendrecv]
  split <;> rfl

theorem sendrecv_msg_of_ok {σ : Type} (comm : Transport σ) (s : σ) (m : tegra_vhost_cmd_msg)
    (h : (comm.sendrecv s m).2.err = 0) :
    (vhost_sendrecv comm s m).msg = (comm.sendrecv s m).2.data := by
  simp only [vhost_sendrecv, h, if_true]

theorem sendrecv_msg_of_err {σ : Type} (comm : Transport σ) (s : σ) (m : tegra_vhost_cmd_msg)
    (h : (comm.sendrecv s m).2.err ≠ 0) :
    (vhost_sendrecv comm s m).msg = m := by
  simp only [vhost_sendrecv, h, if_false]

theorem sendrecv_server {σ : Type} (comm : Transport σ) (s : σ) (m : tegra_vhost_cmd_msg) :
    (vhost_sendrecv comm s m).server = (comm.sendrecv s m).1 := by
  simp only [vhost_sendrecv]
  split <;> rfl

/-- With remote ids that are not negative, `vhost_virt_moduleid` returns -1
exactly on the ids that are none of its seven `case` labels. -/
theorem moduleid_default_iff (ids : module_ids) (hids : tegra_ids_nonneg ids)
    (moduleid : Int) :
    vhost_virt_moduleid ids moduleid = -1 ↔ moduleid ∉ module_table ids := by
  obtain ⟨h1, h2, h3, h4, h5⟩ := hids
  have g2 := second_instance_ne _ h2
  have g3 := second_instance_ne _ h3
  simp only [module_table, List.mem_cons, List.mem_singleton, List.not_mem_nil, or_false,
    not_or]
  unfold vhost_virt_moduleid
  constructor
  · intro h
    split at h
    · omega
    split at h
    · omega
    split at h
    · exact absurd h g2
    split at h
    · omega
    split at h
    · exact absurd h g3
    split at h
    · omega
    split at h
    · omega
    rename_i a b c d e f g
    exact ⟨a, b, c, d, e, f, g⟩
  · rintro ⟨a, b, c, d, e, f, g⟩
    simp only [a, b, c, d, e, f, g, if_false]

/-- What `vhost_virt_connect` does, by cases on the table lookup and on the
exchange. -/
theorem connect_cases {σ : Type} (ids : module_ids) (comm : Transport σ) (s : σ)
    (msg0 : tegra_vhost_cmd_msg) (moduleid : Int) :
    (vhost_virt_moduleid ids moduleid = -1 →
      (vhost_virt_connect ids comm s msg0 moduleid).handle = 0 ∧
      (vhost_virt_connect ids comm s msg0 moduleid).sent = [] ∧
      (vhost_virt_connect ids comm s msg0 moduleid).events = [] ∧
      (vhost_virt_connect ids comm s msg0 moduleid).server = s) ∧
    (vhost_virt_moduleid ids moduleid ≠ -1 →
      (vhost_virt_connect ids comm s msg0 moduleid).sent
        = [connect_request ids msg0 moduleid] ∧
      ((comm.sendrecv s (connect_request ids msg0 moduleid)).2.err ≠ 0 →
        (vhost_virt_connect ids comm s msg0 moduleid).handle = 0) ∧
      ((comm.sendrecv s (connect_request ids msg0 moduleid)).2.err = 0 →
        (comm.sendrecv s (connect_request ids msg0 moduleid)).2.data.ret ≠ 0 →
        (vhost_virt_connect ids comm s msg0 moduleid).handle = 0) ∧
      ((comm.sendrecv s (connect_request ids msg0 moduleid)).2.err = 0 →
        (comm.sendrecv s (connect_request ids msg0 moduleid)).2.data.ret = 0 →
        (vhost_virt_connect ids comm s msg0 moduleid).handle
          = (comm.sendrecv s (connect_request ids msg0 moduleid)).2.data.connect_handle)) := by
  constructor
  · intro h
    simp [vhost_virt_connect, h]
  · intro h
    have hc : vhost_virt_connect ids comm s msg0 moduleid
        = { handle :=
              if (vhost_sendrecv comm s (connect_request ids msg0 moduleid)).err ≠ 0 ∨
                  (vhost_sendrecv comm s (connect_request ids msg0 moduleid)).msg.ret ≠ 0
              then 0
              else (vhost_sendrecv comm s (connect_request ids msg0 moduleid)).msg.connect_handle,
            server := (vhost_sendrecv comm s (connect_request ids msg0 moduleid)).server,
            sent := [connect_request ids msg0 moduleid],
            events := (vhost_sendrecv comm s (connect_request ids msg0 moduleid)).events } := by
      simp only [vhost_virt_connect, h, if_false, connect_request]
    rw [hc]
    refine ⟨rfl, ?_, ?_, ?_⟩
    · intro he
      have := sendrecv_err comm s (connect_request ids msg0 moduleid)
      simp only [this, ne_eq, he, not_false_eq_true, true_or, if_true]
    · intro he hr
      have h1 := sendrecv_err comm s (connect_request ids msg0 moduleid)
      have h2 := sendrecv_msg_of_ok comm s (connect_request ids msg0 moduleid) he
      simp only [h1, h2, ne_eq, hr, not_false_eq_true, or_true, if_true]
    · intro he hr
      have h1 := sendrecv_err comm s (connect_request ids msg0 moduleid)
      have h2 := sendrecv_msg_of_ok comm s (connect_request ids msg0 moduleid) he
      simp only [h1, h2, ne_eq, he, hr, not_true_eq_false, or_self, if_false]

/-- C12: with remote module ids that are not negative, `vhost_virt_moduleid`
returns -1 exactly for the ids outside its seven table entries, and
`vhost_virt_connect` returns handle 0 when the id is not in the table (without
any exchange), when the exchange returns a transport error, and when the reply
carries a nonzero status; otherwise it returns the handle carried in the
reply. -/
theorem connect_fails_closed {σ : Type} (ids : module_ids) (comm : Transport σ) (s : σ)
    (msg0 : tegra_vhost_cmd_msg) (moduleid : Int) (hids : tegra_ids_nonneg ids) :
    (vhost_virt_moduleid ids moduleid = -1 ↔ moduleid ∉ module_table ids) ∧
    (moduleid ∉ module_table ids →
      (vhost_virt_connect ids comm s msg0 moduleid).handle = 0 ∧
      (vhost_virt_connect ids comm s msg0 moduleid).sent = [] ∧
      (vhost_virt_connect ids comm s msg0 moduleid).events = [] ∧
      (vhost_virt_connect ids comm s msg0 moduleid).server = s) ∧
    (moduleid ∈ module_table ids →
      (vhost_virt_connect ids comm s msg0 moduleid).sent
        = [connect_request ids msg0 moduleid] ∧
      ((comm.sendrecv s (connect_request ids msg0 moduleid)).2.err ≠ 0 →
        (vhost_virt_connect ids comm s msg0 moduleid).handle = 0) ∧
      ((comm.sendrecv s (connect_request ids msg0 moduleid)).2.err = 0 →
        (comm.sendrecv s (connect_request ids msg0 moduleid)).2.data.ret ≠ 0 →
        (vhost_virt_connect ids comm s msg0 moduleid).handle = 0) ∧
      ((comm.sendrecv s (connect_request ids msg0 moduleid)).2.err = 0 →
        (comm.sendrecv s (connect_request ids msg0 moduleid)).2.data.ret = 0 →
        (vhost_virt_connect ids comm s msg0 moduleid).handle
          = (comm.sendrecv s (connect_request ids msg0 moduleid)).2.data.connect_handle)) := by
  have hiff := moduleid_default_iff ids hids moduleid
  obtain ⟨h1, h2⟩ := connect_cases ids comm s msg0 moduleid
  refine ⟨hiff, fun hout => h1 (hiff.mpr hout), fun hin => h2 ?_⟩
  intro h
  exact (hiff.mp h) hin

/-- C12 at the sample constants: the VIC module (id 8) connects to the
granting server and receives handle 77; id 6 is not in the table. -/
theorem connect_fails_closed_witness :
    (tegra_ids_nonneg sample_ids ∧
     (vhost_virt_connect sample_ids granting_server () sample_msg0 8).handle = 77 ∧
     vhost_virt_moduleid sample_ids 6 = -1 ∧
     (vhost_virt_connect sample_ids granting_server () sample_msg0 6).sent.length = 0) ∧
    (vhost_virt_moduleid sample_ids 8 = -1 ↔ (8 : Int) ∉ module_table sample_ids) ∧
    ((8 : Int) ∉ module_table sample_ids →
      (vhost_virt_connect sample_ids granting_server () sample_msg0 8).handle = 0 ∧
      (vhost_virt_connect sample_ids granting_server () sample_msg0 8).sent = [] ∧
      (vhost_virt_connect sample_ids granting_server () sample_msg0 8).events = [] ∧
      (vhost_virt_connect sample_ids granting_server () sample_msg0 8).server = ()) ∧
    ((8 : Int) ∈ module_table sample_ids →
      (vhost_virt_connect sample_ids granting_server () sample_msg0 8).sent
        = [connect_request sample_ids sample_msg0 8] ∧
      ((granting_server.sendrecv () (connect_request sample_ids sample_msg0 8)).2.err ≠ 0 →
        (vhost_virt_connect sample_ids granting_server () sample_msg0 8).handle = 0) ∧
      ((granting_server.sendrecv () (connect_request sample_ids sample_msg0 8)).2.err = 0 →
        (granting_server.sendrecv () (connect_request sample_ids sample_msg0 8)).2.data.ret
          ≠ 0 →
        (vhost_virt_connect sample_ids granting_server () sample_msg0 8).handle = 0) ∧
      ((granting_server.sendrecv () (connect_request sample_ids sample_msg0 8)).2.err = 0 →
        (granting_server.sendrecv () (connect_request sample_ids sample_msg0 8)).2.data.ret
          = 0 →
        (vhost_virt_connect sample_ids granting_server () sample_msg0 8).handle
          = (granting_server.sendrecv ()
              (connect_request sample_ids sample_msg0 8)).2.data.connect_handle)) :=
  ⟨⟨⟨by decide, by decide, by decide, by decide, by decide⟩, by decide, by decide, by decide⟩,
    connect_fails_closed sample_ids granting_server () sample_msg0 8
      ⟨by decide, by decide, by decide, by decide, by decide⟩⟩

/-! ## `vhost_rdwr_module_regs`: error codes -/

/-- C13, as stated, fails: with every allocation succeeding, a fault of the
copy of the offsets from the caller makes `vhost_rdwr_module_regs` return
`-EFAULT` (-14), and a failure of `vhost_host1x_regrdwr` (here a transport
error on the first exchange) makes it return `-EFAULT` (-14) as well. -/
theorem rdwr_error_codes_counterexample :
    (vhost_rdwr_module_regs sample_ids 4 sample_server 10 () sample_msg0 faulting_staging
        connected_state 8 1 4 sample_offs (fun _ => 0) 0).map (fun r => (r.ret, r.sent.length))
      = some (-14, 0) ∧
    (vhost_host1x_regrdwr 4 failing_server 10 () sample_msg0 77
        (int_to_u32 (vhost_virt_moduleid sample_ids 8)) 1 4 sample_offs (fun _ => 0) 0).map
        (fun r => r.ret) = some (-1) ∧
    (vhost_rdwr_module_regs sample_ids 4 failing_server 10 () sample_msg0 sample_staging
        connected_state 8 1 4 sample_offs (fun _ => 0) 0).map (fun r => (r.ret, r.sent.length))
      = some (-14, 1) := by
  refine ⟨by decide, by decide, by decide⟩

/-- C13, amended: `vhost_rdwr_module_regs` returns `-EFAULT` when a staging
copy faults and `-EFAULT` again when `vhost_host1x_regrdwr` fails; `-ENOMEM`
is returned when an allocation fails. -/
theorem rdwr_error_codes {σ : Type} (ids : module_ids) (C : Nat) (comm : Transport σ)
    (fuel : Nat) (s : σ) (msg0 : tegra_vhost_cmd_msg) (env : staging_env) (st : virt_state)
    (moduleid : Int) (num_offsets block_size : Nat) (offsets values : Nat → Nat)
    (write : Nat) :
    ((env.kmalloc_vals = false ∨ env.kmalloc_offs = false) →
      (vhost_rdwr_module_regs ids C comm fuel s msg0 env st moduleid num_offsets block_size
        offsets values write).map (fun r => r.ret) = some (-ENOMEM)) ∧
    (env.kmalloc_vals = true → env.kmalloc_offs = true → env.copy_from_user_offs ≠ 0 →
      (vhost_rdwr_module_regs ids C comm fuel s msg0 env st moduleid num_offsets block_size
        offsets values write).map (fun r => (r.ret, r.sent.length)) = some (-EFAULT, 0)) ∧
    (env.kmalloc_vals = true → env.kmalloc_offs = true → env.copy_from_user_offs = 0 →
      write ≠ 0 → env.copy_from_user_vals ≠ 0 →
      (vhost_rdwr_module_regs ids C comm fuel s msg0 env st moduleid num_offsets block_size
        offsets values write).map (fun r => (r.ret, r.sent.length)) = some (-EFAULT, 0)) ∧
    (∀ ctx r, env.kmalloc_vals = true → env.kmalloc_offs = true →
      env.copy_from_user_offs = 0 → (write ≠ 0 → env.copy_from_user_vals = 0) →
      st.virt_ctx ≠ 0 → st.heap st.virt_ctx = some ctx →
      vhost_host1x_regrdwr C comm fuel s msg0 ctx.handle
        (int_to_u32 (vhost_virt_moduleid ids moduleid)) num_offsets block_size
        (copy_user env.offs0 offsets (num_offsets * 4) env.copy_from_user_offs)
        (if write ≠ 0 then
          copy_user env.vals0 values (u32 (num_offsets * block_size)) env.copy_from_user_vals
         else env.vals0) write = some r →
      (r.ret ≠ 0 →
        (vhost_rdwr_module_regs ids C comm fuel s msg0 env st moduleid num_offsets block_size
          offsets values write).map (fun x => x.ret) = some (-EFAULT)) ∧
      (r.ret = 0 → write = 0 → env.copy_to_user_vals ≠ 0 →
        (vhost_rdwr_module_regs ids C comm fuel s msg0 env st moduleid num_offsets block_size
          offsets values write).map (fun x => x.ret) = some (-EFAULT)) ∧
      (r.ret = 0 → (write = 0 → env.copy_to_user_vals = 0) →
        (vhost_rdwr_module_regs ids C comm fuel s msg0 env st moduleid num_offsets block_size
          offsets values write).map (fun x => x.ret) = some 0)) := by
  refine ⟨?_, ?_, ?_, ?_⟩
  · intro h
    rcases h with h | h
    · simp [vhost_rdwr_module_regs, h]
    · by_cases hv : env.kmalloc_vals = false
      · simp [vhost_rdwr_module_regs, hv]
      · simp [vhost_rdwr_module_regs, hv, h]
  · intro h1 h2 h3
    simp [vhost_rdwr_module_regs, h1, h2, h3]
  · intro h1 h2 h3 h4 h5
    simp [vhost_rdwr_module_regs, h1, h2, h3, h4, h5]
  · intro ctx r h1 h2 h3 h4 h5 h6 h7
    have hguard : ¬ (write ≠ 0 ∧ env.copy_from_user_vals ≠ 0) := by
      intro ⟨ha, hb⟩; exact hb (h4 ha)
    have hv : ¬ env.kmalloc_vals = false := by simp [h1]
    have ho : ¬ env.kmalloc_offs = false := by simp [h2]
    have hc3 : ¬ env.copy_from_user_offs ≠ 0 := by simp [h3]
    have hrun : vhost_rdwr_module_regs ids C comm fuel s msg0 env st moduleid num_offsets
        block_size offsets values write
        = (if r.ret ≠ 0 then
            some { ret := -EFAULT, values := values, server := r.server, sent := r.sent }
          else if write = 0 then
            some { ret := if env.copy_to_user_vals ≠ 0 then -EFAULT else 0,
                   values := copy_user values r.vals (u32 (num_offsets * block_size))
                     env.copy_to_user_vals,
                   server := r.server, sent := r.sent }
          else some { ret := 0, values := values, server := r.server, sent := r.sent }) := by
      unfold vhost_rdwr_module_regs
      dsimp only
      rw [if_neg hv, if_neg ho, if_neg hc3, if_neg hguard, if_neg h5, h6]
      dsimp only
      rw [h7]
    rw [hrun]
    refine ⟨?_, ?_, ?_⟩
    · intro hr
      rw [if_pos hr]; rfl
    · intro hr hw hc
      rw [if_neg (by simp [hr]), if_pos hw, if_pos hc]; rfl
    · intro hr hc
      rw [if_neg (by simp [hr])]
      by_cases hw : write = 0
      · rw [if_pos hw, if_neg (by simp [hc hw])]; rfl
      · rw [if_neg hw]; rfl

/-! ## `nvhost_virt_init` and `nvhost_virt_deinit` -/

theorem heap_store_same (heap : Nat → Option nvhost_virt_ctx) (p : Nat)
    (v : Option nvhost_virt_ctx) : heap_store heap p v p = v := by
  simp [heap_store]

theorem connect_events_plain {σ : Type} (c : connect_result σ) :
    comm_init_calls (connect_events c) = 0 ∧ comm_deinit_calls (connect_events c) = 0 := by
  have hk : ∀ e, e ∈ connect_events c →
      e = VirtEvent.exchange ∨ ∃ h, e = VirtEvent.tegra_gr_comm_release h := by
    intro e he
    simp only [connect_events, List.mem_append, List.mem_map, release_events,
      List.mem_filterMap] at he
    rcases he with ⟨_, _, h⟩ | ⟨a, _, h⟩
    · exact Or.inl h.symm
    · cases a with
      | warn_on_short_reply => simp at h
      | tegra_gr_comm_release x =>
        simp only [Option.some.injEq] at h
        exact Or.inr ⟨x, h.symm⟩
  constructor
  · rw [comm_init_calls, List.count_eq_zero]
    intro hmem
    rcases hk _ hmem with h | ⟨x, h⟩ <;> exact VirtEvent.noConfusion h
  · rw [comm_deinit_calls, List.count_eq_zero]
    intro hmem
    rcases hk _ hmem with h | ⟨x, h⟩ <;> exact VirtEvent.noConfusion h

/-- Function `nvhost_virt_init` when `kzalloc` fails. -/
theorem virt_init_no_memory {σ : Type} (ids : module_ids) (comm : Transport σ)
    (env : init_env) (s : σ) (msg0 : tegra_vhost_cmd_msg) (st : virt_state) (moduleid : Int)
    (hk : env.kzalloc = 0) :
    (nvhost_virt_init ids comm env s msg0 st moduleid).ret = -ENOMEM ∧
    (nvhost_virt_init ids comm env s msg0 st moduleid).state = st ∧
    (nvhost_virt_init ids comm env s msg0 st moduleid).events = [] ∧
    (nvhost_virt_init ids comm env s msg0 st moduleid).sent = [] := by
  simp [nvhost_virt_init, hk]

/-- Function `nvhost_virt_init` when `vhost_comm_init` fails. -/
theorem virt_init_comm_failure {σ : Type} (ids : module_ids) (comm : Transport σ)
    (env : init_env) (s : σ) (msg0 : tegra_vhost_cmd_msg) (st : virt_state) (moduleid : Int)
    (hk : env.kzalloc ≠ 0) (hm : moduleid = ids.NVHOST_MODULE_NONE)
    (he : env.comm_init_err ≠ 0) :
    (nvhost_virt_init ids comm env s msg0 st moduleid).ret = env.comm_init_err ∧
    (nvhost_virt_init ids comm env s msg0 st moduleid).state.virt_ctx = st.virt_ctx ∧
    (nvhost_virt_init ids comm env s msg0 st moduleid).state.heap env.kzalloc = none ∧
    (nvhost_virt_init ids comm env s msg0 st moduleid).events
      = [VirtEvent.vhost_comm_init, VirtEvent.kfree env.kzalloc] ∧
    (nvhost_virt_init ids comm env s msg0 st moduleid).sent = [] := by
  simp [nvhost_virt_init, hk, hm, he, heap_store]

/-- Function `nvhost_virt_init` when the connect returns handle 0. -/
theorem virt_init_connect_failure {σ : Type} (ids : module_ids) (comm : Transport σ)
    (env : init_env) (s : σ) (msg0 : tegra_vhost_cmd_msg) (st : virt_state) (moduleid : Int)
    (hk : env.kzalloc ≠ 0)
    (hc : ¬ (moduleid = ids.NVHOST_MODULE_NONE ∧ env.comm_init_err ≠ 0))
    (hh : (vhost_virt_connect ids comm s msg0 moduleid).handle = 0) :
    (nvhost_virt_init ids comm env s msg0 st moduleid).ret = -ENOMEM ∧
    (nvhost_virt_init ids comm env s msg0 st moduleid).state.virt_ctx = st.virt_ctx ∧
    (nvhost_virt_init ids comm env s msg0 st moduleid).state.heap env.kzalloc = none ∧
    (nvhost_virt_init ids comm env s msg0 st moduleid).events
      = (if moduleid = ids.NVHOST_MODULE_NONE then [VirtEvent.vhost_comm_init] else []) ++
        connect_events (vhost_virt_connect ids comm s msg0 moduleid) ++
        (if moduleid = ids.NVHOST_MODULE_NONE then [VirtEvent.vhost_comm_deinit] else []) ++
        [VirtEvent.kfree env.kzalloc] := by
  unfold nvhost_virt_init
  dsimp only
  rw [if_neg hk, if_neg hc, if_pos hh]
  exact ⟨rfl, rfl, heap_store_same _ _ _, rfl⟩

/-- Function `nvhost_virt_init` when the connect returns a nonzero handle. -/
theorem virt_init_success {σ : Type} (ids : module_ids) (comm : Transport σ)
    (env : init_env) (s : σ) (msg0 : tegra_vhost_cmd_msg) (st : virt_state) (moduleid : Int)
    (hk : env.kzalloc ≠ 0)
    (hc : ¬ (moduleid = ids.NVHOST_MODULE_NONE ∧ env.comm_init_err ≠ 0))
    (hh : (vhost_virt_connect ids comm s msg0 moduleid).handle ≠ 0) :
    (nvhost_virt_init ids comm env s msg0 st moduleid).ret = 0 ∧
    (nvhost_virt_init ids comm env s msg0 st moduleid).state.virt_ctx = env.kzalloc ∧
    (nvhost_virt_init ids comm env s msg0 st moduleid).state.heap env.kzalloc
      = some { handle := (vhost_virt_connect ids comm s msg0 moduleid).handle } ∧
    (nvhost_virt_init ids comm env s msg0 st moduleid).events
      = (if moduleid = ids.NVHOST_MODULE_NONE then [VirtEvent.vhost_comm_init] else []) ++
        connect_events (vhost_virt_connect ids comm s msg0 moduleid) ++
        [VirtEvent.nvhost_set_virt_data env.kzalloc] := by
  unfold nvhost_virt_init
  dsimp only
  rw [if_neg hk, if_neg hc, if_neg hh]
  exact ⟨rfl, rfl, heap_store_same _ _ _, rfl⟩

theorem enomem_ne_zero : -ENOMEM ≠ 0 := by decide

/-- The outcome of `nvhost_virt_init` in all of its four paths. -/
theorem virt_init_spec {σ : Type} (ids : module_ids) (comm : Transport σ) (env : init_env)
    (s : σ) (msg0 : tegra_vhost_cmd_msg) (st : virt_state) (moduleid : Int) :
    ((nvhost_virt_init ids comm env s msg0 st moduleid).ret ≠ 0 ↔
      (env.kzalloc = 0 ∨ (moduleid = ids.NVHOST_MODULE_NONE ∧ env.comm_init_err ≠ 0) ∨
        (vhost_virt_connect ids comm s msg0 moduleid).handle = 0)) ∧
    (env.kzalloc = 0 →
      (nvhost_virt_init ids comm env s msg0 st moduleid).events = [] ∧
      (nvhost_virt_init ids comm env s msg0 st moduleid).state = st) ∧
    (env.kzalloc ≠ 0 →
      comm_init_calls (nvhost_virt_init ids comm env s msg0 st moduleid).events
        = (if moduleid = ids.NVHOST_MODULE_NONE then 1 else 0) ∧
      (moduleid = ids.NVHOST_MODULE_NONE →
        (nvhost_virt_init ids comm env s msg0 st moduleid).events.head?
          = some VirtEvent.vhost_comm_init)) ∧
    ((nvhost_virt_init ids comm env s msg0 st moduleid).ret ≠ 0 →
      (nvhost_virt_init ids comm env s msg0 st moduleid).state.virt_ctx = st.virt_ctx ∧
      (env.kzalloc ≠ 0 →
        (nvhost_virt_init ids comm env s msg0 st moduleid).state.heap env.kzalloc = none) ∧
      comm_deinit_calls (nvhost_virt_init ids comm env s msg0 st moduleid).events
        = (if env.kzalloc ≠ 0 ∧ moduleid = ids.NVHOST_MODULE_NONE ∧ env.comm_init_err = 0
            then 1 else 0)) ∧
    ((nvhost_virt_init ids comm env s msg0 st moduleid).ret = 0 →
      env.kzalloc ≠ 0 ∧
      (nvhost_virt_init ids comm env s msg0 st moduleid).state.virt_ctx = env.kzalloc ∧
      (nvhost_virt_init ids comm env s msg0 st moduleid).state.heap env.kzalloc
        = some { handle := (vhost_virt_connect ids comm s msg0 moduleid).handle } ∧
      (vhost_virt_connect ids comm s msg0 moduleid).handle ≠ 0 ∧
      comm_deinit_calls (nvhost_virt_init ids comm env s msg0 st moduleid).events = 0) := by
  obtain ⟨ci, cd⟩ := connect_events_plain (vhost_virt_connect ids comm s msg0 moduleid)
  simp only [comm_init_calls, comm_deinit_calls] at ci cd ⊢
  by_cases hk : env.kzalloc = 0
  · obtain ⟨h1, h2, h3, _⟩ := virt_init_no_memory ids comm env s msg0 st moduleid hk
    generalize nvhost_virt_init ids comm env s msg0 st moduleid = R at *
    have hne : R.ret ≠ 0 := by rw [h1]; exact enomem_ne_zero
    refine ⟨⟨fun _ => Or.inl hk, fun _ => hne⟩, fun _ => ⟨h3, h2⟩, fun h => absurd hk h,
      fun _ => ⟨by rw [h2], fun h => absurd hk h, ?_⟩, fun h => absurd h hne⟩
    rw [h3]; simp [hk]
  · by_cases hc : moduleid = ids.NVHOST_MODULE_NONE ∧ env.comm_init_err ≠ 0
    · obtain ⟨h1, h2, h3, h4, _⟩ :=
        virt_init_comm_failure ids comm env s msg0 st moduleid hk hc.1 hc.2
      generalize nvhost_virt_init ids comm env s msg0 st moduleid = R at *
      have hne : R.ret ≠ 0 := by rw [h1]; exact hc.2
      refine ⟨⟨fun _ => Or.inr (Or.inl hc), fun _ => hne⟩, fun h => absurd h hk,
        fun _ => ⟨?_, fun _ => by rw [h4]; rfl⟩,
        fun _ => ⟨h2, fun _ => h3, ?_⟩, fun h => absurd h hne⟩
      · rw [h4]; simp [hc.1]
      · rw [h4]; simp [hc.2]
    · by_cases hh : (vhost_virt_connect ids comm s msg0 moduleid).handle = 0
      · obtain ⟨h1, h2, h3, h4⟩ :=
          virt_init_connect_failure ids comm env s msg0 st moduleid hk hc hh
        generalize nvhost_virt_init ids comm env s msg0 st moduleid = R at *
        have hne : R.ret ≠ 0 := by rw [h1]; exact enomem_ne_zero
        refine ⟨⟨fun _ => Or.inr (Or.inr hh), fun _ => hne⟩, fun h => absurd h hk,
          fun _ => ⟨?_, fun hm => ?_⟩,
          fun _ => ⟨h2, fun _ => h3, ?_⟩, fun h => absurd h hne⟩
        · rw [h4]
          simp only [List.count_append, ci]
          by_cases hm : moduleid = ids.NVHOST_MODULE_NONE <;> simp [hm]
        · rw [h4]; simp [hm]
        · rw [h4]
          simp only [List.count_append, cd]
          by_cases hm : moduleid = ids.NVHOST_MODULE_NONE
          · have he : env.comm_init_err = 0 := by
              by_contra hne2; exact hc ⟨hm, hne2⟩
            simp [hm, he, hk]
          · simp [hm]
      · obtain ⟨h1, h2, h3, h4⟩ :=
          virt_init_success ids comm env s msg0 st moduleid hk hc hh
        generalize nvhost_virt_init ids comm env s msg0 st moduleid = R at *
        refine ⟨⟨fun h => absurd h1 h, fun h => ?_⟩, fun h => absurd h hk,
          fun _ => ⟨?_, fun hm => ?_⟩,
          fun h => absurd h1 h, fun _ => ⟨hk, h2, h3, hh, ?_⟩⟩
        · rcases h with h | h | h
          · exact absurd h hk
          · exact absurd h hc
          · exact absurd h hh
        · rw [h4]
          simp only [List.count_append, ci]
          by_cases hm : moduleid = ids.NVHOST_MODULE_NONE <;> simp [hm]
        · rw [h4]; simp [hm]
        · rw [h4]
          simp only [List.count_append, cd]
          by_cases hm : moduleid = ids.NVHOST_MODULE_NONE <;> simp [hm]

/-- Function `nvhost_virt_deinit` on a device with a stored context: whatever
the module, the transport is torn down and the context is freed; the stored
pointer stays. -/
theorem virt_deinit_with_context (st : virt_state) (h : st.virt_ctx ≠ 0) :
    (nvhost_virt_deinit st).2 = [VirtEvent.vhost_comm_deinit, VirtEvent.kfree st.virt_ctx] ∧
    comm_deinit_calls (nvhost_virt_deinit st).2 = 1 ∧
    (nvhost_virt_deinit st).1.heap st.virt_ctx = none ∧
    (nvhost_virt_deinit st).1.virt_ctx = st.virt_ctx := by
  simp [nvhost_virt_deinit, h, comm_deinit_calls, heap_store]

/-- C16 at its failing input: the VIC module (id 8 in the sample constants, not
the primary module) connects without any `vhost_comm_init`, and the
`nvhost_virt_deinit` of that connection calls `vhost_comm_deinit` and frees the
context at address 100, leaving the stored pointer at 100. -/
theorem virt_deinit_non_primary_tears_down_transport :
    (8 : Int) ≠ sample_ids.NVHOST_MODULE_NONE ∧
    (nvhost_virt_init sample_ids granting_server sample_init_env () sample_msg0
        unconnected_state 8).ret = 0 ∧
    (nvhost_virt_init sample_ids granting_server sample_init_env () sample_msg0
        unconnected_state 8).events
      = [VirtEvent.exchange, VirtEvent.tegra_gr_comm_release 1,
          VirtEvent.nvhost_set_virt_data 100] ∧
    (nvhost_virt_deinit (nvhost_virt_init sample_ids granting_server sample_init_env ()
        sample_msg0 unconnected_state 8).state).2
      = [VirtEvent.vhost_comm_deinit, VirtEvent.kfree 100] ∧
    (nvhost_virt_deinit (nvhost_virt_init sample_ids granting_server sample_init_env ()
        sample_msg0 unconnected_state 8).state).1.virt_ctx = 100 ∧
    (nvhost_virt_deinit (nvhost_virt_init sample_ids granting_server sample_init_env ()
        sample_msg0 unconnected_state 8).state).1.heap 100 = none := by
  refine ⟨by decide, by decide, by decide, by decide, by decide, by decide⟩

/-! ## A register transfer after a failed connect -/

/-- The first message of the read loop carries the handle and the command of
the message the loop was entered with. -/
theorem read_loop_first_message {σ : Type} (C : Nat) (comm : Transport σ) (r : Nat)
    (offs : Nat → Nat) (fuel remaining oi n vi : Nat) (vals : Nat → Nat)
    (msg : tegra_vhost_cmd_msg) (s : σ) (res : regrdwr_result σ) (hrem : 0 < remaining)
    (hrun : regrdwr_read_loop C comm r offs fuel remaining oi n vi vals msg s = some res) :
    ∃ m rest, res.sent = m :: rest ∧ m.handle = msg.handle ∧ m.cmd = msg.cmd := by
  have h0 : remaining ≠ 0 := by omega
  cases fuel with
  | zero => simp [regrdwr_read_loop, h0] at hrun
  | succ fuel =>
    simp only [regrdwr_read_loop, h0, if_false] at hrun
    split at hrun
    · simp only [Option.some.injEq] at hrun
      subst hrun
      exact ⟨_, [], rfl, rfl, rfl⟩
    · simp only [Option.map_eq_some'] at hrun
      obtain ⟨rest, _, hrest⟩ := hrun
      subst hrest
      exact ⟨_, rest.sent, rfl, rfl, rfl⟩

/-- The first message of the write loop carries the handle and the command of
the message the loop was entered with. -/
theorem write_loop_first_message {σ : Type} (C : Nat) (comm : Transport σ) (r : Nat)
    (offs vals : Nat → Nat) (fuel remaining oi vi n : Nat)
    (msg : tegra_vhost_cmd_msg) (s : σ) (res : regrdwr_result σ) (hrem : 0 < remaining)
    (hrun : regrdwr_write_loop C comm r offs vals fuel remaining oi vi n msg s = some res) :
    ∃ m rest, res.sent = m :: rest ∧ m.handle = msg.handle ∧ m.cmd = msg.cmd := by
  have h0 : remaining ≠ 0 := by omega
  cases fuel with
  | zero => simp [regrdwr_write_loop, h0] at hrun
  | succ fuel =>
    simp only [regrdwr_write_loop, h0, if_false] at hrun
    split at hrun
    · simp only [Option.some.injEq] at hrun
      subst hrun
      exact ⟨_, [], rfl, rfl, rfl⟩
    · simp only [Option.map_eq_some'] at hrun
      obtain ⟨rest, _, hrest⟩ := hrun
      subst hrest
      exact ⟨_, rest.sent, rfl, rfl, rfl⟩

/-- Whenever `vhost_host1x_regrdwr` returns with a nonzero operation count, it
has sent a first message, and that message carries the handle it was given. -/
theorem regrdwr_first_message {σ : Type} (C : Nat) (comm : Transport σ) (fuel : Nat) (s : σ)
    (msg0 : tegra_vhost_cmd_msg) (handle moduleid num_offsets block_size : Nat)
    (offs vals : Nat → Nat) (write : Nat) (res : regrdwr_result σ)
    (hT : 0 < u32 (num_offsets * (block_size / 4)))
    (hrun : vhost_host1x_regrdwr C comm fuel s msg0 handle moduleid num_offsets block_size
      offs vals write = some res) :
    ∃ m rest, res.sent = m :: rest ∧ m.handle = handle ∧
      m.cmd = tegra_vhost_cmd.TEGRA_VHOST_CMD_HOST1X_REGRDWR := by
  simp only [vhost_host1x_regrdwr, shiftRight_two] at hrun
  split at hrun
  · exact write_loop_first_message C comm _ offs vals fuel _ 0 0 0 _ s res hT hrun
  · exact read_loop_first_message C comm _ offs fuel _ 0 0 0 vals _ s res hT hrun

theorem refusing_server_succeeds : always_succeeds refusing_server :=
  fun _ _ => ⟨rfl, rfl⟩

/-- C14, as stated, fails in its second half.  The remote answers the connect
of the VIC module with handle 0; `nvhost_virt_init` returns `-ENOMEM` (-12) and
stores no context.  A following `vhost_host1x_regrdwr` with handle 0 for one
register does perform a transport exchange, with handle 0 in the message, and
returns 0; and `vhost_rdwr_module_regs` on that device reads the handle through
the `NULL` context pointer instead of returning an error. -/
theorem transfer_after_failed_connect_counterexample :
    (vhost_virt_connect sample_ids refusing_server () sample_msg0 8).handle = 0 ∧
    (nvhost_virt_init sample_ids refusing_server sample_init_env () sample_msg0
        unconnected_state 8).ret = -12 ∧
    (nvhost_virt_init sample_ids refusing_server sample_init_env () sample_msg0
        unconnected_state 8).state.virt_ctx = 0 ∧
    (vhost_host1x_regrdwr 4 refusing_server 10 () sample_msg0 0 1 1 4 sample_offs
        (fun _ => 0) 0).map (fun r => (r.ret, r.sent.length, r.sent.map (fun m => m.handle)))
      = some (0, 1, [0]) ∧
    (vhost_rdwr_module_regs sample_ids 4 refusing_server 10 () sample_msg0 sample_staging
        (nvhost_virt_init sample_ids refusing_server sample_init_env () sample_msg0
          unconnected_state 8).state 8 1 4 sample_offs (fun _ => 0) 0).isNone = true := by
  refine ⟨by decide, by decide, by decide, by decide, by decide⟩

/-- C14, amended: after a connect in which the remote returns handle 0,
`nvhost_virt_init` returns a nonzero error and stores no connection context
(the stored pointer is unchanged and the new context is freed).
`vhost_host1x_regrdwr` does not look at the handle: called with handle 0 and
every exchange succeeding it returns 0 after the usual round trips, and
whenever the operation count is nonzero its first message carries handle 0. -/
theorem transfer_after_failed_connect {σ : Type} (ids : module_ids) (comm : Transport σ)
    (env : init_env) (s : σ) (msg0 : tegra_vhost_cmd_msg) (st : virt_state) (moduleid : Int)
    (C fuel : Nat) (s1 : σ) (msg1 : tegra_vhost_cmd_msg)
    (target num_offsets block_size : Nat) (offs vals : Nat → Nat) (write : Nat)
    (hrefused : (vhost_virt_connect ids comm s msg0 moduleid).handle = 0)
    (hC : 2 ≤ C) (hbs : block_size < 2 ^ 32) (hok : always_succeeds comm)
    (hfuel : u32 (num_offsets * (block_size / 4)) ≤ fuel) :
    (nvhost_virt_init ids comm env s msg0 st moduleid).ret ≠ 0 ∧
    (nvhost_virt_init ids comm env s msg0 st moduleid).state.virt_ctx = st.virt_ctx ∧
    (env.kzalloc ≠ 0 →
      (nvhost_virt_init ids comm env s msg0 st moduleid).state.heap env.kzalloc = none) ∧
    ∃ res, vhost_host1x_regrdwr C comm fuel s1 msg1 0 target num_offsets block_size
        offs vals write = some res ∧
      res.ret = 0 ∧
      sent_counts res.sent
        = chunk_counts (u32 (num_offsets * (block_size / 4))) (round_capacity C write) ∧
      (0 < u32 (num_offsets * (block_size / 4)) →
        ∃ m rest, res.sent = m :: rest ∧ m.handle = 0 ∧
          m.cmd = tegra_vhost_cmd.TEGRA_VHOST_CMD_HOST1X_REGRDWR) := by
  obtain ⟨hA, _, _, hD, _⟩ := virt_init_spec ids comm env s msg0 st moduleid
  have hne : (nvhost_virt_init ids comm env s msg0 st moduleid).ret ≠ 0 :=
    hA.mpr (Or.inr (Or.inr hrefused))
  obtain ⟨hD1, hD2, _⟩ := hD hne
  refine ⟨hne, hD1, hD2, ?_⟩
  by_cases hw : write = 0
  · subst hw
    obtain ⟨res, h1, h2, h3, _⟩ := regrdwr_read_core C comm fuel s1 msg1 0 target
      num_offsets block_size offs vals (by omega) hbs hok hfuel
    refine ⟨res, h1, h2, ?_, fun hT => ?_⟩
    · rw [h3]; rfl
    · exact regrdwr_first_message C comm fuel s1 msg1 0 target num_offsets block_size
        offs vals 0 res hT h1
  · obtain ⟨res, h1, h2, _, h3, _⟩ := regrdwr_write_core C comm fuel s1 msg1 0 target
      num_offsets block_size offs vals write hw hC hbs hok hfuel
    refine ⟨res, h1, h2, ?_, fun hT => ?_⟩
    · rw [h3]
      simp only [round_capacity, ne_eq, hw, not_false_eq_true, if_true]
    · exact regrdwr_first_message C comm fuel s1 msg1 0 target num_offsets block_size
        offs vals write res hT h1

/-- C14 amended, at the sample: the refusing server answers the connect of the
VIC module with handle 0, then one register is read with handle 0. -/
theorem transfer_after_failed_connect_witness :
    ((vhost_virt_connect sample_ids refusing_server () sample_msg0 8).handle = 0 ∧
      2 ≤ 4 ∧ 4 < 2 ^ 32 ∧ always_succeeds refusing_server ∧ u32 (1 * (4 / 4)) ≤ 10) ∧
    (nvhost_virt_init sample_ids refusing_server sample_init_env () sample_msg0
        unconnected_state 8).ret ≠ 0 ∧
    (nvhost_virt_init sample_ids refusing_server sample_init_env () sample_msg0
        unconnected_state 8).state.virt_ctx = unconnected_state.virt_ctx ∧
    (sample_init_env.kzalloc ≠ 0 →
      (nvhost_virt_init sample_ids refusing_server sample_init_env () sample_msg0
        unconnected_state 8).state.heap sample_init_env.kzalloc = none) ∧
    ∃ res, vhost_host1x_regrdwr 4 refusing_server 10 () sample_msg0 0 1 1 4 sample_offs
        (fun _ => 0) 0 = some res ∧
      res.ret = 0 ∧
      sent_counts res.sent = chunk_counts (u32 (1 * (4 / 4))) (round_capacity 4 0) ∧
      (0 < u32 (1 * (4 / 4)) →
        ∃ m rest, res.sent = m :: rest ∧ m.handle = 0 ∧
          m.cmd = tegra_vhost_cmd.TEGRA_VHOST_CMD_HOST1X_REGRDWR) :=
  ⟨⟨by decide, by decide, by decide, refusing_server_succeeds, by decide⟩,
    transfer_after_failed_connect sample_ids refusing_server sample_init_env () sample_msg0
      unconnected_state 8 4 10 () sample_msg0 1 1 4 sample_offs (fun _ => 0) 0
      (by decide) (by decide) (by decide) refusing_server_succeeds (by decide)⟩

/-! ## The chunked register protocol: abort on the first failed exchange -/

/-- The read loop with enough fuel returns; the outcomes of its exchanges are
all successes followed, if the call fails, by one failure that ends the loop;
the words copied into `vals` from `vi` on are those of the successful rounds,
and the rest of `vals` is untouched. -/
theorem read_loop_abort {σ : Type} (C : Nat) (comm : Transport σ) (r : Nat)
    (offs : Nat → Nat) (hC : 0 < C) :
    ∀ fuel remaining oi n vi vals msg s, remaining ≤ fuel →
      ∃ res, regrdwr_read_loop C comm r offs fuel remaining oi n vi vals msg s = some res ∧
        res.received = (replay comm s res.sent).map (fun o => o.msg) ∧
        ((res.ret = 0 ∧ ∀ o, o ∈ replay comm s res.sent → ¬ exchange_failed o) ∨
         (res.ret = -1 ∧ ∃ pre last, replay comm s res.sent = pre ++ [last] ∧
            exchange_failed last ∧ ∀ o, o ∈ pre → ¬ exchange_failed o)) ∧
        (List.range (copied_words (replay comm s res.sent)).length).map
            (fun i => res.vals (vi + i))
          = copied_words (replay comm s res.sent) ∧
        (∀ j, j < vi ∨ vi + (copied_words (replay comm s res.sent)).length ≤ j →
          res.vals j = vals j) := by
  intro fuel
  induction fuel with
  | zero =>
    intro remaining oi n vi vals msg s hrem
    have h0 : remaining = 0 := by omega
    subst h0
    refine ⟨{ ret := 0, vals := vals, server := s, sent := [], received := [], events := [] },
      by simp only [regrdwr_read_loop, if_true], rfl, Or.inl ⟨rfl, ?_⟩, rfl, fun _ _ => rfl⟩
    intro o ho; simp [replay] at ho
  | succ fuel ih =>
    intro remaining oi n vi vals msg s hrem
    by_cases h0 : remaining = 0
    · subst h0
      refine ⟨{ ret := 0, vals := vals, server := s, sent := [], received := [], events := [] },
        by simp only [regrdwr_read_loop, if_true], rfl, Or.inl ⟨rfl, ?_⟩, rfl, fun _ _ => rfl⟩
      intro o ho; simp [replay] at ho
    · have hpos : 0 < remaining := Nat.pos_of_ne_zero h0
      have hcnt1 : 1 ≤ min remaining C := by
        rw [Nat.le_min]; exact ⟨hpos, hC⟩
      obtain ⟨request, hreq⟩ : ∃ request, read_request C r offs remaining oi n msg = request :=
        ⟨_, rfl⟩
      simp only [read_request] at hreq
      by_cases hf : exchange_failed (vhost_sendrecv comm s request)
      · refine ⟨
          { ret := -1, vals := vals, server := (vhost_sendrecv comm s request).server,
            sent := [request], received := [(vhost_sendrecv comm s request).msg],
            events := (vhost_sendrecv comm s request).events }, ?_, rfl,
          Or.inr ⟨rfl, [], vhost_sendrecv comm s request, rfl, hf, ?_⟩, ?_, ?_⟩
        · simp only [regrdwr_read_loop, h0, if_false, hreq]
          exact if_pos hf
        · intro o ho; simp at ho
        · simp [replay, copied_words, hf]
        · intro j _; rfl
      · obtain ⟨rest, hrest, g1, g2, g3, g4⟩ := ih (remaining - min remaining C)
          (fill_read r offs (min remaining C) 0 oi n msg.regs).1.1
          (fill_read r offs (min remaining C) 0 oi n msg.regs).1.2
          (vi + (vhost_sendrecv comm s request).msg.count)
          (memcpy_words vals vi (vhost_sendrecv comm s request).msg.regs
            (vhost_sendrecv comm s request).msg.count)
          (vhost_sendrecv comm s request).msg (vhost_sendrecv comm s request).server
          (by omega)
        have hwords : copied_words (replay comm s (request :: rest.sent))
            = (List.range (vhost_sendrecv comm s request).msg.count).map
                (vhost_sendrecv comm s request).msg.regs ++
              copied_words (replay comm (vhost_sendrecv comm s request).server rest.sent) := by
          simp only [replay, copied_words, hf, if_false]
        refine ⟨after_round request (vhost_sendrecv comm s request) rest, ?_, ?_, ?_, ?_, ?_⟩
        · simp only [regrdwr_read_loop, h0, if_false, hreq]
          exact (if_neg hf).trans (by rw [hrest]; rfl)
        · simp only [after_round, replay, List.map_cons, g1]
        · rcases g2 with ⟨ha, hb⟩ | ⟨ha, pre, last, hb, hc, hd⟩
          · refine Or.inl ⟨ha, ?_⟩
            intro o ho
            simp only [after_round, replay, List.mem_cons] at ho
            rcases ho with h | h
            · rw [h]; exact hf
            · exact hb o h
          · refine Or.inr ⟨ha, vhost_sendrecv comm s request :: pre, last, ?_, hc, ?_⟩
            · simp only [after_round, replay, hb, List.cons_append]
            · intro o ho
              simp only [List.mem_cons] at ho
              rcases ho with h | h
              · rw [h]; exact hf
              · exact hd o h
        · simp only [after_round]
          rw [hwords, List.length_append, List.length_map, List.length_range, List.range_add,
            List.map_append, List.map_map]
          congr 1
          · apply List.map_congr_left
            intro i hi
            have hi2 := List.mem_range.mp hi
            rw [g4 (vi + i) (Or.inl (by omega))]
            simp only [memcpy_words]
            rw [if_pos ⟨by omega, by omega⟩]
            congr 1
            omega
          · refine Eq.trans ?_ g3
            apply List.map_congr_left
            intro i _
            simp only [Function.comp, Nat.add_assoc]
        · intro j hj
          simp only [after_round] at hj ⊢
          rw [hwords, List.length_append, List.length_map, List.length_range] at hj
          rw [g4 j (by omega)]
          simp only [memcpy_words]
          rw [if_neg (by omega)]

/-- The write loop with enough fuel returns; the outcomes of its exchanges are
all successes followed, if the call fails, by one failure that ends the loop;
`vals` is left alone. -/
theorem write_loop_abort {σ : Type} (C : Nat) (comm : Transport σ) (r : Nat)
    (offs vals : Nat → Nat) (hC : 0 < C >>> 1) :
    ∀ fuel remaining oi vi n msg s, remaining ≤ fuel →
      ∃ res, regrdwr_write_loop C comm r offs vals fuel remaining oi vi n msg s = some res ∧
        res.received = (replay comm s res.sent).map (fun o => o.msg) ∧
        ((res.ret = 0 ∧ ∀ o, o ∈ replay comm s res.sent → ¬ exchange_failed o) ∨
         (res.ret = -1 ∧ ∃ pre last, replay comm s res.sent = pre ++ [last] ∧
            exchange_failed last ∧ ∀ o, o ∈ pre → ¬ exchange_failed o)) ∧
        res.vals = vals := by
  intro fuel
  induction fuel with
  | zero =>
    intro remaining oi vi n msg s hrem
    have h0 : remaining = 0 := by omega
    subst h0
    refine ⟨{ ret := 0, vals := vals, server := s, sent := [], received := [], events := [] },
      by simp only [regrdwr_write_loop, if_true], rfl, Or.inl ⟨rfl, ?_⟩, rfl⟩
    intro o ho; simp [replay] at ho
  | succ fuel ih =>
    intro remaining oi vi n msg s hrem
    by_cases h0 : remaining = 0
    · subst h0
      refine ⟨{ ret := 0, vals := vals, server := s, sent := [], received := [], events := [] },
        by simp only [regrdwr_write_loop, if_true], rfl, Or.inl ⟨rfl, ?_⟩, rfl⟩
      intro o ho; simp [replay] at ho
    · have hpos : 0 < remaining := Nat.pos_of_ne_zero h0
      have hcnt1 : 1 ≤ min remaining (C >>> 1) := by
        rw [Nat.le_min]; exact ⟨hpos, hC⟩
      obtain ⟨request, hreq⟩ :
          ∃ request, write_request C r offs vals remaining oi vi n msg = request := ⟨_, rfl⟩
      simp only [write_request] at hreq
      by_cases hf : exchange_failed (vhost_sendrecv comm s request)
      · refine ⟨
          { ret := -1, vals := vals, server := (vhost_sendrecv comm s request).server,
            sent := [request], received := [(vhost_sendrecv comm s request).msg],
            events := (vhost_sendrecv comm s request).events }, ?_, rfl,
          Or.inr ⟨rfl, [], vhost_sendrecv comm s request, rfl, hf, ?_⟩, rfl⟩
        · simp only [regrdwr_write_loop, h0, if_false, hreq]
          exact if_pos hf
        · intro o ho; simp at ho
      · obtain ⟨rest, hrest, g1, g2, g3⟩ := ih (remaining - min remaining (C >>> 1))
          (fill_write r offs vals (min remaining (C >>> 1)) 0 oi vi n msg.regs).1.1
          (fill_write r offs vals (min remaining (C >>> 1)) 0 oi vi n msg.regs).1.2.1
          (fill_write r offs vals (min remaining (C >>> 1)) 0 oi vi n msg.regs).1.2.2
          (vhost_sendrecv comm s request).msg (vhost_sendrecv comm s request).server
          (by omega)
        refine ⟨after_round request (vhost_sendrecv comm s request) rest, ?_, ?_, ?_, g3⟩
        · simp only [regrdwr_write_loop, h0, if_false, hreq]
          exact (if_neg hf).trans (by rw [hrest]; rfl)
        · simp only [after_round, replay, List.map_cons, g1]
        · rcases g2 with ⟨ha, hb⟩ | ⟨ha, pre, last, hb, hc, hd⟩
          · refine Or.inl ⟨ha, ?_⟩
            intro o ho
            simp only [after_round, replay, List.mem_cons] at ho
            rcases ho with h | h
            · rw [h]; exact hf
            · exact hb o h
          · refine Or.inr ⟨ha, vhost_sendrecv comm s request :: pre, last, ?_, hc, ?_⟩
            · simp only [after_round, replay, hb, List.cons_append]
            · intro o ho
              simp only [List.mem_cons] at ho
              rcases ho with h | h
              · rw [h]; exact hf
              · exact hd o h

theorem replay_length {σ : Type} (comm : Transport σ) :
    ∀ (sent : List tegra_vhost_cmd_msg) (s : σ), (replay comm s sent).length = sent.length := by
  intro sent
  induction sent with
  | nil => intro s; rfl
  | cons m ms ih => intro s; simp only [replay, List.length_cons, ih]

/-- With array size at least 2 and enough fuel `vhost_host1x_regrdwr` returns;
its exchanges are successes followed, if the call fails, by the one failure
that ends it; a read has copied the words of the successful rounds to the front
of `vals`, a write leaves `vals` alone. -/
theorem regrdwr_abort_core {σ : Type} (C : Nat) (comm : Transport σ) (fuel : Nat) (s : σ)
    (msg0 : tegra_vhost_cmd_msg) (handle moduleid num_offsets block_size : Nat)
    (offs vals : Nat → Nat) (write : Nat) (hC : 2 ≤ C)
    (hfuel : u32 (num_offsets * (block_size / 4)) ≤ fuel) :
    ∃ res, vhost_host1x_regrdwr C comm fuel s msg0 handle moduleid num_offsets block_size
        offs vals write = some res ∧
      res.received = (replay comm s res.sent).map (fun o => o.msg) ∧
      ((res.ret = 0 ∧ ∀ o, o ∈ replay comm s res.sent → ¬ exchange_failed o) ∨
       (res.ret = -1 ∧ ∃ pre last, replay comm s res.sent = pre ++ [last] ∧
          exchange_failed last ∧ ∀ o, o ∈ pre → ¬ exchange_failed o)) ∧
      (write = 0 →
        (List.range (copied_words (replay comm s res.sent)).length).map res.vals
          = copied_words (replay comm s res.sent) ∧
        ∀ j, (copied_words (replay comm s res.sent)).length ≤ j → res.vals j = vals j) ∧
      (write ≠ 0 → res.vals = vals) := by
  have hcap : 0 < C >>> 1 := by
    rw [Nat.shiftRight_eq_div_pow]; omega
  by_cases hw : write = 0
  · obtain ⟨res, h1, h2, h3, h4, h5⟩ := read_loop_abort C comm (block_size / 4) offs
      (by omega) fuel (u32 (num_offsets * (block_size / 4))) 0 0 0 vals
      { msg0 with cmd := tegra_vhost_cmd.TEGRA_VHOST_CMD_HOST1X_REGRDWR,
                  handle := handle, moduleid := moduleid, write := write }
      s hfuel
    refine ⟨res, ?_, h2, h3, fun _ => ⟨?_, fun j hj => h5 j (Or.inr (by omega))⟩,
      fun h => absurd hw h⟩
    · simp only [vhost_host1x_regrdwr, shiftRight_two, hw, ne_eq, not_true_eq_false, if_false]
      rw [hw] at h1
      exact h1
    · simpa using h4
  · obtain ⟨res, h1, h2, h3, h4⟩ := write_loop_abort C comm (block_size / 4) offs vals hcap
      fuel (u32 (num_offsets * (block_size / 4))) 0 0 0
      { msg0 with cmd := tegra_vhost_cmd.TEGRA_VHOST_CMD_HOST1X_REGRDWR,
                  handle := handle, moduleid := moduleid, write := write }
      s hfuel
    refine ⟨res, ?_, h2, h3, fun h => absurd h hw, fun _ => h4⟩
    simp only [vhost_host1x_regrdwr, shiftRight_two, ne_eq, hw, not_false_eq_true, if_true]
    exact h1

/-- C11: when round trip `j + 1` is the first whose exchange returns a
transport error or a nonzero status, `vhost_host1x_regrdwr` returns -1 and has
issued exactly `j + 1` round trips, none after the failed one; it returns 0
exactly when no exchange failed.  For reads the output array then holds, from
index 0 on, the words copied from the replies of the round trips before the
failed one, and every later position is unchanged; a write never changes
`vals`. -/
theorem regrdwr_aborts_on_first_failure {σ : Type} (C : Nat) (comm : Transport σ)
    (fuel : Nat) (s : σ) (msg0 : tegra_vhost_cmd_msg)
    (handle moduleid num_offsets block_size : Nat) (offs vals : Nat → Nat) (write : Nat)
    (hC : 2 ≤ C) (hfuel : u32 (num_offsets * (block_size / 4)) ≤ fuel) :
    ∃ res, vhost_host1x_regrdwr C comm fuel s msg0 handle moduleid num_offsets block_size
        offs vals write = some res ∧
      res.received = (replay comm s res.sent).map (fun o => o.msg) ∧
      (res.ret = 0 ∨ res.ret = -1) ∧
      (res.ret = 0 ↔ ∀ o, o ∈ replay comm s res.sent → ¬ exchange_failed o) ∧
      (∀ j o, (replay comm s res.sent)[j]? = some o → exchange_failed o →
        res.ret = -1 ∧ res.sent.length = j + 1 ∧
        ∀ i p, i < j → (replay comm s res.sent)[i]? = some p → ¬ exchange_failed p) ∧
      (write = 0 →
        (List.range (copied_words (replay comm s res.sent)).length).map res.vals
          = copied_words (replay comm s res.sent) ∧
        ∀ k, (copied_words (replay comm s res.sent)).length ≤ k → res.vals k = vals k) ∧
      (write ≠ 0 → res.vals = vals) := by
  obtain ⟨res, h1, h2, h3, h4, h5⟩ := regrdwr_abort_core C comm fuel s msg0 handle moduleid
    num_offsets block_size offs vals write hC hfuel
  have hlen := replay_length comm res.sent s
  refine ⟨res, h1, h2, ?_, ?_, ?_, h4, h5⟩
  · rcases h3 with ⟨ha, _⟩ | ⟨ha, _⟩
    · exact Or.inl ha
    · exact Or.inr ha
  · rcases h3 with ⟨ha, hb⟩ | ⟨ha, pre, last, hb, hc, _⟩
    · exact ⟨fun _ => hb, fun _ => ha⟩
    · constructor
      · intro h0; rw [ha] at h0; exact absurd h0 (by decide)
      · intro hall
        exact absurd hc (hall last (by rw [hb]; simp))
  · intro j o hj hfail
    rcases h3 with ⟨_, hb⟩ | ⟨ha, pre, last, hb, _, hd⟩
    · exact absurd hfail (hb o (List.getElem?_mem hj))
    · rw [hb] at hj hlen
      have hjlt : j < (pre ++ [last]).length := (List.getElem?_eq_some.mp hj).1
      simp only [List.length_append, List.length_singleton] at hjlt hlen
      by_cases hjp : j < pre.length
      · rw [List.getElem?_append_left hjp] at hj
        exact absurd hfail (hd o (List.getElem?_mem hj))
      · have hjeq : j = pre.length := by omega
        refine ⟨ha, by omega, ?_⟩
        intro i p hi hp
        rw [hb, List.getElem?_append_left (by omega)] at hp
        exact hd p (List.getElem?_mem hp)

/-- C11 at a sample: 5 units of 8 bytes read with capacity 4 from the flaky
server, whose second reply carries status -22: the call returns -1 after two
round trips, the four words of the first reply are in `vals[0..3]` and the rest
of `vals` keeps its old content 7. -/
theorem regrdwr_aborts_on_first_failure_witness :
    ((2 ≤ 4 ∧ u32 (5 * (8 / 4)) ≤ 10) ∧
     (vhost_host1x_regrdwr 4 flaky_server 10 0 sample_msg0 1 2 5 8 sample_offs
        (fun _ => 7) 0).map
        (fun r => (r.ret, r.sent.length, (List.range 6).map r.vals))
      = some (-1, 2, [1256, 1260, 1512, 1516, 7, 7])) ∧
    ∃ res, vhost_host1x_regrdwr 4 flaky_server 10 0 sample_msg0 1 2 5 8 sample_offs
        (fun _ => 7) 0 = some res ∧
      res.received = (replay flaky_server 0 res.sent).map (fun o => o.msg) ∧
      (res.ret = 0 ∨ res.ret = -1) ∧
      (res.ret = 0 ↔ ∀ o, o ∈ replay flaky_server 0 res.sent → ¬ exchange_failed o) ∧
      (∀ j o, (replay flaky_server 0 res.sent)[j]? = some o → exchange_failed o →
        res.ret = -1 ∧ res.sent.length = j + 1 ∧
        ∀ i p, i < j → (replay flaky_server 0 res.sent)[i]? = some p → ¬ exchange_failed p) ∧
      ((0 : Nat) = 0 →
        (List.range (copied_words (replay flaky_server 0 res.sent)).length).map res.vals
          = copied_words (replay flaky_server 0 res.sent) ∧
        ∀ k, (copied_words (replay flaky_server 0 res.sent)).length ≤ k →
          res.vals k = (fun _ => 7) k) ∧
      ((0 : Nat) ≠ 0 → res.vals = (fun _ => 7)) :=
  ⟨⟨⟨by decide, by decide⟩, by decide⟩,
    regrdwr_aborts_on_first_failure 4 flaky_server 10 0 sample_msg0 1 2 5 8 sample_offs
      (fun _ => 7) 0 (by decide) (by decide)⟩

/-! ## The bookkeeping invariant of the pool -/

/-- A slot whose bit, liveness, device binding and id are as before, and whose
identifier is as before or cleared, stays consistent. -/
theorem slot_consistent_of_fields (host host1 : nvhost_master) (i : Nat)
    (hnb : host1.nb_channels = host.nb_channels) (hbase : host1.ch_base = host.ch_base)
    (hbit : host1.allocated_channels i = host.allocated_channels i)
    (hrc : 0 < (host1.chlist i).refcount ↔ 0 < (host.chlist i).refcount)
    (hdev : (host1.chlist i).dev = (host.chlist i).dev)
    (hid : (host1.chlist i).identifier ≠ 0 → (host.chlist i).identifier ≠ 0)
    (hchid : (host1.chlist i).chid = (host.chlist i).chid)
    (h : slot_consistent host i) : slot_consistent host1 i := by
  obtain ⟨h1, h2, h3, h4, h5⟩ := h
  refine ⟨?_, ?_, ?_, ?_, ?_⟩
  · rw [hbit, hrc]; exact h1
  · rw [hrc, hdev]; exact h2
  · intro hne; exact hrc.mpr (h3 (hid hne))
  · rw [hbit, hnb]; exact h4
  · rw [hnb, hbase, hchid]; exact h5

theorem alloc_channels_loop_chlist (max_syncpts : Nat) :
    ∀ n index host j,
      (alloc_channels_loop max_syncpts n index host).chlist j =
        if index ≤ j ∧ j < index + n then zeroed_channel max_syncpts (host.ch_base + j)
        else host.chlist j := by
  intro n
  induction n with
  | zero =>
    intro index host j
    have : ¬ (index ≤ j ∧ j < index + 0) := by omega
    simp only [alloc_channels_loop, this, if_false]
  | succ n ih =>
    intro index host j
    simp only [alloc_channels_loop]
    rw [ih]
    by_cases hj : j = index
    · subst hj
      have h1 : ¬ (j + 1 ≤ j ∧ j < j + 1 + n) := by omega
      have h2 : j ≤ j ∧ j < j + (n + 1) := by omega
      rw [if_neg h1, if_pos h2, store_channel_same]
      rfl
    · by_cases hin : index + 1 ≤ j ∧ j < index + 1 + n
      · have h2 : index ≤ j ∧ j < index + (n + 1) := by omega
        rw [if_pos hin, if_pos h2]
        rfl
      · have h2 : ¬ (index ≤ j ∧ j < index + (n + 1)) := by omega
        rw [if_neg hin, if_neg h2, store_channel_other _ _ _ _ hj]

theorem pool_consistent_fresh (max_syncpts N : Nat) (ch_base : Int) :
    pool_consistent (fresh_pool max_syncpts N ch_base) := by
  intro i
  obtain ⟨h1, h2, h3⟩ := alloc_channels_loop_frame max_syncpts
    (nvhost_channel_nb_channels (zeroed_master max_syncpts N ch_base)) 0
    (zeroed_master max_syncpts N ch_base)
  have hc := alloc_channels_loop_chlist max_syncpts
    (nvhost_channel_nb_channels (zeroed_master max_syncpts N ch_base)) 0
    (zeroed_master max_syncpts N ch_base) i
  have hbit : (fresh_pool max_syncpts N ch_base).allocated_channels i = false := by
    unfold fresh_pool nvhost_alloc_channels; rw [h3]; rfl
  have hnb : (fresh_pool max_syncpts N ch_base).nb_channels = N := by
    unfold fresh_pool nvhost_alloc_channels; rw [h1]; rfl
  have hbase : (fresh_pool max_syncpts N ch_base).ch_base = ch_base := by
    unfold fresh_pool nvhost_alloc_channels; rw [h2]; rfl
  have hch : (fresh_pool max_syncpts N ch_base).chlist i =
      if 0 ≤ i ∧ i < 0 + N then zeroed_channel max_syncpts (ch_base + i)
      else zeroed_channel max_syncpts 0 := hc
  have hrc : ((fresh_pool max_syncpts N ch_base).chlist i).refcount = 0 := by
    rw [hch]; split <;> rfl
  have hdev : ((fresh_pool max_syncpts N ch_base).chlist i).dev = 0 := by
    rw [hch]; split <;> rfl
  have hid : ((fresh_pool max_syncpts N ch_base).chlist i).identifier = 0 := by
    rw [hch]; split <;> rfl
  refine ⟨?_, ?_, ?_, ?_, ?_⟩
  · rw [hbit, hrc]; simp
  · rw [hrc, hdev]; simp
  · intro hne; exact absurd hid hne
  · rw [hbit]; intro h; exact Bool.noConfusion h
  · intro hi
    rw [hnb] at hi
    rw [hbase, hch, if_pos ⟨Nat.zero_le _, by omega⟩]
    rfl

/-- What a hit of the alias search is: a live carrier of the identifier, with
one more reference afterwards. -/
theorem map_alias_loop_some (host : nvhost_master) (identifier : Nat) :
    ∀ n index host1 found, map_alias_loop host identifier n index = some (host1, found) →
      live_alias host identifier found ∧
      host1 = store_channel host found
        { host.chlist found with refcount := (host.chlist found).refcount + 1 } := by
  intro n
  induction n with
  | zero => intro index host1 found h; simp [map_alias_loop] at h
  | succ n ih =>
    intro index host1 found h
    by_cases h0 : live_alias host identifier index
    · have hc := (alias_test_iff host identifier index).mpr h0
      simp only [map_alias_loop, hc, and_self, if_true, Option.some.injEq,
        Prod.mk.injEq] at h
      obtain ⟨h1, h2⟩ := h
      subst h2
      refine ⟨h0, ?_⟩
      rw [← h1, kref_get_unless_zero_live _ h0.2]
      simp only [h0.1]
    · have hc : ¬ ((host.chlist index).identifier = identifier ∧
          (kref_get_unless_zero (host.chlist index).refcount).1 = true) := by
        rw [alias_test_iff]; exact h0
      simp only [map_alias_loop, hc, if_false] at h
      exact ih _ _ _ h

/-- Raising the refcount of a live slot keeps the pool consistent. -/
theorem pool_consistent_get (host : nvhost_master) (ch : Nat)
    (hlive : 0 < (host.chlist ch).refcount) (h : pool_consistent host) :
    pool_consistent (store_channel host ch
      { host.chlist ch with refcount := (host.chlist ch).refcount + 1 }) := by
  intro i
  by_cases hi : i = ch
  · subst hi
    refine slot_consistent_of_fields host _ i rfl rfl rfl ?_ ?_ ?_ ?_ (h i)
    · rw [store_channel_same]
      exact ⟨fun _ => hlive, fun _ => Nat.succ_pos _⟩
    · rw [store_channel_same]
    · rw [store_channel_same]; exact fun hne => hne
    · rw [store_channel_same]
  · refine slot_consistent_of_fields host _ i rfl rfl rfl ?_ ?_ ?_ ?_ (h i)
    · rw [store_channel_other _ _ _ _ hi]
    · rw [store_channel_other _ _ _ _ hi]
    · rw [store_channel_other _ _ _ _ hi]; exact fun hne => hne
    · rw [store_channel_other _ _ _ _ hi]

theorem pool_consistent_with_refcount (host : nvhost_master) (ch k : Nat)
    (hlive : 0 < (host.chlist ch).refcount) (hk : 0 < k) (h : pool_consistent host) :
    pool_consistent (with_refcount host ch k) := by
  intro i
  unfold with_refcount
  by_cases hi : i = ch
  · subst hi
    refine slot_consistent_of_fields host _ i rfl rfl rfl ?_ ?_ ?_ ?_ (h i)
    · rw [store_channel_same]
      exact ⟨fun _ => hlive, fun _ => hk⟩
    · rw [store_channel_same]
    · rw [store_channel_same]; exact fun hne => hne
    · rw [store_channel_same]
  · refine slot_consistent_of_fields host _ i rfl rfl rfl ?_ ?_ ?_ ?_ (h i)
    · rw [store_channel_other _ _ _ _ hi]
    · rw [store_channel_other _ _ _ _ hi]
    · rw [store_channel_other _ _ _ _ hi]; exact fun hne => hne
    · rw [store_channel_other _ _ _ _ hi]

/-- The teardown run by the put of the last reference keeps the pool
consistent: it clears the bit of the very slot whose binding it clears. -/
theorem pool_consistent_teardown (env : Env) (host : nvhost_master) (ch : Nat)
    (hlive : 0 < (host.chlist ch).refcount) (h : pool_consistent host) :
    pool_consistent (nvhost_channel_unmap_locked env (with_refcount host ch 0) ch).1 := by
  obtain ⟨c1, c2, _, c4, c5⟩ := h ch
  have hdev : (host.chlist ch).dev ≠ 0 := c2.mp hlive
  have hlt : ch < host.nb_channels := c4 (c1.mpr hlive)
  have hchid : (host.chlist ch).chid = host.ch_base + ch := c5 hlt
  have hdev0 : ((with_refcount host ch 0).chlist ch).dev ≠ 0 := by
    rw [with_refcount_slot]; exact hdev
  obtain ⟨_, b2, b3, b4, b5, b6, b7, b8, b9⟩ :=
    unmap_locked_bound env (with_refcount host ch 0) ch hdev0
  have hidx : nvhost_channel_get_index_from_id (with_refcount host ch 0)
      ((with_refcount host ch 0).chlist ch).chid = (ch : Int) := by
    rw [with_refcount_slot]
    simp only [nvhost_channel_get_index_from_id, nvhost_channel_ch_base, with_refcount,
      store_channel_base, hchid]
    omega
  rw [hidx] at b2
  have hnb : (nvhost_channel_unmap_locked env (with_refcount host ch 0) ch).1.nb_channels
      = host.nb_channels := b8
  have hbase : (nvhost_channel_unmap_locked env (with_refcount host ch 0) ch).1.ch_base
      = host.ch_base := b9
  intro i
  by_cases hi : i = ch
  · subst hi
    have hbit : (nvhost_channel_unmap_locked env (with_refcount host i 0) i).1.allocated_channels
        i = false := by
      rw [b2]; simp [clear_bit]
    have hrc : ((nvhost_channel_unmap_locked env (with_refcount host i 0) i).1.chlist
        i).refcount = 0 := by
      rw [b5, with_refcount_slot]
    refine ⟨?_, ?_, ?_, ?_, ?_⟩
    · rw [hbit, hrc]; simp
    · rw [hrc, b3]; simp
    · intro hne; exact absurd b4 hne
    · rw [hbit]; intro hh; exact Bool.noConfusion hh
    · intro _
      rw [hbase, b6, with_refcount_slot]
      exact hchid
  · have hother : (with_refcount host ch 0).chlist i = host.chlist i :=
      store_channel_other _ _ _ _ hi
    have hbit : (nvhost_channel_unmap_locked env (with_refcount host ch 0) ch).1.allocated_channels
        i = host.allocated_channels i := by
      rw [b2]
      have hne : ¬ ((i : Int) = (ch : Int)) := by omega
      simp only [clear_bit, hne, if_false]
      rfl
    refine slot_consistent_of_fields host _ i hnb hbase hbit ?_ ?_ ?_ ?_ (h i)
    · rw [b7 i hi, hother]
    · rw [b7 i hi, hother]
    · rw [b7 i hi, hother]; exact fun hne => hne
    · rw [b7 i hi, hother]

theorem pool_consistent_kref_put (env : Env) (host : nvhost_master) (ch : Nat)
    (h : pool_consistent host) : pool_consistent (kref_put env host ch).1 := by
  by_cases h0 : (host.chlist ch).refcount = 0
  · rw [kref_put_zero env host ch h0]; exact h
  · by_cases h1 : (host.chlist ch).refcount = 1
    · rw [kref_put_last env host ch h1]
      exact pool_consistent_teardown env host ch (by omega) h
    · rw [kref_put_more env host ch (by omega)]
      exact pool_consistent_with_refcount host ch _ (by omega) (by omega) h

theorem pool_consistent_putchannel_loop (env : Env) (ch : Nat) :
    ∀ n host, pool_consistent host → pool_consistent (putchannel_loop env ch n host).1 := by
  intro n
  induction n with
  | zero => intro host h; exact h
  | succ n ih =>
    intro host h
    simp only [putchannel_loop]
    exact ih _ (pool_consistent_kref_put env host ch h)

/-- The identifier of a slot after the search loop of
`nvhost_channel_remove_identifier` is the old one or `NULL`. -/
theorem remove_identifier_loop_tag (host : nvhost_master) (identifier : Nat) :
    ∀ n index j,
      ((remove_identifier_loop host identifier n index).chlist j).identifier
          = (host.chlist j).identifier ∨
      ((remove_identifier_loop host identifier n index).chlist j).identifier = 0 := by
  intro n
  induction n with
  | zero => intro index j; exact Or.inl rfl
  | succ n ih =>
    intro index j
    simp only [remove_identifier_loop]
    split
    · by_cases hj : j = index
      · subst hj; right; simp [store_channel]
      · left; simp [store_channel, hj]
    · exact ih (index + 1) j

theorem remove_identifier_loop_base (host : nvhost_master) (identifier : Nat) :
    ∀ n index, (remove_identifier_loop host identifier n index).ch_base = host.ch_base := by
  intro n
  induction n with
  | zero => intro index; rfl
  | succ n ih =>
    intro index
    simp only [remove_identifier_loop]
    split
    · rfl
    · exact ih _

theorem pool_consistent_remove_identifier (host : nvhost_master) (identifier : Nat)
    (h : pool_consistent host) :
    pool_consistent (nvhost_channel_remove_identifier host identifier).2 := by
  intro i
  simp only [nvhost_channel_remove_identifier]
  obtain ⟨f1, f2, _, _, f5⟩ := remove_identifier_loop_fields host identifier
    (nvhost_channel_nb_channels host) 0 i
  refine slot_consistent_of_fields host _ i (remove_identifier_loop_nb _ _ _ _)
    (remove_identifier_loop_base _ _ _ _) (by rw [remove_identifier_loop_bitmap])
    (by rw [f1]) f2 ?_ f5 (h i)
  intro hne
  rcases remove_identifier_loop_tag host identifier (nvhost_channel_nb_channels host) 0 i
    with ht | ht
  · rw [← ht]; exact hne
  · exact absurd ht hne

theorem pool_consistent_map (host : nvhost_master) (pdata : Option nvhost_device_data)
    (identifier : Nat) (r : Int × nvhost_master × Option Nat)
    (hwf : binds_device (PoolCall.map pdata identifier))
    (hr : nvhost_channel_map host pdata identifier = some r)
    (h : pool_consistent host) : pool_consistent r.2.1 := by
  unfold nvhost_channel_map at hr
  cases pdata with
  | none =>
    simp only [Option.some.injEq] at hr
    subst hr
    exact h
  | some pd =>
    have hpdev : pd.pdev ≠ 0 := hwf
    simp only at hr
    cases hal : map_alias_loop host identifier (nvhost_channel_nb_channels host) 0 with
    | some p =>
      obtain ⟨host1, found⟩ := p
      rw [hal] at hr
      simp only [Option.some.injEq] at hr
      subst hr
      obtain ⟨hl, he⟩ := map_alias_loop_some host identifier _ _ _ _ hal
      simp only
      rw [he]
      exact pool_consistent_get host found hl.2 h
    | none =>
      rw [hal] at hr
      simp only at hr
      split at hr
      · exact Option.noConfusion hr
      · rename_i hlt
        simp only [Option.some.injEq] at hr
        subst hr
        simp only
        have hlt2 : find_first_zero_bit host.allocated_channels
            (nvhost_channel_nb_channels host) < host.nb_channels := by
          simp only [nvhost_channel_nb_channels] at hlt ⊢
          omega
        intro i
        by_cases hi : i = find_first_zero_bit host.allocated_channels
            (nvhost_channel_nb_channels host)
        · obtain ⟨_, _, _, _, c5⟩ := h i
          refine ⟨?_, ?_, ?_, ?_, ?_⟩
          · simp [store_channel, set_bit, hi, kref_init]
          · simp [store_channel, hi, kref_init, hpdev]
          · intro _; simp [store_channel, hi, kref_init]
          · intro _; rw [hi]; exact hlt2
          · intro hlt3
            have := c5 hlt3
            simp only [store_channel, hi, if_true] at this ⊢
            exact this
        · refine slot_consistent_of_fields host _ i rfl rfl ?_ ?_ ?_ ?_ ?_ (h i)
          · simp [set_bit, hi]
          · simp [store_channel, hi]
          · simp [store_channel, hi]
          · simp [store_channel, hi]
          · simp [store_channel, hi]

theorem pool_consistent_run_call (host host1 : nvhost_master) (c : PoolCall)
    (hwf : binds_device c) (hinv : pool_consistent host) (h : run_call host c = some host1) :
    pool_consistent host1 := by
  cases c with
  | map pdata identifier =>
    simp only [run_call, Option.map_eq_some'] at h
    obtain ⟨r, hr, rfl⟩ := h
    exact pool_consistent_map host pdata identifier r hwf hr hinv
  | getchannel ch =>
    simp only [run_call, nvhost_getchannel] at h
    split at h
    · exact Option.noConfusion h
    · rename_i hdev
      simp only [Option.some.injEq] at h
      subst h
      exact pool_consistent_get host ch ((hinv ch).2.1.mpr hdev) hinv
  | putchannel env ch cnt =>
    simp only [run_call, Option.map_eq_some'] at h
    obtain ⟨r, hr, rfl⟩ := h
    simp only [nvhost_putchannel] at hr
    split at hr
    · exact Option.noConfusion hr
    · simp only [Option.some.injEq] at hr
      subst hr
      exact pool_consistent_putchannel_loop env ch _ host hinv
  | remove_identifier identifier =>
    simp only [run_call, Option.some.injEq] at h
    subst h
    exact pool_consistent_remove_identifier host identifier hinv

theorem pool_consistent_run_calls (calls : List PoolCall) :
    ∀ host host1, (∀ c, c ∈ calls → binds_device c) → pool_consistent host →
      run_calls host calls = some host1 → pool_consistent host1 := by
  induction calls with
  | nil =>
    intro host host1 _ hinv h
    simp only [run_calls, Option.some.injEq] at h
    subst h; exact hinv
  | cons c cs ih =>
    intro host host1 hwf hinv h
    simp only [run_calls, Option.bind_eq_some] at h
    obtain ⟨h2, hc, hcs⟩ := h
    exact ih h2 host1 (fun d hd => hwf d (List.mem_cons_of_mem _ hd))
      (pool_consistent_run_call host h2 c (hwf c (List.mem_cons_self _ _)) hinv hc) hcs

/-- C17, the claim as stated fails: on a fresh pool of two slots, after
`nvhost_channel_map` for identifier 11 and `nvhost_channel_remove_identifier`
for the same identifier, slot 0 has its allocation bit set, holds one reference
and is bound to device 7, while its identifier is `NULL`: "bit set if and only
if identifier present" does not hold. -/
theorem pool_invariant_counterexample :
    (run_calls (fresh_pool 1 2 5) untag_calls).map
        (fun h => (h.allocated_channels 0, (h.chlist 0).identifier, (h.chlist 0).refcount,
          (h.chlist 0).dev)) = some (true, 0, 1, 7) ∧
    ¬ ∀ host, run_calls (fresh_pool 1 2 5) untag_calls = some host →
        ∀ i, (host.allocated_channels i = true ↔ (host.chlist i).identifier ≠ 0) := by
  refine ⟨by decide, ?_⟩
  intro hall
  have h0 := hall ((run_calls (fresh_pool 1 2 5) untag_calls).getD (fresh_pool 1 2 5)) rfl 0
  exact absurd (h0.mp (by decide)) (by decide)

/-- C17, amended: in every state reached from the freshly initialised pool by
calls of `nvhost_channel_map` (with device data that is `NULL` or names a
device), `nvhost_getchannel`, `nvhost_putchannel` and
`nvhost_channel_remove_identifier` that return, every slot satisfies: its
allocation bit is set if and only if its refcount is above 0, if and only if its
device binding is present; a slot whose identifier is present has its bit set
(the converse fails); and its refcount is 0 if and only if its identifier is
absent and its device binding is cleared. -/
theorem pool_invariant_reachable (max_syncpts N : Nat) (ch_base : Int)
    (calls : List PoolCall) (host : nvhost_master)
    (hwf : ∀ c, c ∈ calls → binds_device c)
    (hrun : run_calls (fresh_pool max_syncpts N ch_base) calls = some host) :
    ∀ i, (host.allocated_channels i = true ↔ 0 < (host.chlist i).refcount) ∧
      (host.allocated_channels i = true ↔ (host.chlist i).dev ≠ 0) ∧
      ((host.chlist i).identifier ≠ 0 → host.allocated_channels i = true) ∧
      ((host.chlist i).refcount = 0 ↔
        (host.chlist i).identifier = 0 ∧ (host.chlist i).dev = 0) := by
  intro i
  obtain ⟨h1, h2, h3, _, _⟩ := pool_consistent_run_calls calls _ host hwf
    (pool_consistent_fresh max_syncpts N ch_base) hrun i
  refine ⟨h1, h1.trans h2, fun hne => h1.mpr (h3 hne), ?_⟩
  constructor
  · intro h0
    constructor
    · by_contra hne
      have := h3 hne
      omega
    · by_contra hne
      have := h2.mpr hne
      omega
  · intro ⟨_, hd⟩
    by_contra hne
    exact (h2.mp (Nat.pos_of_ne_zero hne)) hd

/-- C17 at the sample session on a pool of two slots with ids from 5: it ends
with slot 0 torn down and slot 1 live without identifier. -/
theorem pool_invariant_reachable_witness :
    ((∀ c, c ∈ sample_calls → binds_device c) ∧
     run_calls (fresh_pool 1 2 5) sample_calls
       = some ((run_calls (fresh_pool 1 2 5) sample_calls).getD (fresh_pool 1 2 5)) ∧
     (run_calls (fresh_pool 1 2 5) sample_calls).map
        (fun h => ((List.range 2).map h.allocated_channels,
          (List.range 2).map (fun i => ((h.chlist i).refcount, (h.chlist i).identifier,
            (h.chlist i).dev))))
       = some ([false, true], [(0, 0, 0), (1, 0, 7)])) ∧
    ∀ i, (((run_calls (fresh_pool 1 2 5) sample_calls).getD
          (fresh_pool 1 2 5)).allocated_channels i = true ↔
        0 < (((run_calls (fresh_pool 1 2 5) sample_calls).getD
          (fresh_pool 1 2 5)).chlist i).refcount) ∧
      (((run_calls (fresh_pool 1 2 5) sample_calls).getD
          (fresh_pool 1 2 5)).allocated_channels i = true ↔
        (((run_calls (fresh_pool 1 2 5) sample_calls).getD
          (fresh_pool 1 2 5)).chlist i).dev ≠ 0) ∧
      ((((run_calls (fresh_pool 1 2 5) sample_calls).getD
          (fresh_pool 1 2 5)).chlist i).identifier ≠ 0 →
        ((run_calls (fresh_pool 1 2 5) sample_calls).getD
          (fresh_pool 1 2 5)).allocated_channels i = true) ∧
      ((((run_calls (fresh_pool 1 2 5) sample_calls).getD
          (fresh_pool 1 2 5)).chlist i).refcount = 0 ↔
        (((run_calls (fresh_pool 1 2 5) sample_calls).getD
          (fresh_pool 1 2 5)).chlist i).identifier = 0 ∧
        (((run_calls (fresh_pool 1 2 5) sample_calls).getD
          (fresh_pool 1 2 5)).chlist i).dev = 0) :=
  ⟨⟨by
      intro c hc
      simp only [sample_calls, List.mem_cons, List.mem_singleton, List.not_mem_nil,
        or_false] at hc
      rcases hc with h | h | h | h | h <;> subst h <;> simp [binds_device, sample_pdata],
    rfl, by decide⟩,
   pool_invariant_reachable 1 2 5 sample_calls _
     (by
      intro c hc
      simp only [sample_calls, List.mem_cons, List.mem_singleton, List.not_mem_nil,
        or_false] at hc
      rcases hc with h | h | h | h | h <;> subst h <;> simp [binds_device, sample_pdata])
     rfl⟩

/-! ## Live identifiers are unique -/

/-- A step that revives no slot, changes identifiers only by clearing them and
leaves bound slots live keeps the liveness bookkeeping. -/
theorem alias_consistent_of_fields (host host1 : nvhost_master)
    (hnb : host1.nb_channels = host.nb_channels)
    (hlive : ∀ j, 0 < (host1.chlist j).refcount → 0 < (host.chlist j).refcount)
    (hid : ∀ j, (host1.chlist j).identifier = (host.chlist j).identifier ∨
      (host1.chlist j).identifier = 0)
    (hdev : ∀ j, (host1.chlist j).dev ≠ 0 → 0 < (host1.chlist j).refcount)
    (h : alias_consistent host) : alias_consistent host1 := by
  obtain ⟨_, p2, p3⟩ := h
  refine ⟨hdev, fun i hi => by rw [hnb]; exact p2 i (hlive i hi), ?_⟩
  intro identifier hne i j hi hj
  have key : ∀ k, live_alias host1 identifier k → live_alias host identifier k := by
    intro k hk
    refine ⟨?_, hlive k hk.2⟩
    rcases hid k with hk1 | hk1
    · rw [← hk1]; exact hk.1
    · exact absurd (hk.1.symm.trans hk1) hne
  exact p3 identifier hne i j (key i hi) (key j hj)

theorem fresh_pool_slot (max_syncpts N : Nat) (ch_base : Int) (i : Nat) :
    ((fresh_pool max_syncpts N ch_base).chlist i).refcount = 0 ∧
    ((fresh_pool max_syncpts N ch_base).chlist i).dev = 0 ∧
    ((fresh_pool max_syncpts N ch_base).chlist i).identifier = 0 := by
  have hc := alloc_channels_loop_chlist max_syncpts
    (nvhost_channel_nb_channels (zeroed_master max_syncpts N ch_base)) 0
    (zeroed_master max_syncpts N ch_base) i
  have hch : (fresh_pool max_syncpts N ch_base).chlist i =
      if 0 ≤ i ∧ i < 0 + N then zeroed_channel max_syncpts (ch_base + i)
      else zeroed_channel max_syncpts 0 := hc
  rw [hch]
  split <;> exact ⟨rfl, rfl, rfl⟩

theorem alias_consistent_fresh (max_syncpts N : Nat) (ch_base : Int) :
    alias_consistent (fresh_pool max_syncpts N ch_base) := by
  refine ⟨?_, ?_, ?_⟩
  · intro i hi
    exact absurd (fresh_pool_slot max_syncpts N ch_base i).2.1 hi
  · intro i hi
    rw [(fresh_pool_slot max_syncpts N ch_base i).1] at hi
    exact absurd hi (Nat.lt_irrefl 0)
  · intro identifier _ i j hi _
    have := hi.2
    rw [(fresh_pool_slot max_syncpts N ch_base i).1] at this
    exact absurd this (Nat.lt_irrefl 0)

/-- Changing the refcount of a live slot to another positive value keeps the
liveness bookkeeping. -/
theorem alias_consistent_with_refcount (host : nvhost_master) (ch k : Nat)
    (hlive : 0 < (host.chlist ch).refcount) (hk : 0 < k) (h : alias_consistent host) :
    alias_consistent (with_refcount host ch k) := by
  refine alias_consistent_of_fields host _ rfl ?_ ?_ ?_ h
  · intro j hj
    by_cases hjc : j = ch
    · subst hjc; exact hlive
    · simp only [with_refcount, store_channel_other _ _ _ _ hjc] at hj
      exact hj
  · intro j
    by_cases hjc : j = ch
    · subst hjc; left; simp only [with_refcount, store_channel_same]
    · left; simp only [with_refcount, store_channel_other _ _ _ _ hjc]
  · intro j hj
    by_cases hjc : j = ch
    · subst hjc; simp only [with_refcount, store_channel_same]; exact hk
    · simp only [with_refcount, store_channel_other _ _ _ _ hjc] at hj ⊢
      exact h.1 j hj

/-- The slot that `nvhost_channel_unmap_locked` ran on has no device binding
afterwards, its refcount is untouched and its identifier is the old one or
`NULL`; no other slot changes. -/
theorem unmap_locked_slot (env : Env) (host : nvhost_master) (ref : Nat) :
    ((nvhost_channel_unmap_locked env host ref).1.chlist ref).dev = 0 ∧
    ((nvhost_channel_unmap_locked env host ref).1.chlist ref).refcount
      = (host.chlist ref).refcount ∧
    (((nvhost_channel_unmap_locked env host ref).1.chlist ref).identifier
        = (host.chlist ref).identifier ∨
      ((nvhost_channel_unmap_locked env host ref).1.chlist ref).identifier = 0) ∧
    (∀ j, j ≠ ref →
      (nvhost_channel_unmap_locked env host ref).1.chlist j = host.chlist j) := by
  by_cases hdev : (host.chlist ref).dev = 0
  · have he : nvhost_channel_unmap_locked env host ref
        = (host, [Event.unmap_locked (host.chlist ref).chid, Event.pr_err_freeing_unmapped]) := by
      unfold nvhost_channel_unmap_locked
      simp only [hdev, if_true]
    rw [he]
    exact ⟨hdev, rfl, Or.inl rfl, fun _ _ => rfl⟩
  · obtain ⟨_, _, b3, b4, b5, _, b7, _, _⟩ := unmap_locked_bound env host ref hdev
    exact ⟨b3, b5, Or.inr b4, b7⟩

theorem alias_consistent_teardown (env : Env) (host : nvhost_master) (ch : Nat)
    (h : alias_consistent host) :
    alias_consistent (nvhost_channel_unmap_locked env (with_refcount host ch 0) ch).1 := by
  obtain ⟨u1, u2, u3, u4⟩ := unmap_locked_slot env (with_refcount host ch 0) ch
  have hother : ∀ j, j ≠ ch →
      (nvhost_channel_unmap_locked env (with_refcount host ch 0) ch).1.chlist j
        = host.chlist j := by
    intro j hj
    rw [u4 j hj]
    exact store_channel_other _ _ _ _ hj
  have hrc : ((nvhost_channel_unmap_locked env (with_refcount host ch 0) ch).1.chlist
      ch).refcount = 0 := by
    rw [u2, with_refcount_slot]
  refine alias_consistent_of_fields host _ ?_ ?_ ?_ ?_ h
  · rw [unmap_locked_nb]; rfl
  · intro j hj
    by_cases hjc : j = ch
    · subst hjc; rw [hrc] at hj; exact absurd hj (Nat.lt_irrefl 0)
    · rw [hother j hjc] at hj; exact hj
  · intro j
    by_cases hjc : j = ch
    · subst hjc
      rcases u3 with hu | hu
      · left; rw [hu, with_refcount_slot]
      · exact Or.inr hu
    · left; rw [hother j hjc]
  · intro j hj
    by_cases hjc : j = ch
    · subst hjc; exact absurd u1 hj
    · rw [hother j hjc] at hj ⊢
      exact h.1 j hj

theorem alias_consistent_kref_put (env : Env) (host : nvhost_master) (ch : Nat)
    (h : alias_consistent host) : alias_consistent (kref_put env host ch).1 := by
  by_cases h0 : (host.chlist ch).refcount = 0
  · rw [kref_put_zero env host ch h0]; exact h
  · by_cases h1 : (host.chlist ch).refcount = 1
    · rw [kref_put_last env host ch h1]
      exact alias_consistent_teardown env host ch h
    · rw [kref_put_more env host ch (by omega)]
      exact alias_consistent_with_refcount host ch _ (by omega) (by omega) h

theorem alias_consistent_putchannel_loop (env : Env) (ch : Nat) :
    ∀ n host, alias_consistent host → alias_consistent (putchannel_loop env ch n host).1 := by
  intro n
  induction n with
  | zero => intro host h; exact h
  | succ n ih =>
    intro host h
    simp only [putchannel_loop]
    exact ih _ (alias_consistent_kref_put env host ch h)

theorem alias_consistent_remove_identifier (host : nvhost_master) (identifier : Nat)
    (h : alias_consistent host) :
    alias_consistent (nvhost_channel_remove_identifier host identifier).2 := by
  simp only [nvhost_channel_remove_identifier]
  refine alias_consistent_of_fields host _ (remove_identifier_loop_nb _ _ _ _) ?_ ?_ ?_ h
  · intro j hj
    rw [(remove_identifier_loop_fields host identifier _ 0 j).1] at hj
    exact hj
  · intro j
    exact remove_identifier_loop_tag host identifier _ 0 j
  · intro j hj
    obtain ⟨f1, f2, _⟩ := remove_identifier_loop_fields host identifier
      (nvhost_channel_nb_channels host) 0 j
    rw [f2] at hj
    rw [f1]
    exact h.1 j hj

/-- When the alias search finds nothing, no slot of the pool is a live carrier
of the identifier. -/
theorem map_alias_loop_none_inv (host : nvhost_master) (identifier : Nat)
    (hal : map_alias_loop host identifier (nvhost_channel_nb_channels host) 0 = none)
    (j : Nat) (hj : j < host.nb_channels) : ¬ live_alias host identifier j := by
  intro hl
  obtain ⟨k, _, _, _, _, hk⟩ := map_alias_loop_first host identifier
    (nvhost_channel_nb_channels host) 0
    ⟨j, Nat.zero_le _, by simpa [nvhost_channel_nb_channels] using hj, hl⟩
  rw [hal] at hk
  exact Option.noConfusion hk

theorem alias_consistent_map (host : nvhost_master) (pdata : Option nvhost_device_data)
    (identifier : Nat) (r : Int × nvhost_master × Option Nat)
    (hr : nvhost_channel_map host pdata identifier = some r)
    (h : alias_consistent host) : alias_consistent r.2.1 := by
  unfold nvhost_channel_map at hr
  cases pdata with
  | none =>
    simp only [Option.some.injEq] at hr
    subst hr
    exact h
  | some pd =>
    simp only at hr
    cases hal : map_alias_loop host identifier (nvhost_channel_nb_channels host) 0 with
    | some p =>
      obtain ⟨host1, found⟩ := p
      rw [hal] at hr
      simp only [Option.some.injEq] at hr
      subst hr
      obtain ⟨hl, he⟩ := map_alias_loop_some host identifier _ _ _ _ hal
      simp only
      rw [he]
      exact alias_consistent_with_refcount host found _ hl.2 (Nat.succ_pos _) h
    | none =>
      rw [hal] at hr
      simp only at hr
      split at hr
      · exact Option.noConfusion hr
      · rename_i hlt
        simp only [Option.some.injEq] at hr
        subst hr
        simp only
        obtain ⟨p1, p2, p3⟩ := h
        have hlt2 : find_first_zero_bit host.allocated_channels
            (nvhost_channel_nb_channels host) < host.nb_channels := by
          simp only [nvhost_channel_nb_channels] at hlt ⊢
          omega
        obtain ⟨k, hk⟩ : ∃ k, find_first_zero_bit host.allocated_channels
            (nvhost_channel_nb_channels host) = k := ⟨_, rfl⟩
        rw [hk] at hlt2 ⊢
        have hold : ∀ ident j, j ≠ k →
            live_alias
              { store_channel host k
                  { host.chlist k with dev := pd.pdev, identifier := identifier,
                                       refcount := kref_init } with
                allocated_channels := set_bit k host.allocated_channels } ident j →
            live_alias host ident j := by
          intro ident j hjk hl
          simp only [live_alias, store_channel, hjk, if_false] at hl
          exact hl
        have hnew : ∀ ident,
            live_alias
              { store_channel host k
                  { host.chlist k with dev := pd.pdev, identifier := identifier,
                                       refcount := kref_init } with
                allocated_channels := set_bit k host.allocated_channels } ident k →
            ident = identifier := by
          intro ident hl
          simp only [live_alias, store_channel, if_true] at hl
          exact hl.1.symm
        refine ⟨?_, ?_, ?_⟩
        · intro i hi
          by_cases hik : i = k
          · subst hik; simp [store_channel, kref_init]
          · simp only [store_channel, hik, if_false] at hi ⊢
            exact p1 i hi
        · intro i hi
          by_cases hik : i = k
          · subst hik; exact hlt2
          · simp only [store_channel, hik, if_false] at hi
            exact p2 i hi
        · intro ident hne i j hi hj
          by_cases hik : i = k
          · by_cases hjk : j = k
            · rw [hik, hjk]
            · exfalso
              have hid := hnew ident (hik ▸ hi)
              have hjl := hold ident j hjk hj
              rw [hid] at hjl
              exact map_alias_loop_none_inv host identifier hal j (p2 j hjl.2) hjl
          · by_cases hjk : j = k
            · exfalso
              have hid := hnew ident (hjk ▸ hj)
              have hil := hold ident i hik hi
              rw [hid] at hil
              exact map_alias_loop_none_inv host identifier hal i (p2 i hil.2) hil
            · exact p3 ident hne i j (hold ident i hik hi) (hold ident j hjk hj)

theorem alias_consistent_run_call (host host1 : nvhost_master) (c : PoolCall)
    (hinv : alias_consistent host) (h : run_call host c = some host1) :
    alias_consistent host1 := by
  cases c with
  | map pdata identifier =>
    simp only [run_call, Option.map_eq_some'] at h
    obtain ⟨r, hr, rfl⟩ := h
    exact alias_consistent_map host pdata identifier r hr hinv
  | getchannel ch =>
    simp only [run_call, nvhost_getchannel] at h
    split at h
    · exact Option.noConfusion h
    · rename_i hdev
      simp only [Option.some.injEq] at h
      subst h
      exact alias_consistent_with_refcount host ch _ (hinv.1 ch hdev) (Nat.succ_pos _) hinv
  | putchannel env ch cnt =>
    simp only [run_call, Option.map_eq_some'] at h
    obtain ⟨r, hr, rfl⟩ := h
    simp only [nvhost_putchannel] at hr
    split at hr
    · exact Option.noConfusion hr
    · simp only [Option.some.injEq] at hr
      subst hr
      exact alias_consistent_putchannel_loop env ch _ host hinv
  | remove_identifier identifier =>
    simp only [run_call, Option.some.injEq] at h
    subst h
    exact alias_consistent_remove_identifier host identifier hinv

theorem alias_consistent_run_calls (calls : List PoolCall) :
    ∀ host host1, alias_consistent host → run_calls host calls = some host1 →
      alias_consistent host1 := by
  induction calls with
  | nil =>
    intro host host1 hinv h
    simp only [run_calls, Option.some.injEq] at h
    subst h; exact hinv
  | cons c cs ih =>
    intro host host1 hinv h
    simp only [run_calls, Option.bind_eq_some] at h
    obtain ⟨h2, hc, hcs⟩ := h
    exact ih h2 host1 (alias_consistent_run_call host h2 c hinv hc) hcs

/-- C21: in every state reached from the freshly initialised pool by calls of
`nvhost_channel_map`, `nvhost_getchannel`, `nvhost_putchannel` and
`nvhost_channel_remove_identifier` that return (whatever the counts of the
puts), no two distinct slots with refcount above 0 carry the same non-null
identifier; hence for a non-null identifier the aliasing search of
`nvhost_channel_map` has at most one candidate, and the slot it returns is the
only live carrier of the identifier. -/
theorem live_identifiers_unique (max_syncpts N : Nat) (ch_base : Int)
    (calls : List PoolCall) (host : nvhost_master)
    (hrun : run_calls (fresh_pool max_syncpts N ch_base) calls = some host) :
    (∀ i j, i ≠ j → 0 < (host.chlist i).refcount → 0 < (host.chlist j).refcount →
      (host.chlist i).identifier ≠ 0 →
      (host.chlist i).identifier ≠ (host.chlist j).identifier) ∧
    (∀ identifier, identifier ≠ 0 →
      ∀ i j, live_alias host identifier i → live_alias host identifier j → i = j) ∧
    (∀ identifier, identifier ≠ 0 → ∀ host1 found,
      map_alias_loop host identifier (nvhost_channel_nb_channels host) 0
        = some (host1, found) →
      ∀ j, live_alias host identifier j → j = found) := by
  obtain ⟨_, _, p3⟩ := alias_consistent_run_calls calls _ host
    (alias_consistent_fresh max_syncpts N ch_base) hrun
  refine ⟨?_, p3, ?_⟩
  · intro i j hij hi hj hne heq
    exact hij (p3 _ hne i j ⟨rfl, hi⟩ ⟨heq.symm, hj⟩)
  · intro identifier hne host1 found hal j hj
    exact p3 identifier hne j found hj (map_alias_loop_some host identifier _ _ _ _ hal).1

/-- C21 at a sample session on a pool of three slots with ids from 5: it ends
with slot 0 live without identifier, slot 1 live for identifier 12 and slot 2
live for identifier 11. -/
theorem live_identifiers_unique_witness :
    (run_calls (fresh_pool 1 3 5) alias_calls
       = some ((run_calls (fresh_pool 1 3 5) alias_calls).getD (fresh_pool 1 3 5)) ∧
     (run_calls (fresh_pool 1 3 5) alias_calls).map
        (fun h => (List.range 3).map (fun i => ((h.chlist i).refcount, (h.chlist i).identifier)))
       = some [(2, 0), (1, 12), (1, 11)]) ∧
    (∀ i j, i ≠ j →
      0 < (((run_calls (fresh_pool 1 3 5) alias_calls).getD
        (fresh_pool 1 3 5)).chlist i).refcount →
      0 < (((run_calls (fresh_pool 1 3 5) alias_calls).getD
        (fresh_pool 1 3 5)).chlist j).refcount →
      (((run_calls (fresh_pool 1 3 5) alias_calls).getD
        (fresh_pool 1 3 5)).chlist i).identifier ≠ 0 →
      (((run_calls (fresh_pool 1 3 5) alias_calls).getD
        (fresh_pool 1 3 5)).chlist i).identifier ≠
      (((run_calls (fresh_pool 1 3 5) alias_calls).getD
        (fresh_pool 1 3 5)).chlist j).identifier) ∧
    (∀ identifier, identifier ≠ 0 →
      ∀ i j,
        live_alias ((run_calls (fresh_pool 1 3 5) alias_calls).getD (fresh_pool 1 3 5))
          identifier i →
        live_alias ((run_calls (fresh_pool 1 3 5) alias_calls).getD (fresh_pool 1 3 5))
          identifier j → i = j) :=
  ⟨⟨rfl, by decide⟩,
   (live_identifiers_unique 1 3 5 alias_calls _ rfl).1,
   (live_identifiers_unique 1 3 5 alias_calls _ rfl).2.1⟩

/-! ## Block sizes below one register -/

/-- With fewer than 4 bytes per unit `vhost_host1x_regrdwr` has nothing to do:
it returns 0 at once. -/
theorem regrdwr_small_block {σ : Type} (C : Nat) (comm : Transport σ) (fuel : Nat) (s : σ)
    (msg0 : tegra_vhost_cmd_msg) (handle moduleid num_offsets block_size : Nat)
    (offs vals : Nat → Nat) (write : Nat) (hbs : block_size < 4) :
    vhost_host1x_regrdwr C comm fuel s msg0 handle moduleid num_offsets block_size
        offs vals write
      = some { ret := 0, vals := vals, server := s, sent := [], received := [],
               events := [] } := by
  have h0 : block_size / 4 = 0 := Nat.div_eq_of_lt hbs
  have hrem : u32 (num_offsets * (block_size / 4)) = 0 := by
    rw [h0, Nat.mul_zero]; rfl
  unfold vhost_host1x_regrdwr
  simp only [shiftRight_two, hrem]
  split
  · exact write_loop_nothing C comm _ offs vals fuel 0 0 0 _ s
  · exact read_loop_nothing C comm _ offs fuel 0 0 0 vals _ s

/-- C22: for every `block_size` in 0..3 and every other argument,
`vhost_host1x_regrdwr` computes zero registers per unit, hands no message to
`vhost_sendrecv`, leaves `vals` unchanged and returns 0, whatever the round-trip
bound.  A read through `vhost_rdwr_module_regs` with such a `block_size`, on a
device with a stored context and with its allocations and user copies
succeeding, returns 0 without any exchange; what `copy_to_user` hands to the
caller is the first `num_offsets * block_size` bytes (product taken as `u32`) of
the staging buffer as `kmalloc` handed it out. -/
theorem regrdwr_small_block_fetches_nothing {σ : Type} (ids : module_ids) (C : Nat)
    (comm : Transport σ) (fuel : Nat) (s : σ) (msg0 : tegra_vhost_cmd_msg)
    (handle moduleid num_offsets block_size : Nat) (offs vals : Nat → Nat) (write : Nat)
    (hbs : block_size < 4) :
    block_size >>> 2 = 0 ∧
    vhost_host1x_regrdwr C comm fuel s msg0 handle moduleid num_offsets block_size
        offs vals write
      = some { ret := 0, vals := vals, server := s, sent := [], received := [],
               events := [] } ∧
    (∀ (env : staging_env) (st : virt_state) (ctx : nvhost_virt_ctx) (pmoduleid : Int)
        (offsets values : Nat → Nat),
      env.kmalloc_vals = true → env.kmalloc_offs = true →
      env.copy_from_user_offs = 0 → env.copy_to_user_vals = 0 →
      st.virt_ctx ≠ 0 → st.heap st.virt_ctx = some ctx →
      vhost_rdwr_module_regs ids C comm fuel s msg0 env st pmoduleid num_offsets block_size
          offsets values 0
        = some { ret := 0,
                 values := copy_user values env.vals0 (u32 (num_offsets * block_size)) 0,
                 server := s, sent := [] }) := by
  refine ⟨by rw [shiftRight_two]; exact Nat.div_eq_of_lt hbs,
    regrdwr_small_block C comm fuel s msg0 handle moduleid num_offsets block_size offs vals
      write hbs, ?_⟩
  intro env st ctx pmoduleid offsets values h1 h2 h3 h4 h5 h6
  have hv : ¬ env.kmalloc_vals = false := by simp [h1]
  have ho : ¬ env.kmalloc_offs = false := by simp [h2]
  have hc3 : ¬ env.copy_from_user_offs ≠ 0 := by simp [h3]
  have hguard : ¬ ((0 : Nat) ≠ 0 ∧ env.copy_from_user_vals ≠ 0) := fun h => h.1 rfl
  unfold vhost_rdwr_module_regs
  dsimp only
  rw [if_neg hv, if_neg ho, if_neg hc3, if_neg hguard, if_neg h5, h6]
  dsimp only
  rw [regrdwr_small_block C comm fuel s msg0 _ _ num_offsets block_size _ _ 0 hbs]
  dsimp only
  rw [if_neg (by simp), if_pos rfl, if_neg (by simp [h4]), h4]
  simp only [ne_eq, not_true_eq_false, if_false]

/-- C22 at a sample: 5 units of 3 bytes, read from the sample server with no
round trip allowed, into a caller's array of zeros, the staging buffer holding
stale bytes `0xAA`: the call returns 0 with no message sent, and the 15 bytes
copied out are stale ones: three whole words `0xAAAAAAAA`, the three low-order
bytes of the fourth word, and nothing beyond. -/
theorem regrdwr_small_block_fetches_nothing_witness :
    (3 < 4 ∧
     (vhost_rdwr_module_regs sample_ids 4 sample_server 0 () sample_msg0 stale_staging
        connected_state 8 5 3 sample_offs (fun _ => 0) 0).map
        (fun r => (r.ret, r.sent.length, (List.range 5).map r.values))
       = some (0, 0, [2863311530, 2863311530, 2863311530, 11184810, 0])) ∧
    (3 >>> 2 = 0 ∧
     vhost_host1x_regrdwr 4 sample_server 0 () sample_msg0 77 1 5 3 sample_offs
         (fun _ => 0) 0
       = some { ret := 0, vals := fun _ => 0, server := (), sent := [], received := [],
                events := [] }) ∧
    vhost_rdwr_module_regs sample_ids 4 sample_server 0 () sample_msg0 stale_staging
        connected_state 8 5 3 sample_offs (fun _ => 0) 0
      = some { ret := 0,
               values := copy_user (fun _ => 0) stale_staging.vals0 (u32 (5 * 3)) 0,
               server := (), sent := [] } :=
  ⟨⟨by decide, by decide⟩,
   ⟨(regrdwr_small_block_fetches_nothing sample_ids 4 sample_server 0 () sample_msg0 77 1 5 3
      sample_offs (fun _ => 0) 0 (by decide)).1,
    (regrdwr_small_block_fetches_nothing sample_ids 4 sample_server 0 () sample_msg0 77 1 5 3
      sample_offs (fun _ => 0) 0 (by decide)).2.1⟩,
   (regrdwr_small_block_fetches_nothing sample_ids 4 sample_server 0 () sample_msg0 77 1 5 3
      sample_offs (fun _ => 0) 0 (by decide)).2.2 stale_staging connected_state
      { handle := 77 } 8 sample_offs (fun _ => 0) rfl rfl rfl rfl (by decide) rfl⟩

/-! ## The reference counts of the power partitions -/

theorem int_of_id (x : Int) (h1 : INT_MIN ≤ x) (h2 : x ≤ INT_MAX) : int_of x = x := by
  unfold int_of
  unfold INT_MIN at h1
  unfold INT_MAX at h2
  omega

theorem with_partition_same (refcount : Nat → Int) (p : Nat) (v : Int) :
    with_partition refcount p v p = v := by
  simp [with_partition]

theorem with_partition_twice (refcount : Nat → Int) (p : Nat) (v w : Int) :
    with_partition (with_partition refcount p v) p w = with_partition refcount p w := by
  funext k
  by_cases hk : k = p <;> simp [with_partition, hk]

theorem with_partition_self (refcount : Nat → Int) (p : Nat) :
    with_partition refcount p (refcount p) = refcount := by
  funext k
  by_cases hk : k = p
  · subst hk; simp [with_partition]
  · simp [with_partition, hk]

/-- Gating a partition without references only warns. -/
theorem powergate_zero (info : Nat → tegra_powergate_id_info) (env : pg_env)
    (refcount : Nat → Int) (id p : Nat) (hp : (info id).part_info = some p)
    (h0 : refcount p = 0) :
    tegra186_pg_powergate_partition info env refcount id
      = some { ret := 0, refcount := refcount,
               events := [PgEvent.warn_refcount_underflow p] } := by
  simp only [tegra186_pg_powergate_partition, hp, h0, ne_eq, not_true_eq_false, if_false]

/-- Gating a partition with references drops one and switches the partition
off when that was the last one. -/
theorem powergate_pos (info : Nat → tegra_powergate_id_info) (env : pg_env)
    (refcount : Nat → Int) (id p : Nat) (hp : (info id).part_info = some p)
    (h1 : 1 ≤ refcount p) (hmax : refcount p ≤ INT_MAX) :
    tegra186_pg_powergate_partition info env refcount id
      = some { ret := if refcount p = 1 then env.send_receive_ret else 0,
               refcount := with_partition refcount p (refcount p - 1),
               events := if refcount p = 1 then
                   [PgEvent.tegra_bpmp_send_receive (info id).part_id pg_state.PG_STATE_OFF]
                 else [] } := by
  have hne : refcount p ≠ 0 := by omega
  have e : int_of (refcount p - 1) = refcount p - 1 :=
    int_of_id _ (by unfold INT_MIN; omega) (by omega)
  simp only [tegra186_pg_powergate_partition, hp, e, pg_set_state]
  rw [if_pos hne]
  by_cases hone : refcount p = 1
  · have hz : refcount p - 1 = 0 := by omega
    rw [if_pos hz, if_pos hone, if_pos hone]
    rfl
  · have hz : ¬ refcount p - 1 = 0 := by omega
    rw [if_neg hz, if_neg hone, if_neg hone]
    rfl

/-- Ungating a partition adds a reference, as long as the count fits an `int`,
and switches the partition on when it had none. -/
theorem unpowergate_spec (info : Nat → tegra_powergate_id_info) (env : pg_env)
    (refcount : Nat → Int) (id p : Nat) (hp : (info id).part_info = some p)
    (hmin : INT_MIN ≤ refcount p) (hmax : refcount p < INT_MAX) :
    tegra186_pg_unpowergate_partition info env refcount id
      = some { ret := if refcount p = 0 then env.send_receive_ret else 0,
               refcount := with_partition refcount p (refcount p + 1),
               events := if refcount p = 0 then
                   [PgEvent.tegra_bpmp_send_receive (info id).part_id pg_state.PG_STATE_ON]
                 else [] } := by
  have e : int_of (refcount p + 1) = refcount p + 1 :=
    int_of_id _ (by omega) (by omega)
  simp only [tegra186_pg_unpowergate_partition, hp, e, pg_set_state]
  by_cases hz : refcount p = 0
  · rw [if_pos hz, if_pos hz, if_pos hz]
    rfl
  · rw [if_neg hz, if_neg hz, if_neg hz]
    rfl

/-- The count that `tegra186_pg_unpowergate_partition` leaves behind, whatever
the old one. -/
theorem unpowergate_refcount (info : Nat → tegra_powergate_id_info) (env : pg_env)
    (refcount : Nat → Int) (id p : Nat) (hp : (info id).part_info = some p) :
    (tegra186_pg_unpowergate_partition info env refcount id).map (fun r => r.refcount p)
      = some (int_of (refcount p + 1)) := by
  simp only [tegra186_pg_unpowergate_partition, hp]
  split <;> simp

theorem run_pg_calls_append (info : Nat → tegra_powergate_id_info) :
    ∀ (a b : List PgCall) (refcount : Nat → Int),
      run_pg_calls info refcount (a ++ b)
        = (run_pg_calls info refcount a).bind (fun r => run_pg_calls info r b) := by
  intro a
  induction a with
  | nil => intro b refcount; rfl
  | cons c cs ih =>
    intro b refcount
    simp only [List.cons_append, run_pg_calls]
    cases run_pg_call info refcount c with
    | none => rfl
    | some r => simp only [Option.some_bind]; exact ih b r

/-- Ungating `n` times in a row adds `n` references, as long as the count fits
an `int`. -/
theorem unpowergate_replicate (info : Nat → tegra_powergate_id_info) (env : pg_env)
    (id p : Nat) (hp : (info id).part_info = some p) :
    ∀ (n : Nat) (refcount : Nat → Int), INT_MIN ≤ refcount p → refcount p + n ≤ INT_MAX →
      run_pg_calls info refcount (List.replicate n (PgCall.unpowergate env id))
        = some (with_partition refcount p (refcount p + n)) := by
  intro n
  induction n with
  | zero =>
    intro refcount _ _
    simp only [List.replicate_zero, run_pg_calls, Nat.cast_zero, Int.add_zero,
      with_partition_self]
  | succ n ih =>
    intro refcount hmin hmax
    have hlt : refcount p < INT_MAX := by
      have : ((n + 1 : Nat) : Int) = (n : Int) + 1 := by push_cast; rfl
      omega
    simp only [List.replicate_succ, run_pg_calls, run_pg_call]
    rw [unpowergate_spec info env refcount id p hp hmin hlt]
    simp only [Option.map_some', Option.some_bind]
    rw [ih _ (by rw [with_partition_same]; unfold INT_MIN at hmin ⊢; omega)
      (by rw [with_partition_same]; unfold INT_MAX at hmax ⊢; push_cast at hmax ⊢; omega)]
    rw [with_partition_twice, with_partition_same]
    have hsum : refcount p + 1 + (n : Int) = refcount p + ((n + 1 : Nat) : Int) := by
      push_cast
      omega
    rw [hsum]

/-- One call keeps the counts at or above 0, and an ungating raises a count by
at most one. -/
theorem run_pg_call_bounds (info : Nat → tegra_powergate_id_info)
    (refcount final : Nat → Int) (c : PgCall) (cs : List PgCall)
    (hnn : ∀ k, 0 ≤ refcount k)
    (hb : ∀ k, refcount k + (unpowergate_count (c :: cs) : Int) ≤ INT_MAX)
    (h : run_pg_call info refcount c = some final) :
    ∀ k, 0 ≤ final k ∧
      final k + (unpowergate_count cs : Int)
        ≤ refcount k + (unpowergate_count (c :: cs) : Int) := by
  cases c with
  | powergate env id =>
    simp only [unpowergate_count] at hb ⊢
    simp only [run_pg_call] at h
    cases hp : (info id).part_info with
    | none =>
      simp only [tegra186_pg_powergate_partition, hp, Option.map_none'] at h
      exact Option.noConfusion h
    | some p =>
      by_cases hz : refcount p = 0
      · rw [powergate_zero info env refcount id p hp hz] at h
        simp only [Option.map_some', Option.some.injEq] at h
        subst h
        intro k
        exact ⟨hnn k, le_refl _⟩
      · have h1 : 1 ≤ refcount p := by have := hnn p; omega
        have hmax : refcount p ≤ INT_MAX := by
          have := hb p
          have : (0 : Int) ≤ (unpowergate_count cs : Int) := Int.ofNat_nonneg _
          omega
        rw [powergate_pos info env refcount id p hp h1 hmax] at h
        simp only [Option.map_some', Option.some.injEq] at h
        subst h
        intro k
        have := hnn k
        by_cases hk : k = p
        · subst hk
          simp only [with_partition, if_true]
          omega
        · simp only [with_partition, hk, if_false]
          omega
  | unpowergate env id =>
    simp only [unpowergate_count, Nat.cast_add, Nat.cast_one] at hb ⊢
    simp only [run_pg_call] at h
    cases hp : (info id).part_info with
    | none =>
      simp only [tegra186_pg_unpowergate_partition, hp, Option.map_none'] at h
      exact Option.noConfusion h
    | some p =>
      have hlt : refcount p < INT_MAX := by
        have := hb p
        have : (0 : Int) ≤ (unpowergate_count cs : Int) := Int.ofNat_nonneg _
        omega
      have hmin : INT_MIN ≤ refcount p := by
        have := hnn p
        unfold INT_MIN
        omega
      rw [unpowergate_spec info env refcount id p hp hmin hlt] at h
      simp only [Option.map_some', Option.some.injEq] at h
      subst h
      intro k
      have := hnn k
      by_cases hk : k = p
      · subst hk
        simp only [with_partition, if_true]
        omega
      · simp only [with_partition, hk, if_false]
        omega

/-- Over a sequence of calls with room for its ungatings, no count becomes
negative and no count rises by more than the number of ungatings. -/
theorem run_pg_calls_bounds (info : Nat → tegra_powergate_id_info) (calls : List PgCall) :
    ∀ (refcount final : Nat → Int), (∀ k, 0 ≤ refcount k) →
      (∀ k, refcount k + (unpowergate_count calls : Int) ≤ INT_MAX) →
      run_pg_calls info refcount calls = some final →
      ∀ k, 0 ≤ final k ∧ final k ≤ refcount k + (unpowergate_count calls : Int) := by
  induction calls with
  | nil =>
    intro refcount final hnn _ h
    simp only [run_pg_calls, Option.some.injEq] at h
    subst h
    intro k
    exact ⟨hnn k, by simp [unpowergate_count]⟩
  | cons c cs ih =>
    intro refcount final hnn hb h
    simp only [run_pg_calls, Option.bind_eq_some] at h
    obtain ⟨mid, hc, hcs⟩ := h
    have hstep := run_pg_call_bounds info refcount mid c cs hnn hb hc
    have hrest := ih mid final (fun k => (hstep k).1)
      (fun k => le_trans (hstep k).2 (hb k)) hcs
    intro k
    exact ⟨(hrest k).1, le_trans (hrest k).2 (hstep k).2⟩

/-- C23, the claim as stated fails at the top of the `int` range: with
refcount 2147483647 (`INT_MAX`) on partition 12,
`tegra186_pg_unpowergate_partition` leaves -2147483648 in the `int` field, not
`r + 1`; and 2147483648 calls of it in a row, starting from the zeroed table,
end with the refcount of partition 12 at -2147483648, a negative value. -/
theorem pg_refcount_overflow_counterexample :
    (tegra186_pg_unpowergate_partition sample_powergate_info sample_pg_env
        (fun _ => 2147483647) 12).map (fun r => (r.ret, r.refcount 12, r.events))
      = some (0, -2147483648, []) ∧
    (run_pg_calls sample_powergate_info (fun _ => 0)
        (List.replicate 2147483648 (PgCall.unpowergate sample_pg_env 12))).map
        (fun f => f 12) = some (-2147483648) := by
  refine ⟨by decide, ?_⟩
  have hp : (sample_powergate_info 12).part_info = some 12 := by decide
  have hsplit : List.replicate 2147483648 (PgCall.unpowergate sample_pg_env 12)
      = List.replicate 2147483647 (PgCall.unpowergate sample_pg_env 12)
          ++ [PgCall.unpowergate sample_pg_env 12] :=
    List.replicate_succ' 2147483647 _
  have hrun := unpowergate_replicate sample_powergate_info sample_pg_env 12 12 hp
    2147483647 (fun _ => 0) (by decide) (by decide)
  rw [hsplit, run_pg_calls_append, hrun]
  simp only [Option.some_bind, run_pg_calls, run_pg_call, Option.bind_eq_bind]
  have hlast := unpowergate_refcount sample_powergate_info sample_pg_env
    (with_partition (fun _ => 0) 12 ((fun _ => (0 : Int)) 12 + ((2147483647 : Nat) : Int)))
    12 12 hp
  rw [with_partition_same] at hlast
  cases hres : tegra186_pg_unpowergate_partition sample_powergate_info sample_pg_env
      (with_partition (fun _ => 0) 12 ((fun _ => (0 : Int)) 12 + ((2147483647 : Nat) : Int)))
      12 with
  | none =>
    rw [hres] at hlast
    exact Option.noConfusion hlast
  | some res =>
    rw [hres] at hlast
    simp only [Option.map_some', Option.some.injEq] at hlast
    simp only [Option.map_some', Option.some_bind, Option.some.injEq]
    rw [hlast]
    decide

/-- C23, amended: for a power partition with refcount `r`, `0 ≤ r ≤ INT_MAX`:
`tegra186_pg_powergate_partition` with `r = 0` sends no state request, leaves
every refcount as it is and returns 0; with `r ≥ 1` it lowers the refcount to
`r - 1` and sends `PG_STATE_OFF` if and only if `r = 1`;
`tegra186_pg_unpowergate_partition` with `r < INT_MAX` raises the refcount to
`r + 1`, whatever the request returns, and sends `PG_STATE_ON` if and only if
`r = 0`.  Hence over any sequence of these calls that starts with no refcount
negative and has room below `INT_MAX` for its ungatings, no refcount is ever
negative. -/
theorem pg_refcount_protocol (info : Nat → tegra_powergate_id_info) (env : pg_env)
    (refcount : Nat → Int) (id p : Nat) (r : Int)
    (hp : (info id).part_info = some p) (hr : refcount p = r)
    (h0 : 0 ≤ r) (hmax : r ≤ INT_MAX) :
    (r = 0 →
      tegra186_pg_powergate_partition info env refcount id
        = some { ret := 0, refcount := refcount,
                 events := [PgEvent.warn_refcount_underflow p] }) ∧
    (1 ≤ r → ∃ res, tegra186_pg_powergate_partition info env refcount id = some res ∧
      res.refcount = with_partition refcount p (r - 1) ∧
      state_requests res.events = (if r = 1 then [pg_state.PG_STATE_OFF] else []) ∧
      res.ret = (if r = 1 then env.send_receive_ret else 0)) ∧
    (r < INT_MAX → ∃ res, tegra186_pg_unpowergate_partition info env refcount id = some res ∧
      res.refcount = with_partition refcount p (r + 1) ∧
      state_requests res.events = (if r = 0 then [pg_state.PG_STATE_ON] else []) ∧
      res.ret = (if r = 0 then env.send_receive_ret else 0)) ∧
    (∀ calls final, (∀ k, 0 ≤ refcount k) →
      (∀ k, refcount k + (unpowergate_count calls : Int) ≤ INT_MAX) →
      run_pg_calls info refcount calls = some final →
      ∀ k, 0 ≤ final k ∧ final k ≤ refcount k + (unpowergate_count calls : Int)) := by
  subst hr
  refine ⟨fun hz => powergate_zero info env refcount id p hp hz, ?_, ?_,
    fun calls final hnn hb h => run_pg_calls_bounds info calls refcount final hnn hb h⟩
  · intro h1
    refine ⟨_, powergate_pos info env refcount id p hp h1 hmax, rfl, ?_, rfl⟩
    by_cases hone : refcount p = 1
    · simp [hone, state_requests]
    · simp [hone, state_requests]
  · intro hlt
    refine ⟨_, unpowergate_spec info env refcount id p hp
      (by unfold INT_MIN; omega) hlt, rfl, ?_, rfl⟩
    by_cases hz : refcount p = 0
    · simp [hz, state_requests]
    · simp [hz, state_requests]

/-- C23 at a sample: partition 12 with one reference is switched off by the
gating call, which reports the controller's answer -22; the sample session on,
on, off, off, off from the zeroed table ends with refcount 0 and stays within
the bounds. -/
theorem pg_refcount_protocol_witness :
    (((sample_powergate_info 12).part_info = some 12 ∧
      with_partition (fun _ => 0) 12 1 12 = 1 ∧ (0 : Int) ≤ 1 ∧ (1 : Int) ≤ INT_MAX) ∧
     (tegra186_pg_powergate_partition sample_powergate_info sample_pg_env
        (with_partition (fun _ => 0) 12 1) 12).map
        (fun r => (r.ret, r.refcount 12, r.events))
       = some (-22, 0, [PgEvent.tegra_bpmp_send_receive 12 pg_state.PG_STATE_OFF]) ∧
     (run_pg_calls sample_powergate_info (fun _ => 0) sample_pg_calls).map
        (fun f => f 12) = some 0) ∧
    ((1 : Int) ≤ 1 → ∃ res,
      tegra186_pg_powergate_partition sample_powergate_info sample_pg_env
        (with_partition (fun _ => 0) 12 1) 12 = some res ∧
      res.refcount = with_partition (with_partition (fun _ => 0) 12 1) 12 (1 - 1) ∧
      state_requests res.events = (if (1 : Int) = 1 then [pg_state.PG_STATE_OFF] else []) ∧
      res.ret = (if (1 : Int) = 1 then sample_pg_env.send_receive_ret else 0)) ∧
    ((1 : Int) < INT_MAX → ∃ res,
      tegra186_pg_unpowergate_partition sample_powergate_info sample_pg_env
        (with_partition (fun _ => 0) 12 1) 12 = some res ∧
      res.refcount = with_partition (with_partition (fun _ => 0) 12 1) 12 (1 + 1) ∧
      state_requests res.events = (if (1 : Int) = 0 then [pg_state.PG_STATE_ON] else []) ∧
      res.ret = (if (1 : Int) = 0 then sample_pg_env.send_receive_ret else 0)) :=
  ⟨⟨⟨by decide, by decide, by decide, by decide⟩, by decide, by decide⟩,
   (pg_refcount_protocol sample_powergate_info sample_pg_env
      (with_partition (fun _ => 0) 12 1) 12 12 1 (by decide) (by decide) (by decide)
      (by decide)).2.1,
   (pg_refcount_protocol sample_powergate_info sample_pg_env
      (with_partition (fun _ => 0) 12 1) 12 12 1 (by decide) (by decide) (by decide)
      (by decide)).2.2.1⟩

end Nvhost
